import Mathlib

/-!
# A shallow embedding of `cpSpaceComponent.c` (Chipmunk2D sleep/wake engine)

Bodies, arbiters and constraints are modelled as total stores indexed by
natural-number identifiers (`cpBody*`, `cpArbiter*`, `cpConstraint*` pointers
in the C source).  The state `St` carries the stores together with the fields
of `cpSpace` that `cpSpaceComponent.c` reads or writes.  C floats (`cpFloat`)
are modelled as integers: the algorithm only adds, multiplies, compares and
zeroes them (there is no division in this file), so any linear-ordered
commutative ring is a faithful carrier, and ℤ keeps every definition
kernel-computable.

The C recursion (`componentNodeRoot`) and the intrusive-list and ring loops
are modelled with explicit fuel returning `Option St`: `none` means the fuel
ran out or the C code would have dereferenced a null pointer, and every
theorem is conditioned on the run succeeding.
-/

namespace Chipmunk2D

/-- Identifier of a `cpBody*`. -/
abbrev BodyId := Nat

/-- Identifier of a `cpShape*`. -/
abbrev ShapeId := Nat

/-- Identifier of a `cpArbiter*`. -/
abbrev ArbId := Nat

/-- Identifier of a `cpConstraint*`. -/
abbrev ConsId := Nat

/-- One `cpContact` record, reduced to the payload the spec's scenario S6
names: `(px, py, jn, jt)`.  Byte-identical copies of contact arrays become
equality of `List Contact`. -/
abbrev Contact := ℤ × ℤ × ℤ × ℤ

/-- Modelled from the spec: custody of an arbiter's contact array (§3
invariant 4, §9 design note).  `buffer` means the array lives in the space's
per-step contact buffer; `heap` means it lives in a private heap block
allocated by `cpSpaceDeactivateBody` (`cpmalloc`/`cpfree` are outside
`src/`).  Replacing a `heap` value releases the block. -/
inductive ContactStorage where
  | buffer (data : List Contact)
  | heap (data : List Contact)
deriving DecidableEq

/-- The stored contact array, whatever its custody. -/
def ContactStorage.data : ContactStorage → List Contact
  | .buffer d => d
  | .heap d => d

/-- The engine-private `cpComponentNode` record embedded in every body:
DSF parent, component-ring `next`, union rank, and idle-time accumulator. -/
structure ComponentNode where
  parent : Option BodyId
  next : Option BodyId
  rank : Nat
  idleTime : ℤ
deriving DecidableEq

/-- The slice of `cpBody` that `cpSpaceComponent.c` touches.  `staticFlag`
and `rogueFlag` model the classification predicates (`cpBodyIsStatic`,
`cpBodyIsRogue` live outside `src/`); `ke` is the value
`cpBodyKineticEnergy` would return, read-only to this engine. -/
structure Body where
  node : ComponentNode
  arbiterList : Option ArbId
  constraintList : Option ConsId
  shapeList : List ShapeId
  staticFlag : Bool
  rogueFlag : Bool
  m : ℤ
  ke : ℤ
deriving DecidableEq

/-- The slice of `cpArbiter` used here: the two shapes, the two intrusive
`next` links, and the contact array with its custody tag.  `numContacts`
is `contacts.data.length`. -/
structure Arbiter where
  a : ShapeId
  b : ShapeId
  nextA : Option ArbId
  nextB : Option ArbId
  contacts : ContactStorage
deriving DecidableEq

/-- The slice of `cpConstraint` used here: the two bodies and the two
intrusive `next` links. -/
structure Constraint where
  a : BodyId
  b : BodyId
  nextA : Option ConsId
  nextB : Option ConsId
deriving DecidableEq

/-- The space state: the three stores, the shape→body ownership map
(`shape->body`, constant here), and the `cpSpace` fields this file uses. -/
structure St where
  bodyOf : BodyId → Body
  arbOf : ArbId → Arbiter
  consOf : ConsId → Constraint
  shapeBody : ShapeId → BodyId
  bodies : List BodyId
  rousedBodies : List BodyId
  sleepingComponents : List BodyId
  activeShapes : List ShapeId
  staticShapes : List ShapeId
  arbiters : List ArbId
  constraints : List ConsId
  contactSet : List ((ShapeId × ShapeId) × ArbId)
  contactBufferUsed : Nat
  locked : Bool
  idleSpeedThreshold : ℤ
  sleepTimeThreshold : ℤ
  gravitySq : ℤ

/-- Update one body in the store. -/
def updBody (st : St) (i : BodyId) (f : Body → Body) : St :=
  { st with bodyOf := fun j => if j = i then f (st.bodyOf i) else st.bodyOf j }

/-- Update one arbiter in the store. -/
def updArb (st : St) (i : ArbId) (f : Arbiter → Arbiter) : St :=
  { st with arbOf := fun j => if j = i then f (st.arbOf i) else st.arbOf j }

/-- Modelled from the spec: `cpBodyIsStatic` (declared outside `src/`);
§3 classification predicate "isStatic". -/
def cpBodyIsStatic (body : Body) : Bool := body.staticFlag

/-- Modelled from the spec: `cpBodyIsRogue` (declared outside `src/`);
§3 "isRogue (not bound to a space)".  A rogue body has no space, so the
`cpAssert(space, ...)` checks in the source are modelled as this flag. -/
def cpBodyIsRogue (body : Body) : Bool := body.rogueFlag

/-- Modelled from the spec: `cpBodyIsSleeping` (declared outside `src/`);
§3 "isSleeping (has a non-absent `node.next` ...)". -/
def cpBodyIsSleeping (body : Body) : Bool := body.node.next.isSome

/-- Modelled from the spec: `cpBodyKineticEnergy` (outside `src/`), a
read-only helper (§6); its value is carried as the field `ke`. -/
def cpBodyKineticEnergy (body : Body) : ℤ := body.ke

/-- Modelled from the spec: the unordered shape-pair fingerprint
(`CP_HASH_PAIR`, outside `src/`); §6 "Pair key is an unordered fingerprint
of two shape identities, symmetric in its arguments". -/
def pairKey (a b : ShapeId) : ShapeId × ShapeId :=
  if a ≤ b then (a, b) else (b, a)

/-- Modelled from the spec: `cpHashSetInsert` on `contactSet` (outside
`src/`); §6 `contactSetInsert(pairKey, shapePair, arbiter)` — inserts the
arbiter unless the key is already bound. -/
def contactSetInsert (st : St) (key : ShapeId × ShapeId) (arbId : ArbId) : St :=
  if st.contactSet.any (fun e => e.1 == key) then st
  else { st with contactSet := (key, arbId) :: st.contactSet }

/-- Modelled from the spec: `cpHashSetRemove` on `contactSet` (outside
`src/`); §6 `contactSetRemove(pairKey, shapePair)`. -/
def contactSetRemove (st : St) (key : ShapeId × ShapeId) : St :=
  { st with contactSet := st.contactSet.eraseP (fun e => e.1 == key) }

/-- `componentNodeRoot` (source lines 34–45): walk `node.parent` to the
root, rewriting every visited body's parent to the final root (full path
compression).  The C recursion is modelled with fuel; `none` is an
infinite parent chain (or exhausted fuel). -/
def componentNodeRoot : Nat → St → BodyId → Option (St × BodyId)
  | 0, _, _ => none
  | fuel + 1, st, body =>
    match (st.bodyOf body).node.parent with
    | none => some (st, body)
    | some parent =>
      match componentNodeRoot fuel st parent with
      | none => none
      | some (st1, root) =>
        some (updBody st1 body
          (fun bo => { bo with node := { bo.node with parent := some root } }), root)

/-- `componentNodeMerge` (lines 47–58): union by rank of two DSF roots. -/
def componentNodeMerge (st : St) (aRoot bRoot : BodyId) : St :=
  if (st.bodyOf aRoot).node.rank < (st.bodyOf bRoot).node.rank then
    updBody st aRoot (fun bo => { bo with node := { bo.node with parent := some bRoot } })
  else if (st.bodyOf bRoot).node.rank < (st.bodyOf aRoot).node.rank then
    updBody st bRoot (fun bo => { bo with node := { bo.node with parent := some aRoot } })
  else if aRoot ≠ bRoot then
    let st1 := updBody st bRoot
      (fun bo => { bo with node := { bo.node with parent := some aRoot } })
    updBody st1 aRoot (fun bo => { bo with node := { bo.node with rank := bo.node.rank + 1 } })
  else st

/-- The loop-increment of the per-body arbiter traversals (lines 73, 107):
`arb->a->body == body ? arb->nextA : arb->nextB`. -/
def arbNext (st : St) (body : BodyId) (arbId : ArbId) : Option ArbId :=
  if st.shapeBody (st.arbOf arbId).a = body then (st.arbOf arbId).nextA
  else (st.arbOf arbId).nextB

/-- The loop-increment of the per-body constraint traversals (lines 92,
123): `c->a == body ? c->nextA : c->nextB`. -/
def consNext (st : St) (body : BodyId) (cid : ConsId) : Option ConsId :=
  if (st.consOf cid).a = body then (st.consOf cid).nextA else (st.consOf cid).nextB

/-- The list of arbiters the source's traversal visits starting from a
given link, in order, up to the fuel bound. -/
def arbChain (st : St) (body : BodyId) : Nat → Option ArbId → List ArbId
  | 0, _ => []
  | _, none => []
  | fuel + 1, some arbId => arbId :: arbChain st body fuel (arbNext st body arbId)

/-- The primary-side test of the two arbiter loops (lines 74 and 108):
`body == arb->a->body || cpBodyIsStatic(arb->a->body)`. -/
def arbPrimary (st : St) (body : BodyId) (arbId : ArbId) : Bool :=
  st.shapeBody (st.arbOf arbId).a = body ||
    cpBodyIsStatic (st.bodyOf (st.shapeBody (st.arbOf arbId).a))

/-- The body of the arbiter loop of `cpSpaceActivateBody` (lines 73–90):
for an arbiter whose primary side is this body (or whose `a` side is
static), copy the saved contacts back into the per-step contact buffer,
advance the buffer watermark, insert the arbiter into `contactSet`, and
release the private heap block (`cpfree(contacts)`). -/
def activateArbStep (st : St) (body : BodyId) (arbId : ArbId) : St :=
  let arb := st.arbOf arbId
  if st.shapeBody arb.a = body || cpBodyIsStatic (st.bodyOf (st.shapeBody arb.a)) then
    let saved := arb.contacts
    let st1 := updArb st arbId (fun ar => { ar with contacts := .buffer saved.data })
    let st2 := { st1 with contactBufferUsed := st1.contactBufferUsed + saved.data.length }
    contactSetInsert st2 (pairKey arb.a arb.b) arbId
  else st

/-- The arbiter loop of `cpSpaceActivateBody` (line 73), fuel-bounded. -/
def activateArbLoop (body : BodyId) : Nat → St → Option ArbId → Option St
  | _, st, none => some st
  | 0, _, some _ => none
  | fuel + 1, st, some arbId =>
    let st1 := activateArbStep st body arbId
    activateArbLoop body fuel st1 (arbNext st1 body arbId)

/-- The constraint loop of `cpSpaceActivateBody` (lines 92–95). -/
def activateConsLoop (body : BodyId) : Nat → St → Option ConsId → Option St
  | _, st, none => some st
  | 0, _, some _ => none
  | fuel + 1, st, some cid =>
    let st1 :=
      if (st.consOf cid).a = body || cpBodyIsStatic (st.bodyOf (st.consOf cid).a) then
        { st with constraints := st.constraints ++ [cid] }
      else st
    activateConsLoop body fuel st1 (consNext st1 body cid)

/-- `cpSpaceActivateBody` (lines 60–97).  While locked only `rousedBodies`
grows; otherwise the body is appended to `space->bodies`, its shapes
migrate `staticShapes → activeShapes`, its primary-side arbiters are
restored into the contact buffer and `contactSet`, and its primary-side
constraints are pushed onto `space->constraints`. -/
def cpSpaceActivateBody (fuel : Nat) (st : St) (body : BodyId) : Option St :=
  if st.locked then
    some { st with rousedBodies := st.rousedBodies ++ [body] }
  else
    let st1 := { st with bodies := st.bodies ++ [body] }
    let st2 := (st1.bodyOf body).shapeList.foldl (fun s sh =>
      { s with staticShapes := s.staticShapes.erase sh,
               activeShapes := sh :: s.activeShapes }) st1
    do
      let st3 ← activateArbLoop body fuel st2 ((st2.bodyOf body).arbiterList)
      activateConsLoop body fuel st3 ((st3.bodyOf body).constraintList)

/-- The body of the arbiter loop of `cpSpaceDeactivateBody` (lines 107–121):
remove the arbiter from `contactSet` and `space->arbiters`, then save its
contacts into a freshly allocated private heap block. -/
def deactivateArbStep (st : St) (body : BodyId) (arbId : ArbId) : St :=
  let arb := st.arbOf arbId
  if st.shapeBody arb.a = body || cpBodyIsStatic (st.bodyOf (st.shapeBody arb.a)) then
    let st1 := contactSetRemove st (pairKey arb.a arb.b)
    let st2 := { st1 with arbiters := st1.arbiters.erase arbId }
    updArb st2 arbId (fun ar => { ar with contacts := .heap ar.contacts.data })
  else st

/-- The arbiter loop of `cpSpaceDeactivateBody` (line 107), fuel-bounded. -/
def deactivateArbLoop (body : BodyId) : Nat → St → Option ArbId → Option St
  | _, st, none => some st
  | 0, _, some _ => none
  | fuel + 1, st, some arbId =>
    let st1 := deactivateArbStep st body arbId
    deactivateArbLoop body fuel st1 (arbNext st1 body arbId)

/-- The constraint loop of `cpSpaceDeactivateBody` (lines 123–126). -/
def deactivateConsLoop (body : BodyId) : Nat → St → Option ConsId → Option St
  | _, st, none => some st
  | 0, _, some _ => none
  | fuel + 1, st, some cid =>
    let st1 :=
      if (st.consOf cid).a = body || cpBodyIsStatic (st.bodyOf (st.consOf cid).a) then
        { st with constraints := st.constraints.erase cid }
      else st
    deactivateConsLoop body fuel st1 (consNext st1 body cid)

/-- `cpSpaceDeactivateBody` (lines 99–127): migrate shapes
`activeShapes → staticShapes`, detach primary-side arbiters from
`contactSet`/`space->arbiters` saving their contacts to private heap
blocks, and remove primary-side constraints from `space->constraints`. -/
def cpSpaceDeactivateBody (fuel : Nat) (st : St) (body : BodyId) : Option St :=
  let st1 := (st.bodyOf body).shapeList.foldl (fun s sh =>
    { s with activeShapes := s.activeShapes.erase sh,
             staticShapes := sh :: s.staticShapes }) st
  do
    let st2 ← deactivateArbLoop body fuel st1 ((st1.bodyOf body).arbiterList)
    deactivateConsLoop body fuel st2 ((st2.bodyOf body).constraintList)

/-- The ring walk of `componentActivate` (lines 137–145): clear each ring
member's node to `{NULL, NULL, 0, 0}` and activate it; stop when the saved
`next` is the root again.  A `none` ring link is a null dereference in C. -/
def componentActivateLoop (fuel root : Nat) : Nat → St → BodyId → Option St
  | 0, _, _ => none
  | n + 1, st, body => do
    let next := (st.bodyOf body).node.next
    let st1 := updBody st body (fun bo => { bo with node := ⟨none, none, 0, 0⟩ })
    let st2 ← cpSpaceActivateBody fuel st1 body
    match next with
    | none => none
    | some nb => if nb = root then some st2 else componentActivateLoop fuel root n st2 nb

/-- `componentActivate` (lines 129–148): if the root is not sleeping,
return unchanged; otherwise (the root must have a space, i.e. not be
rogue, per the `cpAssert`) walk the ring activating every member, then
delete the root from `sleepingComponents`. -/
def componentActivate (fuel : Nat) (st : St) (root : BodyId) : Option St :=
  if ¬ cpBodyIsSleeping (st.bodyOf root) then some st
  else if cpBodyIsRogue (st.bodyOf root) then none
  else do
    let st1 ← componentActivateLoop fuel root fuel st root
    some { st1 with sleepingComponents := st1.sleepingComponents.erase root }

/-- `cpBodyActivate` (lines 150–154):
`componentActivate(componentNodeRoot(body))`. -/
def cpBodyActivate (fuel : Nat) (st : St) (body : BodyId) : Option St := do
  let (st1, root) ← componentNodeRoot fuel st body
  componentActivate fuel st1 root

/-- `mergeBodies` (lines 156–178).  Static endpoints are ignored; sleeping
roots are woken; rogue endpoints are pushed onto the scratch `rogueBodies`
array and zero the idle time of the body they touch; the roots are
unioned.  The unused `components` parameter of the C function is omitted. -/
def mergeBodies (fuel : Nat) (st : St) (rogueBodies : List BodyId) (a b : BodyId) :
    Option (St × List BodyId) :=
  if cpBodyIsStatic (st.bodyOf a) || cpBodyIsStatic (st.bodyOf b) then
    some (st, rogueBodies)
  else do
    let (st1, aRoot) ← componentNodeRoot fuel st a
    let (st2, bRoot) ← componentNodeRoot fuel st1 b
    let aSleep := cpBodyIsSleeping (st2.bodyOf aRoot)
    let bSleep := cpBodyIsSleeping (st2.bodyOf bRoot)
    let st3 ←
      if aSleep || bSleep then do
        let s ← componentActivate fuel st2 aRoot
        componentActivate fuel s bRoot
      else some st2
    let p1 :=
      if cpBodyIsRogue (st3.bodyOf a) then
        (updBody st3 b (fun bo => { bo with node := { bo.node with idleTime := 0 } }),
          rogueBodies ++ [a])
      else (st3, rogueBodies)
    let p2 :=
      if cpBodyIsRogue (p1.1.bodyOf b) then
        (updBody p1.1 a (fun bo => { bo with node := { bo.node with idleTime := 0 } }),
          p1.2 ++ [b])
      else p1
    some (componentNodeMerge p2.1 aRoot bRoot, p2.2)

/-- The ring walk of `componentActive` (lines 180–190): `true` as soon as
some member's idle time is below the threshold, `false` after a full lap. -/
def componentActiveLoop (st : St) (root : BodyId) (threshold : ℤ) :
    Nat → BodyId → Option Bool
  | 0, _ => none
  | fuel + 1, body =>
    if (st.bodyOf body).node.idleTime < threshold then some true
    else
      match (st.bodyOf body).node.next with
      | none => none
      | some nb =>
        if nb = root then some false else componentActiveLoop st root threshold fuel nb

/-- `componentActive` (lines 180–190). -/
def componentActive (fuel : Nat) (st : St) (root : BodyId) (threshold : ℤ) : Option Bool :=
  componentActiveLoop st root threshold fuel root

/-- `addToComponent` (lines 192–212): skip an already-placed body;
otherwise find its root, and either seed a new ring (appending the root to
`components`) or splice the body in right after the root. -/
def addToComponent (fuel : Nat) (st : St) (components : List BodyId) (body : BodyId) :
    Option (St × List BodyId) :=
  if (st.bodyOf body).node.next.isSome then some (st, components)
  else do
    let (st1, root) ← componentNodeRoot fuel st body
    match (st1.bodyOf root).node.next with
    | none =>
      let st2 := updBody st1 body
        (fun bo => { bo with node := { bo.node with next := some root } })
      let st3 := updBody st2 root
        (fun bo => { bo with node := { bo.node with next := some body } })
      some (st3, components ++ [root])
    | some nxt =>
      if root ≠ body then
        let st2 := updBody st1 body
          (fun bo => { bo with node := { bo.node with next := some nxt } })
        let st3 := updBody st2 root
          (fun bo => { bo with node := { bo.node with next := some body } })
        some (st3, components)
      else some (st1, components)

/-- `cpBodyPushArbiter` (lines 214–221).  Note: the source always writes
`arb->nextA`, whichever side of the arbiter `body` is on. -/
def cpBodyPushArbiter (st : St) (body : BodyId) (arbId : ArbId) : St :=
  if ¬ cpBodyIsStatic (st.bodyOf body) && ¬ cpBodyIsRogue (st.bodyOf body) then
    let st1 := updArb st arbId (fun ar => { ar with nextA := (st.bodyOf body).arbiterList })
    updBody st1 body (fun bo => { bo with arbiterList := some arbId })
  else st

/-- Phase 2 of `cpSpaceProcessComponents` (lines 238–245), one body:
update the idle time from the kinetic-energy test and clear
`arbiterList`. -/
def updateIdle (dt dvsq : ℤ) (st : St) (b : BodyId) : St :=
  let body := st.bodyOf b
  let thresh := if dvsq ≠ 0 then body.m * dvsq else 0
  let idle := if cpBodyKineticEnergy body > thresh then 0 else body.node.idleTime + dt
  updBody st b (fun bo =>
    { bo with node := { bo.node with idleTime := idle }, arbiterList := none })

/-- Phase 3 of `cpSpaceProcessComponents` (lines 248–255): for each
arbiter, merge its bodies and push the arbiter onto both endpoints'
`arbiterList`.  The C loop snapshots `arbiters->num`; nothing in phases
3–4 mutates `space->arbiters`, so iterating the entry list is faithful. -/
def phase3Loop (fuel : Nat) : List ArbId → St → List BodyId → Option (St × List BodyId)
  | [], st, rg => some (st, rg)
  | arbId :: rest, st, rg => do
    let (st1, rg1) ← mergeBodies fuel st rg
      (st.shapeBody (st.arbOf arbId).a) (st.shapeBody (st.arbOf arbId).b)
    let st2 := cpBodyPushArbiter st1 (st1.shapeBody (st1.arbOf arbId).a) arbId
    let st3 := cpBodyPushArbiter st2 (st2.shapeBody (st2.arbOf arbId).b) arbId
    phase3Loop fuel rest st3 rg1

/-- Phase 4 of `cpSpaceProcessComponents` (lines 257–260): merge the two
bodies of each constraint.  The C loop re-reads `constraints->num` every
iteration and waking a component can append constraints, so the loop is
indexed into the current list. -/
def phase4Loop (fuel : Nat) : Nat → St → List BodyId → Nat → Option (St × List BodyId)
  | 0, _, _, _ => none
  | n + 1, st, rg, j =>
    if h : j < st.constraints.length then do
      let c := st.consOf (st.constraints.get ⟨j, h⟩)
      let (st1, rg1) ← mergeBodies fuel st rg c.a c.b
      phase4Loop fuel n st1 rg1 (j + 1)
    else some (st, rg)

/-- Phase 5 of `cpSpaceProcessComponents` (lines 263–264): add every body
of a list to its component ring. -/
def addAll (fuel : Nat) : List BodyId → St → List BodyId → Option (St × List BodyId)
  | [], st, comps => some (st, comps)
  | b :: rest, st, comps => do
    let (st1, c1) ← addToComponent fuel st comps b
    addAll fuel rest st1 c1

/-- The active branch of phase 6 (lines 271–277): walk the ring, append
each non-rogue member to `newBodies`, and clear its node to
`{NULL, NULL, 0, idleTime}` preserving the idle time. -/
def republishLoop (root : BodyId) : Nat → St → List BodyId → BodyId →
    Option (St × List BodyId)
  | 0, _, _, _ => none
  | n + 1, st, newB, body =>
    let next := (st.bodyOf body).node.next
    let newB1 := if ¬ cpBodyIsRogue (st.bodyOf body) then newB ++ [body] else newB
    let st1 := updBody st body
      (fun bo => { bo with node := ⟨none, none, 0, bo.node.idleTime⟩ })
    match next with
    | none => none
    | some nb => if nb = root then some (st1, newB1) else republishLoop root n st1 newB1 nb

/-- The sleep branch of phase 6 (lines 279–282): walk the ring calling
`cpSpaceDeactivateBody` on every member. -/
def deactivateRingLoop (fuel root : Nat) : Nat → St → BodyId → Option St
  | 0, _, _ => none
  | n + 1, st, body => do
    let next := (st.bodyOf body).node.next
    let st1 ← cpSpaceDeactivateBody fuel st body
    match next with
    | none => none
    | some nb => if nb = root then some st1 else deactivateRingLoop fuel root n st1 nb

/-- Phase 6 of `cpSpaceProcessComponents` for one component root (lines
267–286): republish an active component, or deactivate every member and
park the root in `sleepingComponents`. -/
def processOneComponent (fuel : Nat) (st : St) (newB : List BodyId) (root : BodyId) :
    Option (St × List BodyId) := do
  let active ← componentActive fuel st root st.sleepTimeThreshold
  if active then republishLoop root fuel st newB root
  else do
    let st1 ← deactivateRingLoop fuel root fuel st root
    some ({ st1 with sleepingComponents := st1.sleepingComponents ++ [root] }, newB)

/-- Phase 6 over the whole `components` list. -/
def phase6Loop (fuel : Nat) : List BodyId → St → List BodyId → Option (St × List BodyId)
  | [], st, newB => some (st, newB)
  | r :: rest, st, newB => do
    let p ← processOneComponent fuel st newB r
    phase6Loop fuel rest p.1 p.2

/-- Phases 1–5 of `cpSpaceProcessComponents` (lines 227–264): the idle
update and arbiter-list reset over the entry bodies, the forest build over
arbiters then constraints, and the ring assembly over the current bodies
then the collected rogues.  Returns the state and the `components` list
that the verdict loop will consume. -/
def phases25 (fuel : Nat) (st : St) (dt : ℤ) : Option (St × List BodyId) :=
  let dv := st.idleSpeedThreshold
  let dvsq := if dv ≠ 0 then dv * dv else st.gravitySq * dt * dt
  let st2 := st.bodies.foldl (updateIdle dt dvsq) st
  do
    let (st3, rogue1) ← phase3Loop fuel st2.arbiters st2 []
    let (st4, rogue2) ← phase4Loop fuel fuel st3 rogue1 0
    let (st5a, comps1) ← addAll fuel st4.bodies st4 []
    addAll fuel rogue2 st5a comps1

/-- `cpSpaceProcessComponents` (lines 224–292): phases 1–5 (`phases25`),
the per-component verdict (`phase6Loop`), and the swap of `space->bodies`
for `newBodies`. -/
def cpSpaceProcessComponents (fuel : Nat) (st : St) (dt : ℤ) : Option St := do
  let p ← phases25 fuel st dt
  let q ← phase6Loop fuel p.2 p.1 []
  some { q.1 with bodies := q.2 }

/-- `cpBodySleepWithGroup` (lines 300–328).  The `cpAssert` preconditions
(non-static, non-rogue — which also gives a space — unlocked space, and a
sleeping group) abort in C and are modelled as `none`.  An already sleeping
body returns unchanged.  The `cpShapeUpdate` calls refresh cached shape
geometry, which this model does not carry. -/
def cpBodySleepWithGroup (fuel : Nat) (st : St) (body : BodyId) (group : Option BodyId) :
    Option St :=
  if cpBodyIsStatic (st.bodyOf body) || cpBodyIsRogue (st.bodyOf body) then none
  else if st.locked then none
  else if (match group with
    | some g => !cpBodyIsSleeping (st.bodyOf g)
    | none => false) then none
  else if cpBodyIsSleeping (st.bodyOf body) then some st
  else do
    let st1 ← cpSpaceDeactivateBody fuel st body
    match group with
    | some g => do
      let (st2, root) ← componentNodeRoot fuel st1 g
      let st3 := updBody st2 body (fun bo =>
        { bo with node := ⟨some root, (st2.bodyOf root).node.next, 0, 0⟩ })
      let st4 := updBody st3 root
        (fun bo => { bo with node := { bo.node with next := some body } })
      some { st4 with bodies := st4.bodies.erase body }
    | none =>
      let st2 := updBody st1 body (fun bo => { bo with node := ⟨none, some body, 0, 0⟩ })
      some { st2 with bodies := st2.bodies.erase body,
                      sleepingComponents := st2.sleepingComponents ++ [body] }

/-- `cpBodySleep` (lines 294–298): `cpBodySleepWithGroup(body, NULL)`. -/
def cpBodySleep (fuel : Nat) (st : St) (body : BodyId) : Option St :=
  cpBodySleepWithGroup fuel st body none

/-! ## Derived walk of the parent chain (specification side)

`findRoot` walks `node.parent` pointers without mutating, the spec's
"walk parent pointers to the root" (§4.1); `parentChain` lists the bodies
the walk visits that have a parent (the ones whose parent field the C
function rewrites). -/

/-- The root reached by walking `node.parent`, without path compression. -/
def findRoot : Nat → St → BodyId → Option BodyId
  | 0, _, _ => none
  | fuel + 1, st, b =>
    match (st.bodyOf b).node.parent with
    | none => some b
    | some p => findRoot fuel st p

/-- The bodies visited on the parent walk that have a parent pointer. -/
def parentChain : Nat → St → BodyId → List BodyId
  | 0, _, _ => []
  | fuel + 1, st, b =>
    match (st.bodyOf b).node.parent with
    | none => []
    | some p => b :: parentChain fuel st p

/-- `b`'s disjoint-set root is `r`: some finite parent walk from `b`
reaches `r`. -/
def RootsTo (st : St) (b r : BodyId) : Prop :=
  ∃ n, findRoot n st b = some r

/-- Following `node.next` visits the bodies of the list in order, and the
last one points back at `root` — one lap of a component ring. -/
def nextPath (st : St) (root : BodyId) : List BodyId → Prop
  | [] => True
  | [x] => (st.bodyOf x).node.next = some root
  | x :: y :: rest => (st.bodyOf x).node.next = some y ∧ nextPath st root (y :: rest)

/-- The ring traversal of the verdict loops (do–while from `root` until
`next` returns to `root`), as a list: the members in visit order. -/
def ringFrom (st : St) (root : BodyId) : Nat → BodyId → Option (List BodyId)
  | 0, _ => none
  | n + 1, b =>
    match (st.bodyOf b).node.next with
    | none => none
    | some nb => if nb = root then some [b] else (ringFrom st root n nb).map (b :: ·)

/-- Well-formed component rings during and after ring assembly: the
handles in `comps` are distinct parentless roots; each handle `r` owns the
member list `R r`, a `Nodup` ring starting at `r` whose `next` links lap
back to `r`; membership is unambiguous; a body is placed (has a `next`)
exactly when it lies in some ring; and every member's disjoint-set root is
its handle. -/
def RingsInv (st : St) (comps : List BodyId) (R : BodyId → List BodyId) : Prop :=
  comps.Nodup ∧
  (∀ r ∈ comps, ∃ xs, R r = r :: xs ∧ nextPath st r (r :: xs) ∧ (r :: xs).Nodup) ∧
  (∀ b r1 r2, r1 ∈ comps → r2 ∈ comps → b ∈ R r1 → b ∈ R r2 → r1 = r2) ∧
  (∀ b, (st.bodyOf b).node.next.isSome = true ↔ ∃ r, r ∈ comps ∧ b ∈ R r) ∧
  (∀ r ∈ comps, ∀ b ∈ R r, RootsTo st b r) ∧
  (∀ r ∈ comps, (st.bodyOf r).node.parent = none)

/-! ## Concrete states used by counterexamples and witnesses -/

/-- A dynamic body at rest with a clear component node. -/
def baseBody : Body :=
  { node := ⟨none, none, 0, 0⟩, arbiterList := none, constraintList := none,
    shapeList := [], staticFlag := false, rogueFlag := false, m := 1, ke := 0 }

/-- An arbiter with no links and an empty buffer-owned contact array. -/
def baseArb : Arbiter :=
  { a := 0, b := 0, nextA := none, nextB := none, contacts := .buffer [] }

/-- A constraint with no links. -/
def baseCons : Constraint := { a := 0, b := 0, nextA := none, nextB := none }

/-- An empty, unlocked space in which shape `i` belongs to body `i`. -/
def baseSt : St :=
  { bodyOf := fun _ => baseBody, arbOf := fun _ => baseArb, consOf := fun _ => baseCons,
    shapeBody := fun s => s, bodies := [], rousedBodies := [], sleepingComponents := [],
    activeShapes := [], staticShapes := [], arbiters := [], constraints := [],
    contactSet := [], contactBufferUsed := 0, locked := false,
    idleSpeedThreshold := 0, sleepTimeThreshold := 0, gravitySq := 0 }

/-- Bodies 0, 1, 2 own shapes 0, 1, 2; arbiter 0 joins shapes 0–1 and
arbiter 1 joins shapes 2–1, so body 1 is the `b` side of both. -/
def stTwoArbs : St :=
  { baseSt with
    arbOf := fun i =>
      if i = 0 then { baseArb with a := 0, b := 1 } else { baseArb with a := 2, b := 1 } }

/-- `stTwoArbs` after the four pushes `cpSpaceProcessComponents` performs
for arbiters 0 and 1 (each arbiter onto its `a` body then its `b` body). -/
def stTwoArbsPushed : St :=
  cpBodyPushArbiter (cpBodyPushArbiter
    (cpBodyPushArbiter (cpBodyPushArbiter stTwoArbs 0 0) 1 0) 2 1) 1 1

/-- A lone still body that has already idled for 5 time units, in a space
with `idleSpeedThreshold = 1` and `sleepTimeThreshold = 4`. -/
def stLoneIdle : St :=
  { baseSt with
    bodyOf := fun i =>
      if i = 0 then { baseBody with node := ⟨none, none, 0, 5⟩ } else baseBody,
    bodies := [0], idleSpeedThreshold := 1, sleepTimeThreshold := 4 }

/-- Rogue body 1 touches resident body 0 through arbiter 0 in a space
whose `sleepTimeThreshold` is zero. -/
def stRogueTouch : St :=
  { baseSt with
    bodyOf := fun i => if i = 1 then { baseBody with rogueFlag := true } else baseBody,
    arbOf := fun _ => { baseArb with a := 0, b := 1 },
    bodies := [0], arbiters := [0], sleepTimeThreshold := 0, idleSpeedThreshold := 1 }

/-- A two-step parent chain 0 → 1 → 2 whose root 2 is awake. -/
def stChain : St :=
  { baseSt with
    bodyOf := fun i =>
      if i = 0 then { baseBody with node := ⟨some 1, none, 0, 0⟩ }
      else if i = 1 then { baseBody with node := ⟨some 2, none, 0, 0⟩ } else baseBody }

/-- Body 0 owns shape 0 and arbiter 0 (against body 1's shape 1) with one
live contact `(1, 2, 3, 4)`; the arbiter is registered in `contactSet`
and `space->arbiters`. -/
def stOneContact : St :=
  { baseSt with
    bodyOf := fun i =>
      if i = 0 then { baseBody with arbiterList := some 0, shapeList := [0] }
      else { baseBody with shapeList := [1] },
    arbOf := fun _ => { baseArb with a := 0, b := 1, contacts := .buffer [(1, 2, 3, 4)] },
    bodies := [0, 1], arbiters := [0], activeShapes := [0, 1], contactSet := [((0, 1), 0)] }

/-- A locked copy of the base space. -/
def stLocked : St := { baseSt with locked := true }

/-- Body 4 sleeping alone in a self-ring, parked in `sleepingComponents`. -/
def stSleeper : St :=
  { baseSt with
    bodyOf := fun i => if i = 4 then { baseBody with node := ⟨none, some 4, 0, 0⟩ } else baseBody,
    sleepingComponents := [4] }

/-- A space where body 5 is static. -/
def stWithStatic : St :=
  { baseSt with bodyOf := fun i => if i = 5 then { baseBody with staticFlag := true } else baseBody }

/-- A lone resident body that stays below the sleep threshold: after one
step of `cpSpaceProcessComponents` with `dt = 1` it has idled for only
`1 < sleepTimeThreshold = 4`, so its component is republished. -/
def stAwakeLone : St :=
  { baseSt with bodies := [0], idleSpeedThreshold := 1, sleepTimeThreshold := 4 }

/-- Rogue body 1 touches resident body 0 through arbiter 0, this time in
a space with a positive `sleepTimeThreshold`. -/
def stRogueTouchPos : St :=
  { stRogueTouch with sleepTimeThreshold := 4 }

/-- The engine's normal regime between steps: body 0 is an awake resident
while body 4 sleeps alone in a parked self-ring. -/
def stAwakeParked : St :=
  { baseSt with
    bodyOf := fun i =>
      if i = 4 then { baseBody with node := ⟨none, some 4, 0, 0⟩ } else baseBody,
    bodies := [0], sleepingComponents := [4],
    idleSpeedThreshold := 1, sleepTimeThreshold := 4 }

/-- Every body's parent walk reaches a root. -/
def TotalRoots (st : St) : Prop := ∀ b, ∃ r, RootsTo st b r

/-- A state change that maps every established disjoint-set root through
the function `f`. -/
def Evolves (st st' : St) (f : BodyId → BodyId) : Prop :=
  ∀ x r, RootsTo st x r → RootsTo st' x (f r)

/-- Invariant of the forest-building phases 3–4, relative to the resident
list `B`: every body has a root; a rogue body not yet collected in `rg` is
isolated (only it roots to itself); and every collected rogue is
rogue-flagged and shares its root with a body whose idle clock was zeroed
and that is resident or itself collected. -/
def RogueInv (B : List BodyId) (st : St) (rg : List BodyId) : Prop :=
  TotalRoots st ∧
  (∀ g, (st.bodyOf g).rogueFlag = true → g ∉ rg →
    ∀ c, RootsTo st c g → c = g) ∧
  (∀ g ∈ rg, (st.bodyOf g).rogueFlag = true ∧
    ∃ x n, RootsTo st g x ∧ RootsTo st n x ∧
      (st.bodyOf n).node.idleTime = 0 ∧ (n ∈ B ∨ n ∈ rg))

/-! ## Frame lemmas for the primitive state updates -/

theorem updBody_bodies (st : St) (i : BodyId) (f : Body → Body) :
    (updBody st i f).bodies = st.bodies := rfl

theorem contactSetInsert_bodies (st : St) (k : ShapeId × ShapeId) (i : ArbId) :
    (contactSetInsert st k i).bodies = st.bodies := by
  unfold contactSetInsert; split <;> rfl

theorem activateArbStep_bodies (st : St) (body : BodyId) (i : ArbId) :
    (activateArbStep st body i).bodies = st.bodies := by
  unfold activateArbStep
  dsimp only
  split
  · rw [contactSetInsert_bodies]; rfl
  · rfl

theorem activateArbLoop_bodies (body : BodyId) :
    ∀ (fuel : Nat) (st : St) (link : Option ArbId) (st' : St),
      activateArbLoop body fuel st link = some st' → st'.bodies = st.bodies := by
  intro fuel
  induction fuel with
  | zero =>
    intro st link st' h
    cases link with
    | none => simp only [activateArbLoop] at h; cases h; rfl
    | some a => simp [activateArbLoop] at h
  | succ n ih =>
    intro st link st' h
    cases link with
    | none =>
      simp only [activateArbLoop] at h
      cases h; rfl
    | some a =>
      simp only [activateArbLoop] at h
      have := ih _ _ _ h
      rw [this, activateArbStep_bodies]

theorem activateConsLoop_bodies (body : BodyId) :
    ∀ (fuel : Nat) (st : St) (link : Option ConsId) (st' : St),
      activateConsLoop body fuel st link = some st' → st'.bodies = st.bodies := by
  intro fuel
  induction fuel with
  | zero =>
    intro st link st' h
    cases link with
    | none => simp only [activateConsLoop] at h; cases h; rfl
    | some a => simp [activateConsLoop] at h
  | succ n ih =>
    intro st link st' h
    cases link with
    | none => simp only [activateConsLoop] at h; cases h; rfl
    | some a =>
      simp only [activateConsLoop] at h
      have := ih _ _ _ h
      rw [this]
      split <;> rfl

theorem shapeActivateFold_bodies (shapes : List ShapeId) (s : St) :
    (shapes.foldl (fun s sh =>
      { s with staticShapes := s.staticShapes.erase sh,
               activeShapes := sh :: s.activeShapes }) s).bodies = s.bodies := by
  induction shapes generalizing s with
  | nil => rfl
  | cons x xs ih => simpa using ih _

/-! ## Claim C4 — activation while locked only grows `rousedBodies` -/

/-- C4: with `space.locked` true, `cpSpaceActivateBody` appends the body
to `rousedBodies` and returns a state equal to the input in every other
respect — `bodies`, `contactSet`, `arbiters`, `constraints`,
`activeShapes`, `staticShapes`, `sleepingComponents`, and every body,
arbiter and constraint record are untouched, since the result is the
input state with only `rousedBodies` replaced. -/
theorem cpSpaceActivateBody_locked (fuel : Nat) (st : St) (body : BodyId)
    (h : st.locked = true) :
    cpSpaceActivateBody fuel st body =
      some { st with rousedBodies := st.rousedBodies ++ [body] } := by
  simp [cpSpaceActivateBody, h]

/-- Witness for C4 at a concrete locked space. -/
theorem cpSpaceActivateBody_locked_witness :
    cpSpaceActivateBody 5 stLocked 7 =
      some { stLocked with rousedBodies := stLocked.rousedBodies ++ [7] } :=
  cpSpaceActivateBody_locked 5 stLocked 7 rfl

/-! ## Claim C7 — merging through a static body changes nothing -/

/-- C7: when either operand is static, `mergeBodies` returns the state and
the `rogueBodies` accumulator unchanged: no parent or rank is modified, no
component is activated, no rogue is recorded, no idle time is reset. -/
theorem mergeBodies_static_frame (fuel : Nat) (st : St) (rg : List BodyId) (a b : BodyId)
    (h : cpBodyIsStatic (st.bodyOf a) = true ∨ cpBodyIsStatic (st.bodyOf b) = true) :
    mergeBodies fuel st rg a b = some (st, rg) := by
  rcases h with h | h <;> simp [mergeBodies, h]

/-- Witness for C7: merging body 5 (static) with body 0. -/
theorem mergeBodies_static_frame_witness :
    mergeBodies 4 stWithStatic [] 5 0 = some (stWithStatic, []) :=
  mergeBodies_static_frame 4 stWithStatic [] 5 0 (Or.inl rfl)

/-! ## Claim C10 — unlocked activation appends unconditionally -/

/-- C10: with `space.locked` false, a successful `cpSpaceActivateBody`
run always produces `space.bodies ++ [body]` — there is no membership
check, so activating a body already in `space.bodies` leaves it there
twice. -/
theorem cpSpaceActivateBody_unlocked_append (fuel : Nat) (st : St) (body : BodyId)
    (st' : St) (hl : st.locked = false)
    (h : cpSpaceActivateBody fuel st body = some st') :
    st'.bodies = st.bodies ++ [body] ∧
    (body ∈ st.bodies → 1 < st'.bodies.count body) := by
  unfold cpSpaceActivateBody at h
  rw [hl] at h
  simp only [Bool.false_eq_true, if_false, Option.bind_eq_bind, Option.bind_eq_some] at h
  obtain ⟨st3, h3, h4⟩ := h
  have hb3 := activateArbLoop_bodies body fuel _ _ _ h3
  have hb4 := activateConsLoop_bodies body fuel _ _ _ h4
  rw [shapeActivateFold_bodies] at hb3
  have hfin : st'.bodies = st.bodies ++ [body] := by rw [hb4, hb3]
  refine ⟨hfin, fun hmem => ?_⟩
  rw [hfin, List.count_append]
  have h1 : 0 < st.bodies.count body := List.count_pos_iff.mpr hmem
  have h2 : List.count body [body] = 1 := by simp
  omega

/-- Witness for C10: activating body 0, already present in `stOneContact`,
leaves it listed twice. -/
theorem cpSpaceActivateBody_unlocked_append_witness :
    (cpSpaceActivateBody 4 stOneContact 0).elim False
      (fun st' => st'.bodies = stOneContact.bodies ++ [0] ∧
        (0 ∈ stOneContact.bodies → 1 < st'.bodies.count 0)) := by
  have hs : (cpSpaceActivateBody 4 stOneContact 0).isSome = true := by decide
  match hm : cpSpaceActivateBody 4 stOneContact 0 with
  | none => rw [hm] at hs; cases hs
  | some st' =>
    simp only [Option.elim]
    exact cpSpaceActivateBody_unlocked_append 4 stOneContact 0 st' rfl hm

/-! ## The disjoint-set find: full specification of `componentNodeRoot` -/

theorem parentChain_parent (st : St) :
    ∀ (fuel : Nat) (b : BodyId), ∀ x ∈ parentChain fuel st b,
      (st.bodyOf x).node.parent ≠ none := by
  intro fuel
  induction fuel with
  | zero => intro b x hx; simp [parentChain] at hx
  | succ n ih =>
    intro b x hx
    simp only [parentChain] at hx
    cases hp : (st.bodyOf b).node.parent with
    | none => rw [hp] at hx; simp at hx
    | some p =>
      rw [hp] at hx
      rcases List.mem_cons.mp hx with hx | hx
      · subst hx; simp [hp]
      · exact ih p x hx

/-- Everything a successful `componentNodeRoot` run does: it returns the
root the pure parent walk reaches, that root has no parent, every body on
the walk gets its parent rewritten to the root, every other body is
untouched, and no other component of the state changes. -/
theorem componentNodeRoot_spec :
    ∀ (fuel : Nat) (st : St) (body : BodyId) (st' : St) (root : BodyId),
      componentNodeRoot fuel st body = some (st', root) →
      findRoot fuel st body = some root ∧
      (st.bodyOf root).node.parent = none ∧
      (∀ x ∈ parentChain fuel st body,
        st'.bodyOf x =
          { st.bodyOf x with node := { (st.bodyOf x).node with parent := some root } }) ∧
      (∀ x, x ∉ parentChain fuel st body → st'.bodyOf x = st.bodyOf x) ∧
      st' = { st with bodyOf := st'.bodyOf } := by
  intro fuel
  induction fuel with
  | zero => intro st body st' root h; simp [componentNodeRoot] at h
  | succ n ih =>
    intro st body st' root h
    simp only [componentNodeRoot] at h
    cases hp : (st.bodyOf body).node.parent with
    | none =>
      rw [hp] at h
      simp only [Option.some.injEq, Prod.mk.injEq] at h
      obtain ⟨hst, hroot⟩ := h
      subst hst; subst hroot
      refine ⟨by simp [findRoot, hp], hp, ?_, fun x _ => rfl, rfl⟩
      intro x hx
      simp [parentChain, hp] at hx
    | some p =>
      rw [hp] at h
      dsimp only at h
      cases hrec : componentNodeRoot n st p with
      | none => rw [hrec] at h; cases h
      | some pr =>
        obtain ⟨st1, r⟩ := pr
        rw [hrec] at h
        simp only [Option.some.injEq, Prod.mk.injEq] at h
        obtain ⟨hst, hroot⟩ := h
        subst hroot
        obtain ⟨h1, h2, h3, h4, h5⟩ := ih st p st1 r hrec
        refine ⟨by simp [findRoot, hp, h1], h2, ?_, ?_, ?_⟩
        · intro x hx
          simp only [parentChain, hp] at hx
          rcases List.mem_cons.mp hx with hxb | hxc
          · subst hxb
            by_cases hb : x ∈ parentChain n st p
            · have hb1 := h3 x hb
              rw [← hst]; simp [updBody, hb1]
            · have hb1 := h4 x hb
              rw [← hst]; simp [updBody, hb1]
          · by_cases hb : x = body
            · subst hb
              have hb1 := h3 x hxc
              rw [← hst]; simp [updBody, hb1]
            · have hb1 := h3 x hxc
              rw [← hst]; simp [updBody, hb, hb1]
        · intro x hxn
          simp only [parentChain, hp, List.mem_cons, not_or] at hxn
          obtain ⟨hxb, hxc⟩ := hxn
          have hb1 := h4 x hxc
          rw [← hst]; simp [updBody, hxb, hb1]
        · rw [← hst]
          conv_lhs => rw [h5]
          rfl

/-! ## Claim C9 — find with full path compression -/

/-- C9: a successful `componentNodeRoot fuel st body = some (st', root)`
run returns the unique parentless ancestor that the pure parent walk
`findRoot` reaches (the body itself when its parent is absent, in which
case the state is returned untouched); afterwards every body visited on
the chain has its parent pointing directly at `root`, every body off the
chain is unmodified, and no field of the state other than the body store
changes. -/
theorem componentNodeRoot_correct (fuel : Nat) (st : St) (body : BodyId)
    (st' : St) (root : BodyId)
    (h : componentNodeRoot fuel st body = some (st', root)) :
    findRoot fuel st body = some root ∧
    (st.bodyOf root).node.parent = none ∧
    ((st.bodyOf body).node.parent = none → root = body ∧ st' = st) ∧
    (∀ x ∈ parentChain fuel st body,
      st'.bodyOf x =
        { st.bodyOf x with node := { (st.bodyOf x).node with parent := some root } }) ∧
    (∀ x, x ∉ parentChain fuel st body → st'.bodyOf x = st.bodyOf x) ∧
    st' = { st with bodyOf := st'.bodyOf } := by
  obtain ⟨h1, h2, h3, h4, h5⟩ := componentNodeRoot_spec fuel st body st' root h
  refine ⟨h1, h2, ?_, h3, h4, h5⟩
  intro hp
  cases fuel with
  | zero => simp [componentNodeRoot] at h
  | succ n =>
    simp only [componentNodeRoot, hp, Option.some.injEq, Prod.mk.injEq] at h
    exact ⟨h.2.symm, h.1.symm⟩

/-- Witness for C9 at body 3 of `stChain`, its own root. -/
theorem componentNodeRoot_correct_witness :
    findRoot 10 stChain 3 = some 3 ∧ (stChain.bodyOf 3).node.parent = none :=
  ⟨(componentNodeRoot_correct 10 stChain 3 stChain 3 rfl).1,
   (componentNodeRoot_correct 10 stChain 3 stChain 3 rfl).2.1⟩

/-! ## Pure disjoint-set facts -/

theorem findRoot_mono : ∀ (n m : Nat) (st : St) (b r : BodyId),
    findRoot n st b = some r → n ≤ m → findRoot m st b = some r := by
  intro n
  induction n with
  | zero => intro m st b r h _; simp [findRoot] at h
  | succ k ih =>
    intro m st b r h hle
    cases m with
    | zero => exact absurd hle (by omega)
    | succ m2 =>
      simp only [findRoot] at h ⊢
      cases hp : (st.bodyOf b).node.parent with
      | none => rw [hp] at h; dsimp only at h ⊢; exact h
      | some p => rw [hp] at h; dsimp only at h ⊢; exact ih m2 st p r h (by omega)

theorem findRoot_det {st : St} {b r1 r2 : BodyId} {n m : Nat}
    (h1 : findRoot n st b = some r1) (h2 : findRoot m st b = some r2) : r1 = r2 := by
  have h1b := findRoot_mono n (n + m) st b r1 h1 (by omega)
  have h2b := findRoot_mono m (n + m) st b r2 h2 (by omega)
  rw [h1b] at h2b
  exact Option.some.inj h2b

theorem findRoot_parent_none : ∀ (n : Nat) (st : St) (b r : BodyId),
    findRoot n st b = some r → (st.bodyOf r).node.parent = none := by
  intro n
  induction n with
  | zero => intro st b r h; simp [findRoot] at h
  | succ k ih =>
    intro st b r h
    simp only [findRoot] at h
    cases hp : (st.bodyOf b).node.parent with
    | none => rw [hp] at h; cases h; exact hp
    | some p => rw [hp] at h; exact ih st p r h

theorem rootsTo_self {st : St} {r : BodyId} (h : (st.bodyOf r).node.parent = none) :
    RootsTo st r r := ⟨1, by simp [findRoot, h]⟩

theorem rootsTo_det {st : St} {b r1 r2 : BodyId}
    (h1 : RootsTo st b r1) (h2 : RootsTo st b r2) : r1 = r2 := by
  obtain ⟨n, hn⟩ := h1
  obtain ⟨m, hm⟩ := h2
  exact findRoot_det hn hm

theorem rootsTo_parent_none {st : St} {b r : BodyId} (h : RootsTo st b r) :
    (st.bodyOf r).node.parent = none := by
  obtain ⟨n, hn⟩ := h
  exact findRoot_parent_none n st b r hn

theorem rootsTo_of_parent_none {st : St} {b r : BodyId}
    (hp : (st.bodyOf b).node.parent = none) (h : RootsTo st b r) : r = b := by
  obtain ⟨n, hn⟩ := h
  cases n with
  | zero => simp [findRoot] at hn
  | succ k =>
    simp only [findRoot, hp] at hn
    exact (Option.some.inj hn).symm

theorem rootsTo_step {st : St} {b p r : BodyId}
    (hp : (st.bodyOf b).node.parent = some p) (h : RootsTo st p r) : RootsTo st b r := by
  obtain ⟨n, hn⟩ := h
  exact ⟨n + 1, by simp only [findRoot, hp]; exact hn⟩

theorem findRoot_congr (st st' : St)
    (hpar : ∀ x, (st'.bodyOf x).node.parent = (st.bodyOf x).node.parent) :
    ∀ (n : Nat) (b : BodyId), findRoot n st' b = findRoot n st b := by
  intro n
  induction n with
  | zero => intro b; rfl
  | succ k ih =>
    intro b
    simp only [findRoot, hpar b]
    cases (st.bodyOf b).node.parent with
    | none => rfl
    | some p => exact ih p

theorem rootsTo_congr (st st' : St)
    (hpar : ∀ x, (st'.bodyOf x).node.parent = (st.bodyOf x).node.parent)
    {b r : BodyId} (h : RootsTo st b r) : RootsTo st' b r := by
  obtain ⟨n, hn⟩ := h
  exact ⟨n, by rw [findRoot_congr st st' hpar]; exact hn⟩

theorem parentChain_rootsTo : ∀ (fuel : Nat) (st : St) (body root : BodyId),
    findRoot fuel st body = some root →
    ∀ x ∈ parentChain fuel st body, RootsTo st x root := by
  intro fuel
  induction fuel with
  | zero => intro st body root h x hx; simp [parentChain] at hx
  | succ k ih =>
    intro st body root h x hx
    simp only [findRoot] at h
    simp only [parentChain] at hx
    cases hp : (st.bodyOf body).node.parent with
    | none => rw [hp] at hx; simp at hx
    | some p =>
      rw [hp] at h hx
      rcases List.mem_cons.mp hx with hxb | hxc
      · exact ⟨k + 1, by rw [hxb]; simp only [findRoot, hp]; exact h⟩
      · exact ih st p root h x hxc

/-- Path compression preserves every body's disjoint-set root. -/
theorem componentNodeRoot_rootsTo (fuel : Nat) (st : St) (body : BodyId)
    (st' : St) (root : BodyId)
    (h : componentNodeRoot fuel st body = some (st', root)) :
    ∀ (x r : BodyId), RootsTo st x r → RootsTo st' x r := by
  obtain ⟨h1, h2, h3, h4, _⟩ := componentNodeRoot_spec fuel st body st' root h
  have hrnc : root ∉ parentChain fuel st body :=
    fun hc => parentChain_parent st fuel body root hc h2
  have main : ∀ (n : Nat) (x r : BodyId), findRoot n st x = some r → RootsTo st' x r := by
    intro n
    induction n with
    | zero => intro x r hn; simp [findRoot] at hn
    | succ k ih =>
      intro x r hn
      simp only [findRoot] at hn
      cases hp : (st.bodyOf x).node.parent with
      | none =>
        rw [hp] at hn
        have hxr : x = r := Option.some.inj hn
        have hxn : x ∉ parentChain fuel st body :=
          fun hc => parentChain_parent st fuel body x hc hp
        rw [← hxr]
        exact rootsTo_self (by rw [h4 x hxn]; exact hp)
      | some p =>
        rw [hp] at hn
        by_cases hxc : x ∈ parentChain fuel st body
        · have hxr : RootsTo st x root := parentChain_rootsTo fuel st body root h1 x hxc
          have hreq : r = root :=
            rootsTo_det ⟨k + 1, by simp only [findRoot, hp]; exact hn⟩ hxr
          rw [hreq]
          have hrn : (st'.bodyOf root).node.parent = none := by
            rw [h4 root hrnc]; exact h2
          have hxp : (st'.bodyOf x).node.parent = some root := by rw [h3 x hxc]
          exact rootsTo_step hxp (rootsTo_self hrn)
        · have hxp : (st'.bodyOf x).node.parent = some p := by rw [h4 x hxc]; exact hp
          exact rootsTo_step hxp (ih p r hn)
  intro x r hx
  obtain ⟨n, hn⟩ := hx
  exact main n x r hn

/-- The returned root of `componentNodeRoot` is the body's root. -/
theorem componentNodeRoot_returns_root (fuel : Nat) (st : St) (body : BodyId)
    (st' : St) (root : BodyId)
    (h : componentNodeRoot fuel st body = some (st', root)) :
    RootsTo st body root :=
  ⟨fuel, (componentNodeRoot_spec fuel st body st' root h).1⟩

/-- Attaching one parentless root under another maps every body's root
through `if r = loser then winner else r`. -/
theorem attach_rootsTo (st st' : St) (L W : BodyId)
    (hL : (st.bodyOf L).node.parent = none)
    (hW : (st.bodyOf W).node.parent = none)
    (hLW : L ≠ W)
    (hset : (st'.bodyOf L).node.parent = some W)
    (hrest : ∀ x, x ≠ L → (st'.bodyOf x).node.parent = (st.bodyOf x).node.parent) :
    ∀ (x r : BodyId), RootsTo st x r → RootsTo st' x (if r = L then W else r) := by
  have main : ∀ (n : Nat) (x r : BodyId), findRoot n st x = some r →
      RootsTo st' x (if r = L then W else r) := by
    intro n
    induction n with
    | zero => intro x r hn; simp [findRoot] at hn
    | succ k ih =>
      intro x r hn
      simp only [findRoot] at hn
      cases hp : (st.bodyOf x).node.parent with
      | none =>
        rw [hp] at hn
        have hxr : r = x := (Option.some.inj hn).symm
        subst hxr
        by_cases hrl : r = L
        · subst hrl
          rw [if_pos rfl]
          have hWn : (st'.bodyOf W).node.parent = none := by
            rw [hrest W (Ne.symm hLW)]; exact hW
          exact rootsTo_step hset (rootsTo_self hWn)
        · rw [if_neg hrl]
          exact rootsTo_self (by rw [hrest r hrl]; exact hp)
      | some p =>
        rw [hp] at hn
        have hxL : x ≠ L := fun hc => by rw [hc, hL] at hp; cases hp
        have hxp : (st'.bodyOf x).node.parent = some p := by
          rw [hrest x hxL]; exact hp
        exact rootsTo_step hxp (ih p r hn)
  intro x r hx
  obtain ⟨n, hn⟩ := hx
  exact main n x r hn

/-- `componentNodeMerge` on two parentless roots maps every body's root
through a single function that identifies the two roots, so bodies
sharing a root keep sharing one and the two merged trees end up with a
common root. -/
theorem componentNodeMerge_rootsTo (st : St) (aR bR : BodyId)
    (ha : (st.bodyOf aR).node.parent = none)
    (hb : (st.bodyOf bR).node.parent = none) :
    ∃ f : BodyId → BodyId, f aR = f bR ∧ ∀ (x r : BodyId),
      RootsTo st x r → RootsTo (componentNodeMerge st aR bR) x (f r) := by
  by_cases h1 : (st.bodyOf aR).node.rank < (st.bodyOf bR).node.rank
  · have hne : aR ≠ bR := fun hc => absurd h1 (by rw [hc]; exact lt_irrefl _)
    have hst : componentNodeMerge st aR bR
        = updBody st aR (fun bo => { bo with node := { bo.node with parent := some bR } }) := by
      unfold componentNodeMerge
      rw [if_pos h1]
    refine ⟨fun r => if r = aR then bR else r, by simp [Ne.symm hne], ?_⟩
    intro x r hx
    rw [hst]
    exact attach_rootsTo st _ aR bR ha hb hne (by simp [updBody])
      (fun y hy => by simp [updBody, hy]) x r hx
  · by_cases h2 : (st.bodyOf bR).node.rank < (st.bodyOf aR).node.rank
    · have hne : bR ≠ aR := fun hc => absurd h2 (by rw [hc]; exact lt_irrefl _)
      have hst : componentNodeMerge st aR bR
          = updBody st bR (fun bo => { bo with node := { bo.node with parent := some aR } }) := by
        unfold componentNodeMerge
        rw [if_neg h1, if_pos h2]
      refine ⟨fun r => if r = bR then aR else r, by simp [Ne.symm hne], ?_⟩
      intro x r hx
      rw [hst]
      exact attach_rootsTo st _ bR aR hb ha hne (by simp [updBody])
        (fun y hy => by simp [updBody, hy]) x r hx
    · by_cases h3 : aR = bR
      · subst h3
        have hst : componentNodeMerge st aR aR = st := by
          unfold componentNodeMerge
          rw [if_neg h1, if_neg h2, if_neg (by simp)]
        refine ⟨id, rfl, ?_⟩
        intro x r hx
        rw [hst]
        exact hx
      · have hst : componentNodeMerge st aR bR
            = updBody (updBody st bR
                (fun bo => { bo with node := { bo.node with parent := some aR } })) aR
                (fun bo => { bo with node := { bo.node with rank := bo.node.rank + 1 } }) := by
          unfold componentNodeMerge
          rw [if_neg h1, if_neg h2, if_pos h3]
        refine ⟨fun r => if r = bR then aR else r, by simp [h3], ?_⟩
        intro x r hx
        rw [hst]
        refine attach_rootsTo st _ bR aR hb ha (Ne.symm h3) ?_ ?_ x r hx
        · simp [updBody, Ne.symm h3]
        · intro y hy
          by_cases hya : y = aR
          · subst hya
            simp [updBody, h3]
          · simp [updBody, hy, hya]

/-! ## Ring paths -/

theorem componentNodeRoot_body_frame (fuel : Nat) (st : St) (body : BodyId)
    (st' : St) (root : BodyId)
    (h : componentNodeRoot fuel st body = some (st', root)) :
    ∀ x, (st'.bodyOf x).node.next = (st.bodyOf x).node.next ∧
         (st'.bodyOf x).node.idleTime = (st.bodyOf x).node.idleTime ∧
         (st'.bodyOf x).node.rank = (st.bodyOf x).node.rank ∧
         (st'.bodyOf x).rogueFlag = (st.bodyOf x).rogueFlag ∧
         (st'.bodyOf x).staticFlag = (st.bodyOf x).staticFlag := by
  obtain ⟨_, _, h3, h4, _⟩ := componentNodeRoot_spec fuel st body st' root h
  intro x
  by_cases hx : x ∈ parentChain fuel st body
  · rw [h3 x hx]
    exact ⟨rfl, rfl, rfl, rfl, rfl⟩
  · rw [h4 x hx]
    exact ⟨rfl, rfl, rfl, rfl, rfl⟩

theorem componentNodeRoot_parent_none_preserved (fuel : Nat) (st : St) (body : BodyId)
    (st' : St) (root : BodyId)
    (h : componentNodeRoot fuel st body = some (st', root)) :
    ∀ r, (st.bodyOf r).node.parent = none → (st'.bodyOf r).node.parent = none := by
  obtain ⟨_, _, _, h4, _⟩ := componentNodeRoot_spec fuel st body st' root h
  intro r hr
  have : r ∉ parentChain fuel st body := fun hc => parentChain_parent st fuel body r hc hr
  rw [h4 r this]
  exact hr

theorem nextPath_congr_mem (st st' : St) (root : BodyId) :
    ∀ l, (∀ x ∈ l, (st'.bodyOf x).node.next = (st.bodyOf x).node.next) →
      nextPath st root l → nextPath st' root l := by
  intro l
  induction l with
  | nil => intro _ _; trivial
  | cons x xs ih =>
    cases xs with
    | nil =>
      intro hx hp
      simp only [nextPath] at hp ⊢
      rw [hx x (by simp)]
      exact hp
    | cons y rest =>
      intro hx hp
      simp only [nextPath] at hp ⊢
      exact ⟨by rw [hx x (by simp)]; exact hp.1,
        ih (fun z hz => hx z (by simp [hz])) hp.2⟩

theorem nextPath_isSome (st : St) (root : BodyId) :
    ∀ l, nextPath st root l → ∀ b ∈ l, (st.bodyOf b).node.next.isSome = true := by
  intro l
  induction l with
  | nil => intro _ b hb; simp at hb
  | cons x xs ih =>
    cases xs with
    | nil =>
      intro hp b hb
      simp only [nextPath] at hp
      rw [List.mem_singleton.mp hb, hp]
      rfl
    | cons y rest =>
      intro hp b hb
      simp only [nextPath] at hp
      rcases List.mem_cons.mp hb with hbx | hbx
      · rw [hbx, hp.1]; rfl
      · exact ih hp.2 b hbx

/-- `RingsInv` survives a state change that preserves every `next` link,
every established root, and parentlessness. -/
theorem ringsInv_transport (st st' : St) (comps : List BodyId) (R : BodyId → List BodyId)
    (hnext : ∀ x, (st'.bodyOf x).node.next = (st.bodyOf x).node.next)
    (hroots : ∀ x r, RootsTo st x r → RootsTo st' x r)
    (hpar : ∀ r, (st.bodyOf r).node.parent = none → (st'.bodyOf r).node.parent = none)
    (hinv : RingsInv st comps R) : RingsInv st' comps R := by
  obtain ⟨i1, i2, i3, i4, i5, i6⟩ := hinv
  refine ⟨i1, ?_, i3, ?_, ?_, ?_⟩
  · intro r hr
    obtain ⟨xs, hxs, hpath, hnd⟩ := i2 r hr
    exact ⟨xs, hxs, nextPath_congr_mem st st' r _ (fun x _ => hnext x) hpath, hnd⟩
  · intro b
    rw [hnext b]
    exact i4 b
  · intro r hr b hb
    exact hroots b r (i5 r hr b hb)
  · intro r hr
    exact hpar r (i6 r hr)

/-- One `addToComponent` call preserves ring well-formedness, places the
body, and only moves `next` pointers (idle times, rogue flags,
established roots and every non-body field of the space are untouched). -/
theorem addToComponent_inv (fuel : Nat) (st : St) (comps : List BodyId) (body : BodyId)
    (st' : St) (comps' : List BodyId) (R : BodyId → List BodyId)
    (h : addToComponent fuel st comps body = some (st', comps'))
    (hinv : RingsInv st comps R) :
    ∃ R', RingsInv st' comps' R' ∧
      comps ⊆ comps' ∧
      (st'.bodyOf body).node.next.isSome = true ∧
      (∀ x, (st'.bodyOf x).node.idleTime = (st.bodyOf x).node.idleTime ∧
            (st'.bodyOf x).rogueFlag = (st.bodyOf x).rogueFlag) ∧
      (∀ x, (st.bodyOf x).node.next.isSome = true →
        (st'.bodyOf x).node.next.isSome = true) ∧
      (∀ x r, RootsTo st x r → RootsTo st' x r) ∧
      st' = { st with bodyOf := st'.bodyOf } := by
  unfold addToComponent at h
  split at h
  · -- already placed: nothing happens
    rename_i hplaced
    simp only [Option.some.injEq, Prod.mk.injEq] at h
    obtain ⟨h1, h2⟩ := h
    subst h1; subst h2
    exact ⟨R, hinv, fun _ hx => hx, hplaced, fun x => ⟨rfl, rfl⟩, fun x hx => hx,
      fun x r hx => hx, rfl⟩
  · rename_i hnp
    simp only [Option.bind_eq_bind, Option.bind_eq_some] at h
    obtain ⟨⟨st1, root⟩, hfind, h⟩ := h
    dsimp only at h
    have hframe := componentNodeRoot_body_frame fuel st body st1 root hfind
    have hroots1 : ∀ x r, RootsTo st x r → RootsTo st1 x r :=
      componentNodeRoot_rootsTo fuel st body st1 root hfind
    have hpar1 : ∀ r, (st.bodyOf r).node.parent = none → (st1.bodyOf r).node.parent = none :=
      componentNodeRoot_parent_none_preserved fuel st body st1 root hfind
    have hinv1 : RingsInv st1 comps R :=
      ringsInv_transport st st1 comps R (fun x => (hframe x).1) hroots1 hpar1 hinv
    have hrootroot : RootsTo st body root :=
      componentNodeRoot_returns_root fuel st body st1 root hfind
    have hrootsTo1 : RootsTo st1 body root := hroots1 _ _ hrootroot
    have hrpn : (st.bodyOf root).node.parent = none := rootsTo_parent_none hrootroot
    have hrpn1 : (st1.bodyOf root).node.parent = none := hpar1 root hrpn
    have hspec5 := (componentNodeRoot_spec fuel st body st1 root hfind).2.2.2.2
    have hbnone : (st.bodyOf body).node.next = none := by
      cases hev : (st.bodyOf body).node.next with
      | none => rfl
      | some v => exact absurd (by rw [hev]; rfl) hnp
    have hb1 : (st1.bodyOf body).node.next = none := by
      rw [(hframe body).1]; exact hbnone
    obtain ⟨i1, i2, i3, i4, i5, i6⟩ := hinv1
    have hbodyNoRing : ∀ r ∈ comps, body ∉ R r := by
      intro r hr hbR
      have hps := (i4 body).mpr ⟨r, hr, hbR⟩
      rw [hb1] at hps
      cases hps
    cases hm : (st1.bodyOf root).node.next with
    | none =>
      rw [hm] at h
      simp only [Option.some.injEq, Prod.mk.injEq] at h
      obtain ⟨hst, hcomps⟩ := h
      have hrootNoRing : ∀ r ∈ comps, root ∉ R r := by
        intro r hr hbR
        have hps := (i4 root).mpr ⟨r, hr, hbR⟩
        rw [hm] at hps
        cases hps
      have hrootNotComps : root ∉ comps := by
        intro hc
        obtain ⟨xs, hxs, _, _⟩ := i2 root hc
        exact hrootNoRing root hc (by rw [hxs]; exact List.mem_cons_self _ _)
      have hnext2 : ∀ x, (st'.bodyOf x).node.next =
          if x = root then some body
          else if x = body then some root
          else (st1.bodyOf x).node.next := by
        intro x
        rw [← hst]
        by_cases hxr : x = root
        · simp [updBody, hxr]
        · by_cases hxb : x = body
          · have hbr : body ≠ root := fun hc => hxr (hxb.trans hc)
            simp [updBody, hxr, hxb, hbr, Ne.symm hbr]
          · simp [updBody, hxr, hxb]
      have hother2 : ∀ x, (st'.bodyOf x).node.parent = (st1.bodyOf x).node.parent ∧
          (st'.bodyOf x).node.idleTime = (st1.bodyOf x).node.idleTime ∧
          (st'.bodyOf x).rogueFlag = (st1.bodyOf x).rogueFlag := by
        intro x
        rw [← hst]
        by_cases hxr : x = root
        · by_cases hrb : root = body
          · simp [updBody, hxr, hrb]
          · have hbr2 : body ≠ root := fun hc => hrb hc.symm
            simp [updBody, hxr, hrb, hbr2]
        · by_cases hxb : x = body
          · have hbr : body ≠ root := fun hc => hxr (hxb.trans hc)
            simp [updBody, hxr, hxb, hbr, Ne.symm hbr]
          · simp [updBody, hxr, hxb]
      have hroots2 : ∀ x r, RootsTo st1 x r → RootsTo st' x r :=
        fun x r hx => rootsTo_congr st1 st' (fun y => (hother2 y).1) hx
      have hnewmem : ∀ x, x ∈ (root :: (if body = root then [] else [body]) : List BodyId)
          ↔ (x = root ∨ x = body) := by
        intro x
        by_cases hbr : body = root
        · rw [if_pos hbr]
          simp [hbr]
        · rw [if_neg hbr]
          simp
      refine ⟨fun r => if r = root then
          root :: (if body = root then [] else [body]) else R r, ?_, ?_, ?_, ?_, ?_, ?_, ?_⟩
      · subst hcomps
        refine ⟨?_, ?_, ?_, ?_, ?_, ?_⟩
        · rw [List.nodup_append]
          exact ⟨i1, List.nodup_singleton _, fun a ha hb => by
            rw [List.mem_singleton.mp hb] at ha; exact hrootNotComps ha⟩
        · intro r hr
          dsimp only
          rcases List.mem_append.mp hr with hr | hr
          · have hrne : r ≠ root := fun hc => hrootNotComps (hc ▸ hr)
            obtain ⟨xs, hxs, hpath, hnd⟩ := i2 r hr
            refine ⟨xs, by rw [if_neg hrne]; exact hxs, ?_, hnd⟩
            refine nextPath_congr_mem st1 st' r _ ?_ hpath
            intro x hx
            have hxRr : x ∈ R r := by rw [hxs]; exact hx
            have hxr : x ≠ root := fun hc => hrootNoRing r hr (hc ▸ hxRr)
            have hxb : x ≠ body := fun hc => hbodyNoRing r hr (hc ▸ hxRr)
            rw [hnext2 x, if_neg hxr, if_neg hxb]
          · rw [List.mem_singleton.mp hr]
            rw [if_pos rfl]
            by_cases hbr : body = root
            · refine ⟨(if body = root then [] else [body]), rfl, ?_, ?_⟩
              · rw [if_pos hbr]
                simp only [nextPath]
                rw [hnext2 root, if_pos rfl, hbr]
              · rw [if_pos hbr]; simp
            · refine ⟨(if body = root then [] else [body]), rfl, ?_, ?_⟩
              · rw [if_neg hbr]
                simp only [nextPath]
                constructor
                · rw [hnext2 root, if_pos rfl]
                · rw [hnext2 body, if_neg hbr, if_pos rfl]
              · rw [if_neg hbr]; simp [Ne.symm hbr]
        · intro b r1 r2 hr1 hr2 hb1m hb2m
          dsimp only at hb1m hb2m
          rcases List.mem_append.mp hr1 with hr1m | hr1m <;>
            rcases List.mem_append.mp hr2 with hr2m | hr2m
          · have hn1 : r1 ≠ root := fun hc => hrootNotComps (hc ▸ hr1m)
            have hn2 : r2 ≠ root := fun hc => hrootNotComps (hc ▸ hr2m)
            rw [if_neg hn1] at hb1m
            rw [if_neg hn2] at hb2m
            exact i3 b r1 r2 hr1m hr2m hb1m hb2m
          · exfalso
            have hn1 : r1 ≠ root := fun hc => hrootNotComps (hc ▸ hr1m)
            rw [if_neg hn1] at hb1m
            rw [List.mem_singleton.mp hr2m, if_pos rfl] at hb2m
            rcases (hnewmem b).mp hb2m with hbb | hbb
            · exact hrootNoRing r1 hr1m (hbb ▸ hb1m)
            · exact hbodyNoRing r1 hr1m (hbb ▸ hb1m)
          · exfalso
            have hn2 : r2 ≠ root := fun hc => hrootNotComps (hc ▸ hr2m)
            rw [if_neg hn2] at hb2m
            rw [List.mem_singleton.mp hr1m, if_pos rfl] at hb1m
            rcases (hnewmem b).mp hb1m with hbb | hbb
            · exact hrootNoRing r2 hr2m (hbb ▸ hb2m)
            · exact hbodyNoRing r2 hr2m (hbb ▸ hb2m)
          · rw [List.mem_singleton.mp hr1m, List.mem_singleton.mp hr2m]
        · intro x
          dsimp only
          constructor
          · intro hx
            by_cases hxr : x = root
            · exact ⟨root, List.mem_append_right _ (List.mem_singleton.mpr rfl),
                by rw [if_pos rfl]; exact (hnewmem x).mpr (Or.inl hxr)⟩
            · by_cases hxb : x = body
              · exact ⟨root, List.mem_append_right _ (List.mem_singleton.mpr rfl),
                  by rw [if_pos rfl]; exact (hnewmem x).mpr (Or.inr hxb)⟩
              · rw [hnext2 x, if_neg hxr, if_neg hxb] at hx
                obtain ⟨r, hr, hxm⟩ := (i4 x).mp hx
                have hrne : r ≠ root := fun hc => hrootNotComps (hc ▸ hr)
                exact ⟨r, List.mem_append_left _ hr, by rw [if_neg hrne]; exact hxm⟩
          · intro hx
            obtain ⟨r, hr, hxm⟩ := hx
            rcases List.mem_append.mp hr with hrm | hrm
            · have hrne : r ≠ root := fun hc => hrootNotComps (hc ▸ hrm)
              rw [if_neg hrne] at hxm
              have hxr : x ≠ root := fun hc => hrootNoRing r hrm (hc ▸ hxm)
              have hxb : x ≠ body := fun hc => hbodyNoRing r hrm (hc ▸ hxm)
              rw [hnext2 x, if_neg hxr, if_neg hxb]
              exact (i4 x).mpr ⟨r, hrm, hxm⟩
            · rw [List.mem_singleton.mp hrm, if_pos rfl] at hxm
              rcases (hnewmem x).mp hxm with hbb | hbb
              · rw [hnext2 x, if_pos hbb]; rfl
              · rw [hnext2 x]
                by_cases hxr : x = root
                · rw [if_pos hxr]; rfl
                · rw [if_neg hxr, if_pos hbb]; rfl
        · intro r hr b hb
          dsimp only at hb
          rcases List.mem_append.mp hr with hrm | hrm
          · have hrne : r ≠ root := fun hc => hrootNotComps (hc ▸ hrm)
            rw [if_neg hrne] at hb
            exact hroots2 b r (i5 r hrm b hb)
          · rw [List.mem_singleton.mp hrm] at hb ⊢
            rw [if_pos rfl] at hb
            rcases (hnewmem b).mp hb with hbb | hbb
            · rw [hbb]
              exact rootsTo_self (by rw [(hother2 root).1]; exact hrpn1)
            · rw [hbb]
              exact hroots2 body root hrootsTo1
        · intro r hr
          rcases List.mem_append.mp hr with hrm | hrm
          · rw [(hother2 r).1]
            exact i6 r hrm
          · rw [List.mem_singleton.mp hrm, (hother2 root).1]
            exact hrpn1
      · subst hcomps
        exact fun a ha => List.mem_append_left _ ha
      · rw [hnext2 body]
        by_cases hbr : body = root
        · rw [if_pos hbr]; rfl
        · rw [if_neg hbr, if_pos rfl]; rfl
      · intro x
        obtain ⟨_, he2, he3⟩ := hother2 x
        obtain ⟨_, hf2, _, hf4, _⟩ := hframe x
        exact ⟨he2.trans hf2, he3.trans hf4⟩
      · intro x hx
        rw [hnext2 x]
        by_cases hxr : x = root
        · rw [if_pos hxr]; rfl
        · by_cases hxb : x = body
          · rw [if_neg hxr, if_pos hxb]; rfl
          · rw [if_neg hxr, if_neg hxb, (hframe x).1]
            exact hx
      · exact fun x r hx => hroots2 x r (hroots1 x r hx)
      · rw [← hst]
        conv_lhs => rw [hspec5]
        rfl
    | some nxt =>
      rw [hm] at h
      dsimp only at h
      split at h
      · rename_i hne
        simp only [Option.some.injEq, Prod.mk.injEq] at h
        obtain ⟨hst, hcomps⟩ := h
        subst hcomps
        have hbne : body ≠ root := Ne.symm hne
        -- the found root is placed, so it is a component handle
        have hrplaced : (st1.bodyOf root).node.next.isSome = true := by rw [hm]; rfl
        obtain ⟨r0, hr0, hrm⟩ := (i4 root).mp hrplaced
        have hr0root : r0 = root := rootsTo_of_parent_none hrpn1 (i5 r0 hr0 root hrm)
        have hrootComps : root ∈ comps := hr0root ▸ hr0
        obtain ⟨xs, hxs, hpath, hnd⟩ := i2 root hrootComps
        have hbNotRing : body ∉ root :: xs := by
          intro hc
          exact hbodyNoRing root hrootComps (by rw [hxs]; exact hc)
        have hrootxs : root ∉ xs := by
          have := List.nodup_cons.mp hnd
          exact this.1
        have hnext2 : ∀ x, (st'.bodyOf x).node.next =
            if x = root then some body
            else if x = body then some nxt
            else (st1.bodyOf x).node.next := by
          intro x
          rw [← hst]
          by_cases hxr : x = root
          · simp [updBody, hxr, Ne.symm hne]
          · by_cases hxb : x = body
            · simp [updBody, hxr, hxb, hbne, Ne.symm hbne]
            · simp [updBody, hxr, hxb]
        have hother2 : ∀ x, (st'.bodyOf x).node.parent = (st1.bodyOf x).node.parent ∧
            (st'.bodyOf x).node.idleTime = (st1.bodyOf x).node.idleTime ∧
            (st'.bodyOf x).rogueFlag = (st1.bodyOf x).rogueFlag := by
          intro x
          rw [← hst]
          by_cases hxr : x = root
          · simp [updBody, hxr, hne, Ne.symm hne]
          · by_cases hxb : x = body
            · simp [updBody, hxr, hxb, hbne, Ne.symm hbne]
            · simp [updBody, hxr, hxb]
        have hroots2 : ∀ x r, RootsTo st1 x r → RootsTo st' x r :=
          fun x r hx => rootsTo_congr st1 st' (fun y => (hother2 y).1) hx
        have hmemxs : ∀ x ∈ xs, x ≠ root ∧ x ≠ body := by
          intro x hx
          constructor
          · intro hc; exact hrootxs (hc ▸ hx)
          · intro hc; exact hbNotRing (hc ▸ List.mem_cons_of_mem _ hx)
        refine ⟨fun r => if r = root then root :: body :: xs else R r,
          ?_, fun a ha => ha, ?_, ?_, ?_, ?_, ?_⟩
        · refine ⟨i1, ?_, ?_, ?_, ?_, ?_⟩
          · intro r hr
            dsimp only
            by_cases hrr : r = root
            · subst hrr
              rw [if_pos rfl]
              refine ⟨body :: xs, rfl, ?_, ?_⟩
              · cases xs with
                | nil =>
                  simp only [nextPath] at hpath ⊢
                  have hnxtroot : nxt = r := by
                    rw [hpath] at hm
                    exact (Option.some.inj hm).symm
                  constructor
                  · rw [hnext2 r, if_pos rfl]
                  · rw [hnext2 body, if_neg hbne, if_pos rfl, hnxtroot]
                | cons y rest =>
                  simp only [nextPath] at hpath ⊢
                  obtain ⟨hpy, hptail⟩ := hpath
                  have hnxty : nxt = y := by
                    rw [hpy] at hm
                    exact (Option.some.inj hm).symm
                  refine ⟨by rw [hnext2 r, if_pos rfl], ?_, ?_⟩
                  · rw [hnext2 body, if_neg hbne, if_pos rfl, hnxty]
                  · have := nextPath_congr_mem st1 st' r (y :: rest) ?_ hptail
                    · exact this
                    · intro z hz
                      obtain ⟨hz1, hz2⟩ := hmemxs z hz
                      rw [hnext2 z, if_neg hz1, if_neg hz2]
              · have hxsnd : xs.Nodup := (List.nodup_cons.mp hnd).2
                rw [List.nodup_cons, List.nodup_cons]
                refine ⟨?_, ?_, hxsnd⟩
                · intro hc
                  rcases List.mem_cons.mp hc with hc | hc
                  · exact hbne hc.symm
                  · exact hrootxs hc
                · intro hc
                  exact hbNotRing (List.mem_cons_of_mem _ hc)
            · rw [if_neg hrr]
              obtain ⟨ys, hys, hpathr, hndr⟩ := i2 r hr
              refine ⟨ys, hys, ?_, hndr⟩
              refine nextPath_congr_mem st1 st' r _ ?_ hpathr
              intro x hx
              have hxRr : x ∈ R r := by rw [hys]; exact hx
              have hxroot : x ≠ root := by
                intro hc
                exact hrr (i3 root r root hr hrootComps (hc ▸ hxRr)
                  (by rw [hxs]; exact List.mem_cons_self _ _))
              have hxb : x ≠ body := fun hc => hbodyNoRing r hr (hc ▸ hxRr)
              rw [hnext2 x, if_neg hxroot, if_neg hxb]
          · intro b r1 r2 hr1 hr2 hb1m hb2m
            dsimp only at hb1m hb2m
            by_cases h1r : r1 = root <;> by_cases h2r : r2 = root
            · rw [h1r, h2r]
            · exfalso
              rw [if_pos h1r] at hb1m
              rw [if_neg h2r] at hb2m
              have hcases : b = body ∨ b ∈ R root := by
                rcases List.mem_cons.mp hb1m with hbb | hbb
                · exact Or.inr (by rw [hxs, hbb]; exact List.mem_cons_self _ _)
                · rcases List.mem_cons.mp hbb with hbb2 | hbb2
                  · exact Or.inl hbb2
                  · exact Or.inr (by rw [hxs]; exact List.mem_cons_of_mem _ hbb2)
              rcases hcases with hbb | hbb
              · exact hbodyNoRing r2 hr2 (hbb ▸ hb2m)
              · exact h2r (i3 b r2 root hr2 hrootComps hb2m hbb)
            · exfalso
              rw [if_neg h1r] at hb1m
              rw [if_pos h2r] at hb2m
              have hcases : b = body ∨ b ∈ R root := by
                rcases List.mem_cons.mp hb2m with hbb | hbb
                · exact Or.inr (by rw [hxs, hbb]; exact List.mem_cons_self _ _)
                · rcases List.mem_cons.mp hbb with hbb2 | hbb2
                  · exact Or.inl hbb2
                  · exact Or.inr (by rw [hxs]; exact List.mem_cons_of_mem _ hbb2)
              rcases hcases with hbb | hbb
              · exact hbodyNoRing r1 hr1 (hbb ▸ hb1m)
              · exact h1r (i3 b r1 root hr1 hrootComps hb1m hbb)
            · rw [if_neg h1r] at hb1m
              rw [if_neg h2r] at hb2m
              exact i3 b r1 r2 hr1 hr2 hb1m hb2m
          · intro x
            dsimp only
            constructor
            · intro hx
              by_cases hxr : x = root
              · exact ⟨root, hrootComps, by
                  rw [if_pos rfl, hxr]; exact List.mem_cons_self _ _⟩
              · by_cases hxb : x = body
                · exact ⟨root, hrootComps, by
                    rw [if_pos rfl, hxb]
                    exact List.mem_cons_of_mem _ (List.mem_cons_self _ _)⟩
                · rw [hnext2 x, if_neg hxr, if_neg hxb] at hx
                  obtain ⟨r, hr, hxm⟩ := (i4 x).mp hx
                  by_cases hrr : r = root
                  · refine ⟨root, hrootComps, ?_⟩
                    rw [if_pos rfl]
                    rw [hrr, hxs] at hxm
                    rcases List.mem_cons.mp hxm with h1 | h1
                    · rw [h1]; exact List.mem_cons_self _ _
                    · exact List.mem_cons_of_mem _ (List.mem_cons_of_mem _ h1)
                  · exact ⟨r, hr, by rw [if_neg hrr]; exact hxm⟩
            · intro hx
              obtain ⟨r, hr, hxm⟩ := hx
              by_cases hrr : r = root
              · rw [if_pos hrr] at hxm
                rcases List.mem_cons.mp hxm with h1 | h1
                · rw [hnext2 x, if_pos h1]; rfl
                · rcases List.mem_cons.mp h1 with h2 | h2
                  · rw [hnext2 x]
                    by_cases hxr2 : x = root
                    · rw [if_pos hxr2]; rfl
                    · rw [if_neg hxr2, if_pos h2]; rfl
                  · obtain ⟨hz1, hz2⟩ := hmemxs x h2
                    rw [hnext2 x, if_neg hz1, if_neg hz2]
                    exact (i4 x).mpr ⟨root, hrootComps,
                      by rw [hxs]; exact List.mem_cons_of_mem _ h2⟩
              · rw [if_neg hrr] at hxm
                have hxroot : x ≠ root := by
                  intro hc
                  exact hrr (i3 root r root hr hrootComps (hc ▸ hxm)
                    (by rw [hxs]; exact List.mem_cons_self _ _))
                have hxb : x ≠ body := fun hc => hbodyNoRing r hr (hc ▸ hxm)
                rw [hnext2 x, if_neg hxroot, if_neg hxb]
                exact (i4 x).mpr ⟨r, hr, hxm⟩
          · intro r hr b hb
            dsimp only at hb
            by_cases hrr : r = root
            · rw [if_pos hrr] at hb
              rcases List.mem_cons.mp hb with h1 | h1
              · rw [h1, hrr]
                exact rootsTo_self (by rw [(hother2 root).1]; exact hrpn1)
              · rcases List.mem_cons.mp h1 with h2 | h2
                · rw [h2, hrr]
                  exact hroots2 body root hrootsTo1
                · rw [hrr]
                  exact hroots2 b root (i5 root hrootComps b
                    (by rw [hxs]; exact List.mem_cons_of_mem _ h2))
            · rw [if_neg hrr] at hb
              exact hroots2 b r (i5 r hr b hb)
          · intro r hr
            rw [(hother2 r).1]
            exact i6 r hr
        · rw [hnext2 body, if_neg hbne, if_pos rfl]; rfl
        · intro x
          obtain ⟨_, he2, he3⟩ := hother2 x
          obtain ⟨_, hf2, _, hf4, _⟩ := hframe x
          exact ⟨he2.trans hf2, he3.trans hf4⟩
        · intro x hx
          rw [hnext2 x]
          by_cases hxr : x = root
          · rw [if_pos hxr]; rfl
          · by_cases hxb : x = body
            · rw [if_neg hxr, if_pos hxb]; rfl
            · rw [if_neg hxr, if_neg hxb, (hframe x).1]
              exact hx
        · exact fun x r hx => hroots2 x r (hroots1 x r hx)
        · rw [← hst]
          conv_lhs => rw [hspec5]
          rfl
      · rename_i hne
        have hrb : root = body := not_not.mp hne
        rw [hrb, hb1] at hm
        cases hm

theorem pairKey_comm (a b : ShapeId) : pairKey a b = pairKey b a := by
  unfold pairKey
  rcases Nat.le_total a b with h | h
  · by_cases h2 : b ≤ a
    · have : a = b := Nat.le_antisymm h h2
      subst this; rfl
    · simp [h, h2]
  · by_cases h2 : a ≤ b
    · have : a = b := Nat.le_antisymm h2 h
      subst this; rfl
    · simp [h, h2]

theorem eraseP_key_not_mem {k : ShapeId × ShapeId}
    {l : List ((ShapeId × ShapeId) × ArbId)} (h : (l.map Prod.fst).Nodup) :
    ∀ e ∈ l.eraseP (fun e => e.1 == k), e.1 ≠ k := by
  induction l with
  | nil => intro e he; simp at he
  | cons x xs ih =>
    simp only [List.map_cons, List.nodup_cons] at h
    obtain ⟨hx, hxs⟩ := h
    intro e he
    by_cases hk : x.1 = k
    · rw [List.eraseP_cons_of_pos (by simp [hk])] at he
      intro hek
      exact hx (List.mem_map.mpr ⟨e, he, hek.trans hk.symm⟩)
    · rw [List.eraseP_cons_of_neg (by simp [hk])] at he
      rcases List.mem_cons.mp he with he | he
      · subst he; exact hk
      · exact ih hxs e he

theorem deactivateArbStep_frame (st : St) (body : BodyId) (i : ArbId) :
    (deactivateArbStep st body i).bodyOf = st.bodyOf ∧
    (deactivateArbStep st body i).shapeBody = st.shapeBody ∧
    (deactivateArbStep st body i).locked = st.locked ∧
    (deactivateArbStep st body i).bodies = st.bodies ∧
    (∀ j, ((deactivateArbStep st body i).arbOf j).a = (st.arbOf j).a ∧
          ((deactivateArbStep st body i).arbOf j).b = (st.arbOf j).b ∧
          ((deactivateArbStep st body i).arbOf j).nextA = (st.arbOf j).nextA ∧
          ((deactivateArbStep st body i).arbOf j).nextB = (st.arbOf j).nextB) ∧
    (∀ j, j ≠ i → (deactivateArbStep st body i).arbOf j = st.arbOf j) ∧
    (deactivateArbStep st body i).contactSet.Sublist st.contactSet := by
  unfold deactivateArbStep contactSetRemove updArb
  dsimp only
  split
  · refine ⟨rfl, rfl, rfl, rfl, ?_, ?_, List.eraseP_sublist _⟩
    · intro j
      by_cases hj : j = i <;> simp [hj]
    · intro j hj
      simp [hj]
  · exact ⟨rfl, rfl, rfl, rfl, fun j => ⟨rfl, rfl, rfl, rfl⟩, fun j _ => rfl,
      List.Sublist.refl _⟩

theorem deactivateArbStep_primary (st : St) (body : BodyId) (i : ArbId)
    (h : arbPrimary st body i = true) :
    ((deactivateArbStep st body i).arbOf i).contacts = .heap ((st.arbOf i).contacts.data) ∧
    (deactivateArbStep st body i).contactSet =
      st.contactSet.eraseP (fun e => e.1 == pairKey (st.arbOf i).a (st.arbOf i).b) := by
  unfold arbPrimary at h
  unfold deactivateArbStep contactSetRemove updArb
  dsimp only
  rw [h]
  simp

theorem arbChain_congr (st st' : St) (body : BodyId)
    (hsb : st'.shapeBody = st.shapeBody)
    (hpt : ∀ j, (st'.arbOf j).a = (st.arbOf j).a ∧ (st'.arbOf j).b = (st.arbOf j).b ∧
           (st'.arbOf j).nextA = (st.arbOf j).nextA ∧ (st'.arbOf j).nextB = (st.arbOf j).nextB) :
    ∀ (fuel : Nat) (link : Option ArbId),
      arbChain st' body fuel link = arbChain st body fuel link := by
  intro fuel
  induction fuel with
  | zero => intro link; cases link <;> rfl
  | succ n ih =>
    intro link
    cases link with
    | none => rfl
    | some a =>
      obtain ⟨ha, hb, hna, hnb⟩ := hpt a
      have hn : arbNext st' body a = arbNext st body a := by
        unfold arbNext; rw [hsb, ha, hna, hnb]
      simp only [arbChain, hn, ih]

theorem arbPrimary_congr (st st' : St) (body : BodyId)
    (hsb : st'.shapeBody = st.shapeBody)
    (hbo : st'.bodyOf = st.bodyOf)
    (hpt : ∀ j, (st'.arbOf j).a = (st.arbOf j).a) :
    ∀ j, arbPrimary st' body j = arbPrimary st body j := by
  intro j
  unfold arbPrimary
  rw [hsb, hbo, hpt j]

theorem deactivateArbLoop_spec (body : BodyId) :
    ∀ (fuel : Nat) (st : St) (link : Option ArbId) (st' : St),
      deactivateArbLoop body fuel st link = some st' →
      (arbChain st body fuel link).Nodup →
      st'.bodyOf = st.bodyOf ∧
      st'.shapeBody = st.shapeBody ∧
      st'.locked = st.locked ∧
      st'.bodies = st.bodies ∧
      (∀ j, (st'.arbOf j).a = (st.arbOf j).a ∧ (st'.arbOf j).b = (st.arbOf j).b ∧
            (st'.arbOf j).nextA = (st.arbOf j).nextA ∧ (st'.arbOf j).nextB = (st.arbOf j).nextB) ∧
      (∀ j, j ∉ arbChain st body fuel link → st'.arbOf j = st.arbOf j) ∧
      st'.contactSet.Sublist st.contactSet ∧
      (∀ j ∈ arbChain st body fuel link, arbPrimary st body j = true →
        (st'.arbOf j).contacts = .heap ((st.arbOf j).contacts.data) ∧
        ((st.contactSet.map Prod.fst).Nodup →
          ∀ e ∈ st'.contactSet, e.1 ≠ pairKey (st.arbOf j).a (st.arbOf j).b)) := by
  intro fuel
  induction fuel with
  | zero =>
    intro st link st' h hn
    cases link with
    | none =>
      simp only [deactivateArbLoop] at h
      cases h
      exact ⟨rfl, rfl, rfl, rfl, fun j => ⟨rfl, rfl, rfl, rfl⟩, fun j _ => rfl,
        List.Sublist.refl _, fun j hj => by simp [arbChain] at hj⟩
    | some a => simp [deactivateArbLoop] at h
  | succ n ih =>
    intro st link st' h hn
    cases link with
    | none =>
      simp only [deactivateArbLoop] at h
      cases h
      exact ⟨rfl, rfl, rfl, rfl, fun j => ⟨rfl, rfl, rfl, rfl⟩, fun j _ => rfl,
        List.Sublist.refl _, fun j hj => by simp [arbChain] at hj⟩
    | some a =>
      simp only [deactivateArbLoop] at h
      obtain ⟨f1, f2, f3, f4, f5, f6, f7⟩ := deactivateArbStep_frame st body a
      have hnext : arbNext (deactivateArbStep st body a) body a = arbNext st body a := by
        obtain ⟨ha, hb, hna, hnb⟩ := f5 a
        unfold arbNext; rw [f2, ha, hna, hnb]
      have hchain : ∀ (m : Nat) (l : Option ArbId),
          arbChain (deactivateArbStep st body a) body m l = arbChain st body m l :=
        arbChain_congr _ _ _ f2 f5
      have hcone : arbChain st body (n + 1) (some a)
          = a :: arbChain st body n (arbNext st body a) := by
        simp [arbChain]
      rw [hcone] at hn
      obtain ⟨hanot, hntail⟩ := List.nodup_cons.mp hn
      have hntail2 : (arbChain (deactivateArbStep st body a) body n
          (arbNext (deactivateArbStep st body a) body a)).Nodup := by
        rw [hchain, hnext]; exact hntail
      obtain ⟨g1, g2, g3, g4, g5, g6, g7, g8⟩ := ih _ _ _ h hntail2
      have hprim : ∀ j, arbPrimary (deactivateArbStep st body a) body j
          = arbPrimary st body j :=
        arbPrimary_congr _ _ _ f2 f1 (fun j => (f5 j).1)
      refine ⟨g1.trans f1, g2.trans f2, g3.trans f3, g4.trans f4, ?_, ?_, ?_, ?_⟩
      · intro j
        obtain ⟨ga, gb, gna, gnb⟩ := g5 j
        obtain ⟨fa, fb, fna, fnb⟩ := f5 j
        exact ⟨ga.trans fa, gb.trans fb, gna.trans fna, gnb.trans fnb⟩
      · intro j hj
        rw [hcone] at hj
        simp only [List.mem_cons, not_or] at hj
        obtain ⟨hja, hjt⟩ := hj
        have := g6 j (by rw [hchain, hnext]; exact hjt)
        rw [this]
        exact f6 j hja
      · exact g7.trans f7
      · intro j hj hp
        rw [hcone] at hj
        rcases List.mem_cons.mp hj with hja | hjt
        · subst hja
          obtain ⟨p1, p2⟩ := deactivateArbStep_primary st body j hp
          have hpres : st'.arbOf j = (deactivateArbStep st body j).arbOf j :=
            g6 j (by rw [hchain, hnext]; exact hanot)
          refine ⟨by rw [hpres, p1], ?_⟩
          intro hkeys e he
          have he2 : e ∈ (deactivateArbStep st body j).contactSet := g7.subset he
          rw [p2] at he2
          exact eraseP_key_not_mem hkeys e he2
        · have hja : j ≠ a := fun hcontra => hanot (hcontra ▸ hjt)
          have hfp : (deactivateArbStep st body a).arbOf j = st.arbOf j := f6 j hja
          have hmem2 : j ∈ arbChain (deactivateArbStep st body a) body n
              (arbNext (deactivateArbStep st body a) body a) := by
            rw [hchain, hnext]; exact hjt
          obtain ⟨q1, q2⟩ := g8 j hmem2 (by rw [hprim j]; exact hp)
          refine ⟨by rw [q1, hfp], ?_⟩
          intro hkeys e he
          have hkeys2 : (((deactivateArbStep st body a).contactSet).map Prod.fst).Nodup :=
            hkeys.sublist (f7.map Prod.fst)
          have := q2 hkeys2 e he
          rw [hfp] at this
          exact this

theorem deactivateConsLoop_frame (body : BodyId) :
    ∀ (fuel : Nat) (st : St) (link : Option ConsId) (st' : St),
      deactivateConsLoop body fuel st link = some st' →
      st'.bodyOf = st.bodyOf ∧ st'.arbOf = st.arbOf ∧ st'.shapeBody = st.shapeBody ∧
      st'.contactSet = st.contactSet ∧ st'.locked = st.locked ∧ st'.bodies = st.bodies := by
  intro fuel
  induction fuel with
  | zero =>
    intro st link st' h
    cases link with
    | none => simp only [deactivateConsLoop] at h; cases h; exact ⟨rfl, rfl, rfl, rfl, rfl, rfl⟩
    | some a => simp [deactivateConsLoop] at h
  | succ n ih =>
    intro st link st' h
    cases link with
    | none => simp only [deactivateConsLoop] at h; cases h; exact ⟨rfl, rfl, rfl, rfl, rfl, rfl⟩
    | some a =>
      simp only [deactivateConsLoop] at h
      split at h
      · have hres := ih _ _ _ h; exact hres
      · have hres := ih _ _ _ h; exact hres

theorem shapeDeactivateFold_frame (shapes : List ShapeId) (s : St) :
    ((shapes.foldl (fun s sh =>
      { s with activeShapes := s.activeShapes.erase sh,
               staticShapes := sh :: s.staticShapes }) s).bodyOf = s.bodyOf) ∧
    ((shapes.foldl (fun s sh =>
      { s with activeShapes := s.activeShapes.erase sh,
               staticShapes := sh :: s.staticShapes }) s).arbOf = s.arbOf) ∧
    ((shapes.foldl (fun s sh =>
      { s with activeShapes := s.activeShapes.erase sh,
               staticShapes := sh :: s.staticShapes }) s).shapeBody = s.shapeBody) ∧
    ((shapes.foldl (fun s sh =>
      { s with activeShapes := s.activeShapes.erase sh,
               staticShapes := sh :: s.staticShapes }) s).contactSet = s.contactSet) ∧
    ((shapes.foldl (fun s sh =>
      { s with activeShapes := s.activeShapes.erase sh,
               staticShapes := sh :: s.staticShapes }) s).locked = s.locked) ∧
    ((shapes.foldl (fun s sh =>
      { s with activeShapes := s.activeShapes.erase sh,
               staticShapes := sh :: s.staticShapes }) s).bodies = s.bodies) := by
  induction shapes generalizing s with
  | nil => exact ⟨rfl, rfl, rfl, rfl, rfl, rfl⟩
  | cons x xs ih => simpa using ih _

theorem activateArbStep_frame (st : St) (body : BodyId) (i : ArbId) :
    (activateArbStep st body i).bodyOf = st.bodyOf ∧
    (activateArbStep st body i).shapeBody = st.shapeBody ∧
    (activateArbStep st body i).locked = st.locked ∧
    (activateArbStep st body i).bodies = st.bodies ∧
    (∀ j, ((activateArbStep st body i).arbOf j).a = (st.arbOf j).a ∧
          ((activateArbStep st body i).arbOf j).b = (st.arbOf j).b ∧
          ((activateArbStep st body i).arbOf j).nextA = (st.arbOf j).nextA ∧
          ((activateArbStep st body i).arbOf j).nextB = (st.arbOf j).nextB) ∧
    (∀ j, j ≠ i → (activateArbStep st body i).arbOf j = st.arbOf j) ∧
    (∃ pre, (activateArbStep st body i).contactSet = pre ++ st.contactSet ∧
      (pre = [] ∨ pre = [(pairKey (st.arbOf i).a (st.arbOf i).b, i)])) := by
  unfold activateArbStep contactSetInsert updArb
  dsimp only
  split
  · split
    · exact ⟨rfl, rfl, rfl, rfl,
        fun j => by by_cases hj : j = i <;> simp [hj],
        fun j hj => by simp [hj], [], rfl, Or.inl rfl⟩
    · exact ⟨rfl, rfl, rfl, rfl,
        fun j => by by_cases hj : j = i <;> simp [hj],
        fun j hj => by simp [hj],
        [(pairKey (st.arbOf i).a (st.arbOf i).b, i)], rfl, Or.inr rfl⟩
  · exact ⟨rfl, rfl, rfl, rfl, fun j => ⟨rfl, rfl, rfl, rfl⟩, fun j _ => rfl,
      [], rfl, Or.inl rfl⟩

theorem activateArbStep_primary (st : St) (body : BodyId) (i : ArbId)
    (h : arbPrimary st body i = true) :
    ((activateArbStep st body i).arbOf i).contacts = .buffer ((st.arbOf i).contacts.data) ∧
    ((∀ e ∈ st.contactSet, e.1 ≠ pairKey (st.arbOf i).a (st.arbOf i).b) →
      (activateArbStep st body i).contactSet =
        (pairKey (st.arbOf i).a (st.arbOf i).b, i) :: st.contactSet) := by
  unfold arbPrimary at h
  unfold activateArbStep contactSetInsert updArb
  dsimp only
  rw [h, if_pos rfl]
  constructor
  · split <;> simp
  · intro hno
    have hany : (st.contactSet.any
        (fun e => e.1 == pairKey (st.arbOf i).a (st.arbOf i).b)) = false := by
      rw [List.any_eq_false]
      intro e he
      simpa using hno e he
    rw [if_neg (by rw [hany]; exact Bool.false_ne_true)]

theorem activateArbLoop_spec (body : BodyId) :
    ∀ (fuel : Nat) (st : St) (link : Option ArbId) (st' : St),
      activateArbLoop body fuel st link = some st' →
      (arbChain st body fuel link).Nodup →
      st'.bodyOf = st.bodyOf ∧
      st'.shapeBody = st.shapeBody ∧
      st'.locked = st.locked ∧
      st'.bodies = st.bodies ∧
      (∀ j, (st'.arbOf j).a = (st.arbOf j).a ∧ (st'.arbOf j).b = (st.arbOf j).b ∧
            (st'.arbOf j).nextA = (st.arbOf j).nextA ∧ (st'.arbOf j).nextB = (st.arbOf j).nextB) ∧
      (∀ j, j ∉ arbChain st body fuel link → st'.arbOf j = st.arbOf j) ∧
      (∃ pre, st'.contactSet = pre ++ st.contactSet ∧
        ∀ e ∈ pre, ∃ j, j ∈ arbChain st body fuel link ∧
          e = (pairKey (st.arbOf j).a (st.arbOf j).b, j)) ∧
      (∀ j ∈ arbChain st body fuel link, arbPrimary st body j = true →
        (st'.arbOf j).contacts = .buffer ((st.arbOf j).contacts.data) ∧
        ((∀ e ∈ st.contactSet, e.1 ≠ pairKey (st.arbOf j).a (st.arbOf j).b) →
         (∀ k ∈ arbChain st body fuel link, k ≠ j →
            pairKey (st.arbOf k).a (st.arbOf k).b ≠ pairKey (st.arbOf j).a (st.arbOf j).b) →
         (pairKey (st.arbOf j).a (st.arbOf j).b, j) ∈ st'.contactSet)) := by
  intro fuel
  induction fuel with
  | zero =>
    intro st link st' h hn
    cases link with
    | none =>
      simp only [activateArbLoop] at h
      cases h
      exact ⟨rfl, rfl, rfl, rfl, fun j => ⟨rfl, rfl, rfl, rfl⟩, fun j _ => rfl,
        ⟨[], rfl, by simp⟩, fun j hj => by simp [arbChain] at hj⟩
    | some a => simp [activateArbLoop] at h
  | succ n ih =>
    intro st link st' h hn
    cases link with
    | none =>
      simp only [activateArbLoop] at h
      cases h
      exact ⟨rfl, rfl, rfl, rfl, fun j => ⟨rfl, rfl, rfl, rfl⟩, fun j _ => rfl,
        ⟨[], rfl, by simp⟩, fun j hj => by simp [arbChain] at hj⟩
    | some a =>
      simp only [activateArbLoop] at h
      obtain ⟨f1, f2, f3, f4, f5, f6, pre0, hpre0, hpre0e⟩ := activateArbStep_frame st body a
      have hnext : arbNext (activateArbStep st body a) body a = arbNext st body a := by
        obtain ⟨ha, hb, hna, hnb⟩ := f5 a
        unfold arbNext; rw [f2, ha, hna, hnb]
      have hchain : ∀ (m : Nat) (l : Option ArbId),
          arbChain (activateArbStep st body a) body m l = arbChain st body m l :=
        arbChain_congr _ _ _ f2 f5
      have hcone : arbChain st body (n + 1) (some a)
          = a :: arbChain st body n (arbNext st body a) := by
        simp [arbChain]
      rw [hcone] at hn
      obtain ⟨hanot, hntail⟩ := List.nodup_cons.mp hn
      have hntail2 : (arbChain (activateArbStep st body a) body n
          (arbNext (activateArbStep st body a) body a)).Nodup := by
        rw [hchain, hnext]; exact hntail
      obtain ⟨g1, g2, g3, g4, g5, g6, ⟨pre1, hpre1, hpre1e⟩, g8⟩ := ih _ _ _ h hntail2
      have hprim : ∀ j, arbPrimary (activateArbStep st body a) body j
          = arbPrimary st body j :=
        arbPrimary_congr _ _ _ f2 f1 (fun j => (f5 j).1)
      refine ⟨g1.trans f1, g2.trans f2, g3.trans f3, g4.trans f4, ?_, ?_, ?_, ?_⟩
      · intro j
        obtain ⟨ga, gb, gna, gnb⟩ := g5 j
        obtain ⟨fa, fb, fna, fnb⟩ := f5 j
        exact ⟨ga.trans fa, gb.trans fb, gna.trans fna, gnb.trans fnb⟩
      · intro j hj
        rw [hcone] at hj
        simp only [List.mem_cons, not_or] at hj
        obtain ⟨hja, hjt⟩ := hj
        have := g6 j (by rw [hchain, hnext]; exact hjt)
        rw [this]
        exact f6 j hja
      · refine ⟨pre1 ++ pre0, by rw [hpre1, hpre0, List.append_assoc], ?_⟩
        intro e he
        rcases List.mem_append.mp he with he | he
        · obtain ⟨j, hj, hje⟩ := hpre1e e he
          rw [hchain, hnext] at hj
          obtain ⟨fa, fb, _, _⟩ := f5 j
          refine ⟨j, by rw [hcone]; exact List.mem_cons_of_mem a hj, ?_⟩
          rw [hje, fa, fb]
        · rcases hpre0e with hp | hp
          · rw [hp] at he; simp at he
          · rw [hp] at he
            rcases List.mem_singleton.mp he with he
            exact ⟨a, by rw [hcone]; exact List.mem_cons_self a _, he⟩
      · intro j hj hp
        rw [hcone] at hj
        rcases List.mem_cons.mp hj with hja | hjt
        · subst hja
          obtain ⟨p1, p2⟩ := activateArbStep_primary st body j hp
          have hpres : st'.arbOf j = (activateArbStep st body j).arbOf j :=
            g6 j (by rw [hchain, hnext]; exact hanot)
          refine ⟨by rw [hpres, p1], ?_⟩
          intro hno hoth
          have hins := p2 hno
          have : (pairKey (st.arbOf j).a (st.arbOf j).b, j)
              ∈ (activateArbStep st body j).contactSet := by
            rw [hins]; exact List.mem_cons_self _ _
          rw [hpre1]
          exact List.mem_append_right _ this
        · have hja : j ≠ a := fun hcontra => hanot (hcontra ▸ hjt)
          have hfp : (activateArbStep st body a).arbOf j = st.arbOf j := f6 j hja
          have hmem2 : j ∈ arbChain (activateArbStep st body a) body n
              (arbNext (activateArbStep st body a) body a) := by
            rw [hchain, hnext]; exact hjt
          obtain ⟨q1, q2⟩ := g8 j hmem2 (by rw [hprim j]; exact hp)
          refine ⟨by rw [q1, hfp], ?_⟩
          intro hno hoth
          have hkey : pairKey (((activateArbStep st body a).arbOf j).a)
              (((activateArbStep st body a).arbOf j).b)
              = pairKey ((st.arbOf j).a) ((st.arbOf j).b) := by rw [hfp]
          have hnoA : ∀ e ∈ (activateArbStep st body a).contactSet,
              e.1 ≠ pairKey (((activateArbStep st body a).arbOf j).a)
                (((activateArbStep st body a).arbOf j).b) := by
            intro e he
            rw [hkey]
            rw [hpre0] at he
            rcases List.mem_append.mp he with he | he
            · rcases hpre0e with hc | hc
              · rw [hc] at he; simp at he
              · rw [hc] at he
                rcases List.mem_singleton.mp he with he
                rw [he]
                exact hoth a (by rw [hcone]; exact List.mem_cons_self a _) (Ne.symm hja)
            · exact hno e he
          have hothA : ∀ k ∈ arbChain (activateArbStep st body a) body n
              (arbNext (activateArbStep st body a) body a), k ≠ j →
              pairKey (((activateArbStep st body a).arbOf k).a)
                (((activateArbStep st body a).arbOf k).b)
              ≠ pairKey (((activateArbStep st body a).arbOf j).a)
                (((activateArbStep st body a).arbOf j).b) := by
            intro k hk hkj
            obtain ⟨fka, fkb, _, _⟩ := f5 k
            rw [hkey, fka, fkb]
            rw [hchain, hnext] at hk
            exact hoth k (by rw [hcone]; exact List.mem_cons_of_mem a hk) hkj
          have hfin := q2 hnoA hothA
          rw [hkey] at hfin
          exact hfin

theorem activateConsLoop_frame (body : BodyId) :
    ∀ (fuel : Nat) (st : St) (link : Option ConsId) (st' : St),
      activateConsLoop body fuel st link = some st' →
      st'.bodyOf = st.bodyOf ∧ st'.arbOf = st.arbOf ∧ st'.shapeBody = st.shapeBody ∧
      st'.contactSet = st.contactSet ∧ st'.locked = st.locked ∧ st'.bodies = st.bodies := by
  intro fuel
  induction fuel with
  | zero =>
    intro st link st' h
    cases link with
    | none => simp only [activateConsLoop] at h; cases h; exact ⟨rfl, rfl, rfl, rfl, rfl, rfl⟩
    | some a => simp [activateConsLoop] at h
  | succ n ih =>
    intro st link st' h
    cases link with
    | none => simp only [activateConsLoop] at h; cases h; exact ⟨rfl, rfl, rfl, rfl, rfl, rfl⟩
    | some a =>
      simp only [activateConsLoop] at h
      split at h
      · have hres := ih _ _ _ h; exact hres
      · have hres := ih _ _ _ h; exact hres

theorem shapeActivateFold_frame (shapes : List ShapeId) (s : St) :
    ((shapes.foldl (fun s sh =>
      { s with staticShapes := s.staticShapes.erase sh,
               activeShapes := sh :: s.activeShapes }) s).bodyOf = s.bodyOf) ∧
    ((shapes.foldl (fun s sh =>
      { s with staticShapes := s.staticShapes.erase sh,
               activeShapes := sh :: s.activeShapes }) s).arbOf = s.arbOf) ∧
    ((shapes.foldl (fun s sh =>
      { s with staticShapes := s.staticShapes.erase sh,
               activeShapes := sh :: s.activeShapes }) s).shapeBody = s.shapeBody) ∧
    ((shapes.foldl (fun s sh =>
      { s with staticShapes := s.staticShapes.erase sh,
               activeShapes := sh :: s.activeShapes }) s).contactSet = s.contactSet) ∧
    ((shapes.foldl (fun s sh =>
      { s with staticShapes := s.staticShapes.erase sh,
               activeShapes := sh :: s.activeShapes }) s).locked = s.locked) := by
  induction shapes generalizing s with
  | nil => exact ⟨rfl, rfl, rfl, rfl, rfl⟩
  | cons x xs ih => simpa using ih _

theorem cpSpaceDeactivateBody_spec (fuel : Nat) (st : St) (body : BodyId) (st1 : St)
    (h : cpSpaceDeactivateBody fuel st body = some st1)
    (hnodup : (arbChain st body fuel ((st.bodyOf body).arbiterList)).Nodup) :
    st1.bodyOf = st.bodyOf ∧
    st1.shapeBody = st.shapeBody ∧
    st1.locked = st.locked ∧
    (∀ j, (st1.arbOf j).a = (st.arbOf j).a ∧ (st1.arbOf j).b = (st.arbOf j).b ∧
          (st1.arbOf j).nextA = (st.arbOf j).nextA ∧ (st1.arbOf j).nextB = (st.arbOf j).nextB) ∧
    (∀ j, j ∉ arbChain st body fuel ((st.bodyOf body).arbiterList) → st1.arbOf j = st.arbOf j) ∧
    st1.contactSet.Sublist st.contactSet ∧
    (∀ j ∈ arbChain st body fuel ((st.bodyOf body).arbiterList), arbPrimary st body j = true →
      (st1.arbOf j).contacts = .heap ((st.arbOf j).contacts.data) ∧
      ((st.contactSet.map Prod.fst).Nodup →
        ∀ e ∈ st1.contactSet, e.1 ≠ pairKey (st.arbOf j).a (st.arbOf j).b)) := by
  unfold cpSpaceDeactivateBody at h
  simp only [Option.bind_eq_bind, Option.bind_eq_some] at h
  obtain ⟨stm, hm, hc⟩ := h
  obtain ⟨sf1, sf2, sf3, sf4, sf5, sf6⟩ :=
    shapeDeactivateFold_frame (st.bodyOf body).shapeList st
  rw [sf1] at hm
  have hchainSF : ∀ (m : Nat) (l : Option ArbId),
      arbChain ((st.bodyOf body).shapeList.foldl (fun s sh =>
        { s with activeShapes := s.activeShapes.erase sh,
                 staticShapes := sh :: s.staticShapes }) st) body m l
        = arbChain st body m l :=
    arbChain_congr _ _ _ sf3 (fun j => by rw [sf2]; exact ⟨rfl, rfl, rfl, rfl⟩)
  have hnodupSF : (arbChain ((st.bodyOf body).shapeList.foldl (fun s sh =>
      { s with activeShapes := s.activeShapes.erase sh,
               staticShapes := sh :: s.staticShapes }) st) body fuel
      ((st.bodyOf body).arbiterList)).Nodup := by
    rw [hchainSF]; exact hnodup
  obtain ⟨d1, d2, d3, d4, d5, d6, d7, d8⟩ := deactivateArbLoop_spec body fuel _ _ stm hm hnodupSF
  rw [hchainSF] at d6 d8
  rw [sf2] at d5 d6 d8
  rw [sf4] at d7 d8
  have hprimSF : ∀ j, arbPrimary ((st.bodyOf body).shapeList.foldl (fun s sh =>
      { s with activeShapes := s.activeShapes.erase sh,
               staticShapes := sh :: s.staticShapes }) st) body j = arbPrimary st body j :=
    arbPrimary_congr _ _ _ sf3 sf1 (fun j => by rw [sf2])
  have hlism : stm.bodyOf = st.bodyOf := d1.trans sf1
  rw [hlism] at hc
  obtain ⟨c1, c2, c3, c4, c5, c6⟩ := deactivateConsLoop_frame body fuel _ _ st1 hc
  refine ⟨c1.trans hlism, c3.trans (d2.trans sf3), c5.trans (d3.trans sf5), ?_, ?_, ?_, ?_⟩
  · intro j
    rw [c2]
    exact d5 j
  · intro j hj
    rw [c2]
    exact d6 j hj
  · rw [c4]
    exact d7
  · intro j hj hp
    have := d8 j hj (by rw [hprimSF j]; exact hp)
    rw [c2, c4]
    exact this

theorem cpSpaceActivateBody_spec (fuel : Nat) (st : St) (body : BodyId) (st2 : St)
    (hlk : st.locked = false)
    (h : cpSpaceActivateBody fuel st body = some st2)
    (hnodup : (arbChain st body fuel ((st.bodyOf body).arbiterList)).Nodup) :
    (∀ j, (st2.arbOf j).a = (st.arbOf j).a ∧ (st2.arbOf j).b = (st.arbOf j).b ∧
          (st2.arbOf j).nextA = (st.arbOf j).nextA ∧ (st2.arbOf j).nextB = (st.arbOf j).nextB) ∧
    (∀ j, j ∉ arbChain st body fuel ((st.bodyOf body).arbiterList) → st2.arbOf j = st.arbOf j) ∧
    (∃ pre, st2.contactSet = pre ++ st.contactSet ∧
      ∀ e ∈ pre, ∃ j, j ∈ arbChain st body fuel ((st.bodyOf body).arbiterList) ∧
        e = (pairKey (st.arbOf j).a (st.arbOf j).b, j)) ∧
    (∀ j ∈ arbChain st body fuel ((st.bodyOf body).arbiterList), arbPrimary st body j = true →
      (st2.arbOf j).contacts = .buffer ((st.arbOf j).contacts.data) ∧
      ((∀ e ∈ st.contactSet, e.1 ≠ pairKey (st.arbOf j).a (st.arbOf j).b) →
       (∀ k ∈ arbChain st body fuel ((st.bodyOf body).arbiterList), k ≠ j →
          pairKey (st.arbOf k).a (st.arbOf k).b ≠ pairKey (st.arbOf j).a (st.arbOf j).b) →
       (pairKey (st.arbOf j).a (st.arbOf j).b, j) ∈ st2.contactSet)) := by
  unfold cpSpaceActivateBody at h
  rw [if_neg (by rw [hlk]; exact Bool.false_ne_true)] at h
  simp only [Option.bind_eq_bind, Option.bind_eq_some] at h
  obtain ⟨stm, hm, hc⟩ := h
  obtain ⟨sf1, sf2, sf3, sf4, sf5⟩ :=
    shapeActivateFold_frame (st.bodyOf body).shapeList { st with bodies := st.bodies ++ [body] }
  rw [sf1] at hm
  have hb1 : ({ st with bodies := st.bodies ++ [body] } : St).bodyOf = st.bodyOf := rfl
  rw [hb1] at hm
  have hchainSF : ∀ (m : Nat) (l : Option ArbId),
      arbChain ((st.bodyOf body).shapeList.foldl (fun s sh =>
        { s with staticShapes := s.staticShapes.erase sh,
                 activeShapes := sh :: s.activeShapes })
        { st with bodies := st.bodies ++ [body] }) body m l
        = arbChain st body m l :=
    arbChain_congr _ _ _ sf3 (fun j => by rw [sf2]; exact ⟨rfl, rfl, rfl, rfl⟩)
  have hnodupSF : (arbChain ((st.bodyOf body).shapeList.foldl (fun s sh =>
      { s with staticShapes := s.staticShapes.erase sh,
               activeShapes := sh :: s.activeShapes })
      { st with bodies := st.bodies ++ [body] }) body fuel
      ((st.bodyOf body).arbiterList)).Nodup := by
    rw [hchainSF]; exact hnodup
  obtain ⟨a1, a2, a3, a4, a5, a6, ⟨pre, hpre, hpree⟩, a8⟩ :=
    activateArbLoop_spec body fuel _ _ stm hm hnodupSF
  rw [hchainSF] at a6 a8
  rw [sf2] at a5 a6 a8
  rw [sf4] at hpre a8
  rw [hchainSF] at hpree
  rw [sf2] at hpree
  have hprimSF : ∀ j, arbPrimary ((st.bodyOf body).shapeList.foldl (fun s sh =>
      { s with staticShapes := s.staticShapes.erase sh,
               activeShapes := sh :: s.activeShapes })
      { st with bodies := st.bodies ++ [body] }) body j = arbPrimary st body j :=
    arbPrimary_congr _ _ _ sf3 (sf1.trans hb1) (fun j => by rw [sf2])
  have hlism : stm.bodyOf = st.bodyOf := a1.trans (sf1.trans hb1)
  rw [hlism] at hc
  obtain ⟨c1, c2, c3, c4, c5, c6⟩ := activateConsLoop_frame body fuel _ _ st2 hc
  refine ⟨?_, ?_, ?_, ?_⟩
  · intro j
    rw [c2]
    exact a5 j
  · intro j hj
    rw [c2]
    exact a6 j hj
  · refine ⟨pre, by rw [c4]; exact hpre, hpree⟩
  · intro j hj hp
    have := a8 j hj (by rw [hprimSF j]; exact hp)
    rw [c2, c4]
    exact this

/-! ## Claim C3 — the sleep/wake round trip of an arbiter's contacts -/

/-- C3: for an arbiter on `body`'s traversal chain that passes the
primary-side test, deactivating `body` and then activating it again (with
the space unlocked) saves the contact array into a private heap block,
restores exactly the same contact data into the space's per-step contact
buffer (the `heap` block being replaced — released — by `buffer`
custody), and re-binds the arbiter in `contactSet` under the unordered
shape-pair key (`pairKey` is symmetric, last conjunct).  The hypotheses
ask the traversal chain to visit distinct arbiters with distinct pair
keys and `contactSet` to bind each key at most once, which is how the
space container keeps them. -/
theorem arbiter_sleep_wake_roundtrip
    (fuel : Nat) (st : St) (body : BodyId) (st1 st2 : St) (arbId : ArbId)
    (hlk : st.locked = false)
    (hdeact : cpSpaceDeactivateBody fuel st body = some st1)
    (hact : cpSpaceActivateBody fuel st1 body = some st2)
    (hmem : arbId ∈ arbChain st body fuel ((st.bodyOf body).arbiterList))
    (hnodup : (arbChain st body fuel ((st.bodyOf body).arbiterList)).Nodup)
    (hprim : arbPrimary st body arbId = true)
    (hkeys : (st.contactSet.map Prod.fst).Nodup)
    (hothers : ∀ k ∈ arbChain st body fuel ((st.bodyOf body).arbiterList), k ≠ arbId →
      pairKey (st.arbOf k).a (st.arbOf k).b ≠ pairKey (st.arbOf arbId).a (st.arbOf arbId).b) :
    (st1.arbOf arbId).contacts = .heap ((st.arbOf arbId).contacts.data) ∧
    (st2.arbOf arbId).contacts = .buffer ((st.arbOf arbId).contacts.data) ∧
    (pairKey (st.arbOf arbId).a (st.arbOf arbId).b, arbId) ∈ st2.contactSet ∧
    pairKey (st.arbOf arbId).a (st.arbOf arbId).b
      = pairKey (st.arbOf arbId).b (st.arbOf arbId).a := by
  obtain ⟨d1, d2, d3, d4, d5, d6, d7⟩ :=
    cpSpaceDeactivateBody_spec fuel st body st1 hdeact hnodup
  obtain ⟨dc, dkeys⟩ := d7 arbId hmem hprim
  have hchain1 : ∀ (m : Nat) (l : Option ArbId),
      arbChain st1 body m l = arbChain st body m l :=
    arbChain_congr _ _ _ d2 d4
  have hlink1 : (st1.bodyOf body).arbiterList = (st.bodyOf body).arbiterList := by rw [d1]
  have hprim1 : arbPrimary st1 body arbId = arbPrimary st body arbId :=
    arbPrimary_congr _ _ _ d2 d1 (fun j => (d4 j).1) arbId
  have hlk1 : st1.locked = false := d3.trans hlk
  have hnodup1 : (arbChain st1 body fuel ((st1.bodyOf body).arbiterList)).Nodup := by
    rw [hlink1, hchain1]; exact hnodup
  obtain ⟨a1, a2, a3, a4⟩ := cpSpaceActivateBody_spec fuel st1 body st2 hlk1 hact hnodup1
  have hmem1 : arbId ∈ arbChain st1 body fuel ((st1.bodyOf body).arbiterList) := by
    rw [hlink1, hchain1]; exact hmem
  obtain ⟨ac, ains⟩ := a4 arbId hmem1 (by rw [hprim1]; exact hprim)
  obtain ⟨da, db, _, _⟩ := d4 arbId
  have hkey1 : pairKey ((st1.arbOf arbId).a) ((st1.arbOf arbId).b)
      = pairKey ((st.arbOf arbId).a) ((st.arbOf arbId).b) := by rw [da, db]
  refine ⟨dc, ?_, ?_, pairKey_comm _ _⟩
  · rw [ac, dc]
    rfl
  · have hno1 : ∀ e ∈ st1.contactSet,
        e.1 ≠ pairKey ((st1.arbOf arbId).a) ((st1.arbOf arbId).b) := by
      intro e he
      rw [hkey1]
      exact dkeys hkeys e he
    have hoth1 : ∀ k ∈ arbChain st1 body fuel ((st1.bodyOf body).arbiterList), k ≠ arbId →
        pairKey ((st1.arbOf k).a) ((st1.arbOf k).b)
          ≠ pairKey ((st1.arbOf arbId).a) ((st1.arbOf arbId).b) := by
      intro k hk hkj
      obtain ⟨dka, dkb, _, _⟩ := d4 k
      rw [hkey1, dka, dkb]
      rw [hlink1, hchain1] at hk
      exact hothers k hk hkj
    have := ains hno1 hoth1
    rw [hkey1] at this
    exact this

/-- Witness for C3 on `stOneContact`: arbiter 0's single contact
`(1, 2, 3, 4)` survives the deactivate/activate round trip of body 0. -/
theorem arbiter_sleep_wake_roundtrip_witness :
    ((cpSpaceDeactivateBody 6 stOneContact 0).elim False (fun st1 =>
      (cpSpaceActivateBody 6 st1 0).elim False (fun st2 =>
        (st1.arbOf 0).contacts = .heap ((stOneContact.arbOf 0).contacts.data) ∧
        (st2.arbOf 0).contacts = .buffer ((stOneContact.arbOf 0).contacts.data) ∧
        (pairKey (stOneContact.arbOf 0).a (stOneContact.arbOf 0).b, 0) ∈ st2.contactSet))) := by
  have hs1 : (cpSpaceDeactivateBody 6 stOneContact 0).isSome = true := by decide
  have hs12 : ((cpSpaceDeactivateBody 6 stOneContact 0).bind
      (fun s => cpSpaceActivateBody 6 s 0)).isSome = true := by decide
  match hd : cpSpaceDeactivateBody 6 stOneContact 0 with
  | none => rw [hd] at hs1; cases hs1
  | some st1 =>
    simp only [Option.elim]
    rw [hd] at hs12
    have hs2 : (cpSpaceActivateBody 6 st1 0).isSome = true := hs12
    match ha : cpSpaceActivateBody 6 st1 0 with
    | none => rw [ha] at hs2; cases hs2
    | some st2 =>
      simp only [Option.elim]
      have hchain : arbChain stOneContact 0 6 ((stOneContact.bodyOf 0).arbiterList)
          = [0] := by decide
      have hr := arbiter_sleep_wake_roundtrip 6 stOneContact 0 st1 st2 0 rfl hd ha
        (by rw [hchain]; exact List.mem_singleton.mpr rfl)
        (by rw [hchain]; exact List.nodup_singleton 0)
        (by decide) (by decide)
        (by intro k hk hkj; rw [hchain] at hk; exact absurd (List.mem_singleton.mp hk) hkj)
      exact ⟨hr.1, hr.2.1, hr.2.2.1⟩

/-! ## Claim C1 — the pushed link is not the side-selected one -/

/-- C1 (code bug): after `cpSpaceProcessComponents`'s four pushes for
arbiters 0 and 1 in `stTwoArbs`, body 1 — the `b` side of both — holds
`arbiterList = some 1`, but the source wrote `nextA` on both pushes
(`arb->nextA = body->arbiterList` unconditionally at line 218), so the
side-selected traversal `arb.a.body == body ? nextA : nextB` from body 1
reads the never-written `nextB` and enumerates only `[1]`, losing
arbiter 0; from body 2 (the `a` side of arbiter 1 alone) it follows the
clobbered `nextA = some 0` and enumerates `[1, 0]`, a phantom arbiter.
The traversal therefore does not enumerate exactly the pushed arbiters,
contradicting the claim. -/
theorem cpBodyPushArbiter_wrong_link :
    (stTwoArbsPushed.bodyOf 1).arbiterList = some 1 ∧
    (stTwoArbsPushed.arbOf 1).nextA = some 0 ∧
    (stTwoArbsPushed.arbOf 1).nextB = none ∧
    arbChain stTwoArbsPushed 1 10 ((stTwoArbsPushed.bodyOf 1).arbiterList) = [1] ∧
    arbChain stTwoArbsPushed 2 10 ((stTwoArbsPushed.bodyOf 2).arbiterList) = [1, 0] := by
  decide

/-! ## Claim C2 — counterexample: deactivation does not reset idleTime -/

/-- C2 counterexample: `stLoneIdle`'s body 0 is still (kinetic energy 0
below the threshold), so one `cpSpaceProcessComponents` step accumulates
`idleTime = 5 + 1 = 6 ≥ sleepTimeThreshold = 4` and the singleton
component is deactivated — body 0 ends sleeping (in a self-ring, its
root parked in `sleepingComponents`, gone from `space.bodies`) with
`node.idleTime = 6 ≠ 0`, refuting "every sleeping body has
`node.idleTime == 0`". -/
theorem processComponents_sleeps_with_nonzero_idleTime :
    (cpSpaceProcessComponents 10 stLoneIdle 1).map
      (fun s => ((s.bodyOf 0).node.idleTime, cpBodyIsSleeping (s.bodyOf 0),
                 s.sleepingComponents, s.bodies)) = some (6, true, [0], []) := by
  decide

/-! ## Claim C6 — counterexample: at zero threshold a rogue component sleeps -/

/-- C6 counterexample: in `stRogueTouch` the rogue body 1 touches body 0,
`sleepTimeThreshold = 0`, and `componentActive` finds no member with
`idleTime < 0`, so the component containing the rogue is deactivated:
root 0 is appended to `sleepingComponents` and rogue body 1 ends inside
the sleeping ring (`node.next = some 0`), refuting "a component whose
ring contains a rogue body is never deactivated" for this run. -/
theorem rogue_component_deactivated_at_zero_threshold :
    (cpSpaceProcessComponents 10 stRogueTouch 1).map
      (fun s => (s.sleepingComponents, cpBodyIsRogue (s.bodyOf 1),
                 cpBodyIsSleeping (s.bodyOf 1), (s.bodyOf 1).node.next, s.bodies))
      = some ([0], true, true, some 0, []) := by
  decide

/-! ## Claim C8 — counterexample: activate on an awake chain compresses it -/

/-- C8 counterexample: in `stChain`, body 0's parent chain is 0 → 1 → 2
and root 2 is not sleeping, yet `cpBodyActivate` is not a no-op: the
`componentNodeRoot` call rewrites body 0's parent from `some 1` to
`some 2` (path compression) before `componentActivate` returns early. -/
theorem cpBodyActivate_awake_root_compresses :
    (stChain.bodyOf 0).node.parent = some 1 ∧
    cpBodyIsSleeping (stChain.bodyOf 2) = false ∧
    (cpBodyActivate 10 stChain 0).map (fun s => (s.bodyOf 0).node.parent)
      = some (some 2) := by
  decide

/-- C8 (amended): `cpBodyActivate` on a body whose DSF root is not
sleeping performs only path compression — every body on the parent chain
gets its parent rewritten to the root, every other body and every
non-body-store field of the space is unchanged — and it is a complete
no-op when the body has no parent.  `cpBodySleepWithGroup` with no group
on an already-sleeping body that is neither static nor rogue, in an
unlocked space, returns the state unchanged. -/
theorem activate_awake_sleep_sleeping_idempotent
    (fuel : Nat) (st : St) (body : BodyId) (st1 : St) (root : BodyId)
    (hroot : componentNodeRoot fuel st body = some (st1, root))
    (hns : cpBodyIsSleeping (st.bodyOf root) = false)
    (st2 : St) (b2 : BodyId)
    (hstc : cpBodyIsStatic (st2.bodyOf b2) = false)
    (hrg : cpBodyIsRogue (st2.bodyOf b2) = false)
    (hlk : st2.locked = false)
    (hsl : cpBodyIsSleeping (st2.bodyOf b2) = true) :
    (cpBodyActivate fuel st body = some st1 ∧
      (∀ x ∈ parentChain fuel st body,
        st1.bodyOf x =
          { st.bodyOf x with node := { (st.bodyOf x).node with parent := some root } }) ∧
      (∀ x, x ∉ parentChain fuel st body → st1.bodyOf x = st.bodyOf x) ∧
      st1 = { st with bodyOf := st1.bodyOf } ∧
      ((st.bodyOf body).node.parent = none → st1 = st)) ∧
    cpBodySleepWithGroup fuel st2 b2 none = some st2 := by
  obtain ⟨h1, h2, h3, h4, h5⟩ := componentNodeRoot_spec fuel st body st1 root hroot
  have hrnc : root ∉ parentChain fuel st body :=
    fun hc => parentChain_parent st fuel body root hc h2
  have hpres : st1.bodyOf root = st.bodyOf root := h4 root hrnc
  have hns1 : cpBodyIsSleeping (st1.bodyOf root) = false := by rw [hpres]; exact hns
  constructor
  · refine ⟨?_, h3, h4, h5, ?_⟩
    · simp [cpBodyActivate, hroot, componentActivate, hns1]
    · intro hpn
      cases fuel with
      | zero => simp [componentNodeRoot] at hroot
      | succ n =>
        simp only [componentNodeRoot, hpn, Option.some.injEq, Prod.mk.injEq] at hroot
        exact hroot.1.symm
  · simp [cpBodySleepWithGroup, hstc, hrg, hlk, hsl]

/-- Witness for the amended C8: activating the rootless awake body 3 of
`stChain` and re-sleeping the sleeping body 4 of `stSleeper` both leave
the state unchanged. -/
theorem activate_awake_sleep_sleeping_idempotent_witness :
    cpBodyActivate 10 stChain 3 = some stChain ∧
    cpBodySleepWithGroup 10 stSleeper 4 none = some stSleeper :=
  ⟨(activate_awake_sleep_sleeping_idempotent 10 stChain 3 stChain 3 rfl rfl
      stSleeper 4 rfl rfl rfl rfl).1.1,
   (activate_awake_sleep_sleeping_idempotent 10 stChain 3 stChain 3 rfl rfl
      stSleeper 4 rfl rfl rfl rfl).2⟩

/-! ## Frame plumbing for the `cpSpaceProcessComponents` pipeline -/

theorem frameB_trans {st st1 st2 : St}
    (h1 : st1 = { st with bodyOf := st1.bodyOf })
    (h2 : st2 = { st1 with bodyOf := st2.bodyOf }) :
    st2 = { st with bodyOf := st2.bodyOf } := by
  rw [h2, h1]

theorem frameB_to_AB {st st1 : St}
    (h : st1 = { st with bodyOf := st1.bodyOf }) :
    st1 = { st with bodyOf := st1.bodyOf, arbOf := st1.arbOf } := by
  rw [h]

theorem frameAB_trans {st st1 st2 : St}
    (h1 : st1 = { st with bodyOf := st1.bodyOf, arbOf := st1.arbOf })
    (h2 : st2 = { st1 with bodyOf := st2.bodyOf, arbOf := st2.arbOf }) :
    st2 = { st with bodyOf := st2.bodyOf, arbOf := st2.arbOf } := by
  rw [h2, h1]

/-- `updateIdle` only rewrites the body's `idleTime` and `arbiterList`. -/
theorem updateIdle_frame (dt dvsq : ℤ) (st : St) (b : BodyId) :
    (∀ x, ((updateIdle dt dvsq st b).bodyOf x).node.next = (st.bodyOf x).node.next ∧
          ((updateIdle dt dvsq st b).bodyOf x).node.parent = (st.bodyOf x).node.parent ∧
          ((updateIdle dt dvsq st b).bodyOf x).rogueFlag = (st.bodyOf x).rogueFlag ∧
          ((updateIdle dt dvsq st b).bodyOf x).staticFlag = (st.bodyOf x).staticFlag) ∧
    updateIdle dt dvsq st b = { st with bodyOf := (updateIdle dt dvsq st b).bodyOf } := by
  constructor
  · intro x
    unfold updateIdle updBody
    dsimp only
    by_cases hx : x = b <;> simp [hx]
  · rfl

/-- Phase 2 (the `updateIdle` fold over the entry bodies) keeps every
`next`, `parent`, rogue and static flag, and every non-body field. -/
theorem foldl_updateIdle_frame (dt dvsq : ℤ) :
    ∀ (l : List BodyId) (st : St),
      (∀ x, ((l.foldl (updateIdle dt dvsq) st).bodyOf x).node.next
              = (st.bodyOf x).node.next ∧
            ((l.foldl (updateIdle dt dvsq) st).bodyOf x).node.parent
              = (st.bodyOf x).node.parent ∧
            ((l.foldl (updateIdle dt dvsq) st).bodyOf x).rogueFlag
              = (st.bodyOf x).rogueFlag ∧
            ((l.foldl (updateIdle dt dvsq) st).bodyOf x).staticFlag
              = (st.bodyOf x).staticFlag) ∧
      l.foldl (updateIdle dt dvsq) st
        = { st with bodyOf := (l.foldl (updateIdle dt dvsq) st).bodyOf } := by
  intro l
  induction l with
  | nil => intro st; exact ⟨fun x => ⟨rfl, rfl, rfl, rfl⟩, rfl⟩
  | cons b rest ih =>
    intro st
    obtain ⟨hstep, hstepB⟩ := updateIdle_frame dt dvsq st b
    obtain ⟨hrest, hrestB⟩ := ih (updateIdle dt dvsq st b)
    refine ⟨?_, frameB_trans hstepB hrestB⟩
    intro x
    obtain ⟨ha1, ha2, ha3, ha4⟩ := hstep x
    obtain ⟨hb1, hb2, hb3, hb4⟩ := hrest x
    exact ⟨hb1.trans ha1, hb2.trans ha2, hb3.trans ha3, hb4.trans ha4⟩

/-- `componentNodeMerge` only rewrites parents and ranks. -/
theorem componentNodeMerge_frame (st : St) (aR bR : BodyId) :
    (∀ x, ((componentNodeMerge st aR bR).bodyOf x).node.next = (st.bodyOf x).node.next ∧
          ((componentNodeMerge st aR bR).bodyOf x).node.idleTime
            = (st.bodyOf x).node.idleTime ∧
          ((componentNodeMerge st aR bR).bodyOf x).rogueFlag = (st.bodyOf x).rogueFlag ∧
          ((componentNodeMerge st aR bR).bodyOf x).staticFlag = (st.bodyOf x).staticFlag) ∧
    componentNodeMerge st aR bR
      = { st with bodyOf := (componentNodeMerge st aR bR).bodyOf } := by
  unfold componentNodeMerge
  split
  · refine ⟨?_, rfl⟩
    intro x
    by_cases hx : x = aR <;> simp [updBody, hx]
  · split
    · refine ⟨?_, rfl⟩
      intro x
      by_cases hx : x = bR <;> simp [updBody, hx]
    · split
      · refine ⟨?_, rfl⟩
        intro x
        rename_i hne
        by_cases hx : x = aR
        · by_cases hx2 : x = bR <;> simp [updBody, hx, hx2, hne, Ne.symm hne]
        · by_cases hx2 : x = bR <;> simp [updBody, hx, hx2, hne, Ne.symm hne]
      · exact ⟨fun x => ⟨rfl, rfl, rfl, rfl⟩, rfl⟩

/-- `cpBodyPushArbiter` only rewrites the body's `arbiterList` and the
arbiter store. -/
theorem cpBodyPushArbiter_frame (st : St) (body : BodyId) (arbId : ArbId) :
    (∀ x, ((cpBodyPushArbiter st body arbId).bodyOf x).node = (st.bodyOf x).node ∧
          ((cpBodyPushArbiter st body arbId).bodyOf x).rogueFlag
            = (st.bodyOf x).rogueFlag ∧
          ((cpBodyPushArbiter st body arbId).bodyOf x).staticFlag
            = (st.bodyOf x).staticFlag) ∧
    cpBodyPushArbiter st body arbId
      = { st with bodyOf := (cpBodyPushArbiter st body arbId).bodyOf,
                  arbOf := (cpBodyPushArbiter st body arbId).arbOf } := by
  unfold cpBodyPushArbiter
  split
  · refine ⟨?_, rfl⟩
    intro x
    by_cases hx : x = body <;> simp [updBody, updArb, hx]
  · exact ⟨fun x => ⟨rfl, rfl, rfl⟩, rfl⟩

theorem updIdleZero_facts (st : St) (c : BodyId) :
    (∀ x, ((updBody st c
            (fun bo => { bo with node := { bo.node with idleTime := 0 } })).bodyOf x).node.next
            = (st.bodyOf x).node.next ∧
          ((updBody st c
            (fun bo => { bo with node := { bo.node with idleTime := 0 } })).bodyOf x).rogueFlag
            = (st.bodyOf x).rogueFlag ∧
          ((updBody st c
            (fun bo => { bo with node := { bo.node with idleTime := 0 } })).bodyOf x).staticFlag
            = (st.bodyOf x).staticFlag ∧
          (((updBody st c
              (fun bo => { bo with node := { bo.node with idleTime := 0 } })).bodyOf x).node.idleTime
              = (st.bodyOf x).node.idleTime ∨
           ((updBody st c
              (fun bo => { bo with node := { bo.node with idleTime := 0 } })).bodyOf x).node.idleTime
              = 0)) ∧
    updBody st c (fun bo => { bo with node := { bo.node with idleTime := 0 } })
      = { st with bodyOf := (updBody st c
            (fun bo => { bo with node := { bo.node with idleTime := 0 } })).bodyOf } := by
  constructor
  · intro x
    by_cases hx : x = c <;> simp [updBody, hx]
  · rfl

/-- A `mergeBodies` run in a space where no body is sleeping: no wake-up
fires, so every `next` stays absent, flags are untouched, idle times are
at most zeroed, only the body store changes, and the rogue scratch list
grows exactly by rogue endpoints. -/
theorem mergeBodies_run (fuel : Nat) (st : St) (rg : List BodyId) (a b : BodyId)
    (st1 : St) (rg1 : List BodyId)
    (hnone : ∀ x, (st.bodyOf x).node.next = none)
    (h : mergeBodies fuel st rg a b = some (st1, rg1)) :
    (∀ x, (st1.bodyOf x).node.next = none) ∧
    (∀ x, (st1.bodyOf x).rogueFlag = (st.bodyOf x).rogueFlag ∧
          (st1.bodyOf x).staticFlag = (st.bodyOf x).staticFlag) ∧
    (∀ x, (st1.bodyOf x).node.idleTime = (st.bodyOf x).node.idleTime ∨
          (st1.bodyOf x).node.idleTime = 0) ∧
    (∃ l, rg1 = rg ++ l ∧ ∀ g ∈ l, (st.bodyOf g).rogueFlag = true ∧ (g = a ∨ g = b)) ∧
    st1 = { st with bodyOf := st1.bodyOf } := by
  unfold mergeBodies at h
  split at h
  · simp only [Option.some.injEq, Prod.mk.injEq] at h
    obtain ⟨h1, h2⟩ := h
    subst h1; subst h2
    exact ⟨hnone, fun x => ⟨rfl, rfl⟩, fun x => Or.inl rfl,
      ⟨[], by simp, fun g hg => absurd hg (List.not_mem_nil g)⟩, rfl⟩
  · simp only [Option.bind_eq_bind, Option.bind_eq_some] at h
    obtain ⟨⟨stA, aRoot⟩, hfa, h⟩ := h
    obtain ⟨⟨stB, bRoot⟩, hfb, h⟩ := h
    dsimp only at hfb h
    have hFA := componentNodeRoot_body_frame fuel st a stA aRoot hfa
    have hFB := componentNodeRoot_body_frame fuel stA b stB bRoot hfb
    have hBA : stA = { st with bodyOf := stA.bodyOf } :=
      (componentNodeRoot_spec fuel st a stA aRoot hfa).2.2.2.2
    have hBB : stB = { stA with bodyOf := stB.bodyOf } :=
      (componentNodeRoot_spec fuel stA b stB bRoot hfb).2.2.2.2
    have hN2 : ∀ x, (stB.bodyOf x).node.next = none := fun x => by
      rw [(hFB x).1, (hFA x).1]; exact hnone x
    have hFlags2 : ∀ x, (stB.bodyOf x).rogueFlag = (st.bodyOf x).rogueFlag ∧
        (stB.bodyOf x).staticFlag = (st.bodyOf x).staticFlag := fun x =>
      ⟨((hFB x).2.2.2.1).trans ((hFA x).2.2.2.1),
       ((hFB x).2.2.2.2).trans ((hFA x).2.2.2.2)⟩
    have hIdle2 : ∀ x, (stB.bodyOf x).node.idleTime = (st.bodyOf x).node.idleTime :=
      fun x => ((hFB x).2.1).trans ((hFA x).2.1)
    have hB2 : stB = { st with bodyOf := stB.bodyOf } := frameB_trans hBA hBB
    have hsA : cpBodyIsSleeping (stB.bodyOf aRoot) = false := by
      unfold cpBodyIsSleeping; rw [hN2 aRoot]; rfl
    have hsB : cpBodyIsSleeping (stB.bodyOf bRoot) = false := by
      unfold cpBodyIsSleeping; rw [hN2 bRoot]; rfl
    rw [hsA, hsB] at h
    simp only [Bool.or_self, Bool.false_eq_true, if_false, Option.some_bind] at h
    have hcb : ∀ (z : St) (c : BodyId), cpBodyIsRogue ((updBody z c
        (fun bo => { bo with node := { bo.node with idleTime := 0 } })).bodyOf b)
        = cpBodyIsRogue (z.bodyOf b) := by
      intro z c
      unfold cpBodyIsRogue updBody
      dsimp only
      by_cases hx : b = c <;> simp [hx]
    by_cases hra : cpBodyIsRogue (stB.bodyOf a) = true
    · rw [if_pos hra] at h
      dsimp only at h
      rw [hcb stB b] at h
      by_cases hrb : cpBodyIsRogue (stB.bodyOf b) = true
      · rw [if_pos hrb] at h
        dsimp only at h
        simp only [Option.some.injEq, Prod.mk.injEq] at h
        obtain ⟨hst, hrg⟩ := h
        obtain ⟨hu1, hu1B⟩ := updIdleZero_facts stB b
        obtain ⟨hu2, hu2B⟩ := updIdleZero_facts (updBody stB b
          (fun bo => { bo with node := { bo.node with idleTime := 0 } })) a
        obtain ⟨hm, hmB⟩ := componentNodeMerge_frame (updBody (updBody stB b
          (fun bo => { bo with node := { bo.node with idleTime := 0 } })) a
          (fun bo => { bo with node := { bo.node with idleTime := 0 } })) aRoot bRoot
        rw [hst] at hm hmB
        refine ⟨?_, ?_, ?_, ⟨[a] ++ [b], by rw [← hrg, List.append_assoc], ?_⟩, ?_⟩
        · intro x
          rw [(hm x).1, (hu2 x).1, (hu1 x).1]
          exact hN2 x
        · intro x
          constructor
          · rw [(hm x).2.2.1, (hu2 x).2.1, (hu1 x).2.1]
            exact (hFlags2 x).1
          · rw [(hm x).2.2.2, (hu2 x).2.2.1, (hu1 x).2.2.1]
            exact (hFlags2 x).2
        · intro x
          rw [(hm x).2.1]
          rcases (hu2 x).2.2.2 with h2 | h2
          · rw [h2]
            rcases (hu1 x).2.2.2 with h1 | h1
            · rw [h1, hIdle2 x]; exact Or.inl rfl
            · rw [h1]; exact Or.inr rfl
          · rw [h2]; exact Or.inr rfl
        · intro g hg
          rcases List.mem_append.mp hg with hg | hg <;>
            rw [List.mem_singleton.mp hg]
          · exact ⟨by rw [← (hFlags2 a).1]; exact hra, Or.inl rfl⟩
          · exact ⟨by rw [← (hFlags2 b).1]; exact hrb, Or.inr rfl⟩
        · exact frameB_trans (frameB_trans (frameB_trans hB2 hu1B) hu2B) hmB
      · rw [if_neg hrb] at h
        dsimp only at h
        simp only [Option.some.injEq, Prod.mk.injEq] at h
        obtain ⟨hst, hrg⟩ := h
        obtain ⟨hu1, hu1B⟩ := updIdleZero_facts stB b
        obtain ⟨hm, hmB⟩ := componentNodeMerge_frame (updBody stB b
          (fun bo => { bo with node := { bo.node with idleTime := 0 } })) aRoot bRoot
        rw [hst] at hm hmB
        refine ⟨?_, ?_, ?_, ⟨[a], hrg.symm, ?_⟩, ?_⟩
        · intro x
          rw [(hm x).1, (hu1 x).1]
          exact hN2 x
        · intro x
          exact ⟨by rw [(hm x).2.2.1, (hu1 x).2.1]; exact (hFlags2 x).1,
                 by rw [(hm x).2.2.2, (hu1 x).2.2.1]; exact (hFlags2 x).2⟩
        · intro x
          rw [(hm x).2.1]
          rcases (hu1 x).2.2.2 with h1 | h1
          · rw [h1, hIdle2 x]; exact Or.inl rfl
          · rw [h1]; exact Or.inr rfl
        · intro g hg
          rw [List.mem_singleton.mp hg]
          exact ⟨by rw [← (hFlags2 a).1]; exact hra, Or.inl rfl⟩
        · exact frameB_trans (frameB_trans hB2 hu1B) hmB
    · rw [if_neg hra] at h
      dsimp only at h
      by_cases hrb : cpBodyIsRogue (stB.bodyOf b) = true
      · rw [if_pos hrb] at h
        dsimp only at h
        simp only [Option.some.injEq, Prod.mk.injEq] at h
        obtain ⟨hst, hrg⟩ := h
        obtain ⟨hu1, hu1B⟩ := updIdleZero_facts stB a
        obtain ⟨hm, hmB⟩ := componentNodeMerge_frame (updBody stB a
          (fun bo => { bo with node := { bo.node with idleTime := 0 } })) aRoot bRoot
        rw [hst] at hm hmB
        refine ⟨?_, ?_, ?_, ⟨[b], hrg.symm, ?_⟩, ?_⟩
        · intro x
          rw [(hm x).1, (hu1 x).1]
          exact hN2 x
        · intro x
          exact ⟨by rw [(hm x).2.2.1, (hu1 x).2.1]; exact (hFlags2 x).1,
                 by rw [(hm x).2.2.2, (hu1 x).2.2.1]; exact (hFlags2 x).2⟩
        · intro x
          rw [(hm x).2.1]
          rcases (hu1 x).2.2.2 with h1 | h1
          · rw [h1, hIdle2 x]; exact Or.inl rfl
          · rw [h1]; exact Or.inr rfl
        · intro g hg
          rw [List.mem_singleton.mp hg]
          exact ⟨by rw [← (hFlags2 b).1]; exact hrb, Or.inr rfl⟩
        · exact frameB_trans (frameB_trans hB2 hu1B) hmB
      · rw [if_neg hrb] at h
        dsimp only at h
        simp only [Option.some.injEq, Prod.mk.injEq] at h
        obtain ⟨hst, hrg⟩ := h
        obtain ⟨hm, hmB⟩ := componentNodeMerge_frame stB aRoot bRoot
        rw [hst] at hm hmB
        refine ⟨?_, ?_, ?_, ⟨[], by rw [← hrg, List.append_nil], ?_⟩, ?_⟩
        · intro x
          rw [(hm x).1]
          exact hN2 x
        · intro x
          exact ⟨by rw [(hm x).2.2.1]; exact (hFlags2 x).1,
                 by rw [(hm x).2.2.2]; exact (hFlags2 x).2⟩
        · intro x
          rw [(hm x).2.1]
          rw [hIdle2 x]; exact Or.inl rfl
        · intro g hg
          exact absurd hg (List.not_mem_nil g)
        · exact frameB_trans hB2 hmB

/-- Phase 3 under a fully-awake space: `next` pointers stay absent, flags
are untouched, idle times are at most zeroed, only the body and arbiter
stores change, and the rogue scratch list only grows. -/
theorem phase3Loop_run (fuel : Nat) :
    ∀ (arbs : List ArbId) (st : St) (rg : List BodyId) (st1 : St) (rg1 : List BodyId),
      phase3Loop fuel arbs st rg = some (st1, rg1) →
      (∀ x, (st.bodyOf x).node.next = none) →
      (∀ x, (st1.bodyOf x).node.next = none) ∧
      (∀ x, (st1.bodyOf x).rogueFlag = (st.bodyOf x).rogueFlag ∧
            (st1.bodyOf x).staticFlag = (st.bodyOf x).staticFlag) ∧
      (∀ x, (st1.bodyOf x).node.idleTime = (st.bodyOf x).node.idleTime ∨
            (st1.bodyOf x).node.idleTime = 0) ∧
      (∃ l, rg1 = rg ++ l) ∧
      st1 = { st with bodyOf := st1.bodyOf, arbOf := st1.arbOf } := by
  intro arbs
  induction arbs with
  | nil =>
    intro st rg st1 rg1 h hnone
    simp only [phase3Loop, Option.some.injEq, Prod.mk.injEq] at h
    obtain ⟨h1, h2⟩ := h
    subst h1; subst h2
    exact ⟨hnone, fun x => ⟨rfl, rfl⟩, fun x => Or.inl rfl, ⟨[], by simp⟩, rfl⟩
  | cons aid rest ih =>
    intro st rg st1 rg1 h hnone
    simp only [phase3Loop, Option.bind_eq_bind, Option.bind_eq_some] at h
    obtain ⟨⟨stM, rgM⟩, hmerge, h⟩ := h
    dsimp only at h
    obtain ⟨hMn, hMf, hMi, ⟨l1, hMrg, _⟩, hMB⟩ :=
      mergeBodies_run fuel st rg _ _ stM rgM hnone hmerge
    obtain ⟨hP1, hP1B⟩ :=
      cpBodyPushArbiter_frame stM (stM.shapeBody (stM.arbOf aid).a) aid
    obtain ⟨hP2, hP2B⟩ :=
      cpBodyPushArbiter_frame (cpBodyPushArbiter stM (stM.shapeBody (stM.arbOf aid).a) aid)
        ((cpBodyPushArbiter stM (stM.shapeBody (stM.arbOf aid).a) aid).shapeBody
          ((cpBodyPushArbiter stM (stM.shapeBody (stM.arbOf aid).a) aid).arbOf aid).b) aid
    have hnoneP2 : ∀ x, (((cpBodyPushArbiter
        (cpBodyPushArbiter stM (stM.shapeBody (stM.arbOf aid).a) aid)
        ((cpBodyPushArbiter stM (stM.shapeBody (stM.arbOf aid).a) aid).shapeBody
          ((cpBodyPushArbiter stM (stM.shapeBody (stM.arbOf aid).a) aid).arbOf aid).b)
        aid)).bodyOf x).node.next = none := by
      intro x
      rw [(hP2 x).1, (hP1 x).1]
      exact hMn x
    have hrest := ih _ rgM st1 rg1 h hnoneP2
    obtain ⟨hRn, hRf, hRi, ⟨l2, hRrg⟩, hRB⟩ := hrest
    refine ⟨hRn, ?_, ?_, ⟨l1 ++ l2, by rw [hRrg, hMrg, List.append_assoc]⟩,
      frameAB_trans (frameAB_trans (frameAB_trans (frameB_to_AB hMB) hP1B) hP2B) hRB⟩
    · intro x
      obtain ⟨ha1, ha2⟩ := hRf x
      constructor
      · rw [ha1, (hP2 x).2.1, (hP1 x).2.1]; exact (hMf x).1
      · rw [ha2, (hP2 x).2.2, (hP1 x).2.2]; exact (hMf x).2
    · intro x
      rcases hRi x with h1 | h1
      · rw [h1, (hP2 x).1, (hP1 x).1]; exact hMi x
      · exact Or.inr h1

/-- Phase 4 under a fully-awake space: same shape as `phase3Loop_run`,
without arbiter-store changes. -/
theorem phase4Loop_run (fuel : Nat) :
    ∀ (n : Nat) (st : St) (rg : List BodyId) (j : Nat) (st1 : St) (rg1 : List BodyId),
      phase4Loop fuel n st rg j = some (st1, rg1) →
      (∀ x, (st.bodyOf x).node.next = none) →
      (∀ x, (st1.bodyOf x).node.next = none) ∧
      (∀ x, (st1.bodyOf x).rogueFlag = (st.bodyOf x).rogueFlag ∧
            (st1.bodyOf x).staticFlag = (st.bodyOf x).staticFlag) ∧
      (∀ x, (st1.bodyOf x).node.idleTime = (st.bodyOf x).node.idleTime ∨
            (st1.bodyOf x).node.idleTime = 0) ∧
      (∃ l, rg1 = rg ++ l) ∧
      st1 = { st with bodyOf := st1.bodyOf } := by
  intro n
  induction n with
  | zero => intro st rg j st1 rg1 h hnone; simp [phase4Loop] at h
  | succ k ih =>
    intro st rg j st1 rg1 h hnone
    simp only [phase4Loop] at h
    split at h
    · simp only [Option.bind_eq_bind, Option.bind_eq_some] at h
      obtain ⟨⟨stM, rgM⟩, hmerge, h⟩ := h
      dsimp only at h
      obtain ⟨hMn, hMf, hMi, ⟨l1, hMrg, _⟩, hMB⟩ :=
        mergeBodies_run fuel st rg _ _ stM rgM hnone hmerge
      have hrest := ih stM rgM (j + 1) st1 rg1 h hMn
      obtain ⟨hRn, hRf, hRi, ⟨l2, hRrg⟩, hRB⟩ := hrest
      refine ⟨hRn, ?_, ?_, ⟨l1 ++ l2, by rw [hRrg, hMrg, List.append_assoc]⟩,
        frameB_trans hMB hRB⟩
      · intro x
        obtain ⟨ha1, ha2⟩ := hRf x
        exact ⟨ha1.trans (hMf x).1, ha2.trans (hMf x).2⟩
      · intro x
        rcases hRi x with h1 | h1
        · rw [h1]; exact hMi x
        · exact Or.inr h1
    · simp only [Option.some.injEq, Prod.mk.injEq] at h
      obtain ⟨h1, h2⟩ := h
      subst h1; subst h2
      exact ⟨hnone, fun x => ⟨rfl, rfl⟩, fun x => Or.inl rfl, ⟨[], by simp⟩, rfl⟩

/-- A fully-awake space carries the trivial (empty) ring system. -/
theorem ringsInv_empty (st : St) (hnone : ∀ x, (st.bodyOf x).node.next = none) :
    RingsInv st [] (fun _ => []) := by
  refine ⟨List.nodup_nil, ?_, ?_, ?_, ?_, ?_⟩
  · intro r hr; cases hr
  · intro b r1 r2 hr1 _ _ _; cases hr1
  · intro b
    constructor
    · intro hb; rw [hnone b] at hb; cases hb
    · rintro ⟨r, hr, _⟩; cases hr
  · intro r hr; cases hr
  · intro r hr; cases hr

/-- Phase 5 (`addAll`) preserves ring well-formedness, places every body
of its list, and only moves `next` pointers. -/
theorem addAll_run (fuel : Nat) :
    ∀ (l : List BodyId) (st : St) (comps : List BodyId) (st1 : St) (comps1 : List BodyId)
      (R : BodyId → List BodyId),
      addAll fuel l st comps = some (st1, comps1) →
      RingsInv st comps R →
      ∃ R1, RingsInv st1 comps1 R1 ∧
        comps ⊆ comps1 ∧
        (∀ x, (st1.bodyOf x).node.idleTime = (st.bodyOf x).node.idleTime ∧
              (st1.bodyOf x).rogueFlag = (st.bodyOf x).rogueFlag) ∧
        (∀ x, (st.bodyOf x).node.next.isSome = true →
          (st1.bodyOf x).node.next.isSome = true) ∧
        (∀ b ∈ l, (st1.bodyOf b).node.next.isSome = true) ∧
        (∀ x r, RootsTo st x r → RootsTo st1 x r) ∧
        st1 = { st with bodyOf := st1.bodyOf } := by
  intro l
  induction l with
  | nil =>
    intro st comps st1 comps1 R h hinv
    simp only [addAll, Option.some.injEq, Prod.mk.injEq] at h
    obtain ⟨h1, h2⟩ := h
    subst h1; subst h2
    exact ⟨R, hinv, fun a ha => ha, fun x => ⟨rfl, rfl⟩, fun x hx => hx,
      fun b hb => absurd hb (List.not_mem_nil b), fun x r hx => hx, rfl⟩
  | cons b rest ih =>
    intro st comps st1 comps1 R h hinv
    simp only [addAll, Option.bind_eq_bind, Option.bind_eq_some] at h
    obtain ⟨⟨stb, compsb⟩, hstep, h⟩ := h
    dsimp only at h
    obtain ⟨Rb, hinvb, hsubb, hplacedb, hidleb, hpresb, hrootsb, hframeb⟩ :=
      addToComponent_inv fuel st comps b stb compsb R hstep hinv
    obtain ⟨R1, hinv1, hsub1, hidle1, hpres1, hplaced1, hroots1, hframe1⟩ :=
      ih stb compsb st1 comps1 Rb h hinvb
    refine ⟨R1, hinv1, fun a ha => hsub1 (hsubb ha), ?_, ?_, ?_, ?_,
      frameB_trans hframeb hframe1⟩
    · intro x
      obtain ⟨hi1, hr1⟩ := hidle1 x
      obtain ⟨hi2, hr2⟩ := hidleb x
      exact ⟨hi1.trans hi2, hr1.trans hr2⟩
    · intro x hx
      exact hpres1 x (hpresb x hx)
    · intro c hc
      rcases List.mem_cons.mp hc with hc | hc
      · subst hc
        exact hpres1 c hplacedb
      · exact hplaced1 c hc
    · exact fun x r hx => hroots1 x r (hrootsb x r hx)

/-- Phases 1–5 of `cpSpaceProcessComponents` starting from a fully-awake
space: the output satisfies the ring invariant for the produced
`components`, rogue flags are untouched, and only the body and arbiter
stores change. -/
theorem phases25_run (fuel : Nat) (st : St) (dt : ℤ) (st5 : St) (comps : List BodyId)
    (hcleanN : ∀ x, (st.bodyOf x).node.next = none)
    (h : phases25 fuel st dt = some (st5, comps)) :
    ∃ R, RingsInv st5 comps R ∧
      (∀ x, (st5.bodyOf x).rogueFlag = (st.bodyOf x).rogueFlag) ∧
      st5 = { st with bodyOf := st5.bodyOf, arbOf := st5.arbOf } := by
  unfold phases25 at h
  dsimp only at h
  simp only [Option.bind_eq_bind, Option.bind_eq_some] at h
  obtain ⟨⟨st3, rogue1⟩, h3, h⟩ := h
  obtain ⟨⟨st4, rogue2⟩, h4, h⟩ := h
  obtain ⟨⟨st5a, comps1⟩, h5a, h5b⟩ := h
  obtain ⟨hfold, hfoldB⟩ := foldl_updateIdle_frame dt
    (if st.idleSpeedThreshold ≠ 0 then st.idleSpeedThreshold * st.idleSpeedThreshold
     else st.gravitySq * dt * dt) st.bodies st
  have hnone2 : ∀ x, ((st.bodies.foldl (updateIdle dt
      (if st.idleSpeedThreshold ≠ 0 then st.idleSpeedThreshold * st.idleSpeedThreshold
       else st.gravitySq * dt * dt)) st).bodyOf x).node.next = none := by
    intro x
    rw [(hfold x).1]
    exact hcleanN x
  obtain ⟨h3n, h3f, h3i, _, h3B⟩ := phase3Loop_run fuel _ _ [] st3 rogue1 h3 hnone2
  obtain ⟨h4n, h4f, h4i, _, h4B⟩ := phase4Loop_run fuel fuel st3 rogue1 0 st4 rogue2 h4 h3n
  obtain ⟨R1, hinv1, _, hidle1, _, _, _, hB1⟩ :=
    addAll_run fuel st4.bodies st4 [] st5a comps1 (fun _ => []) h5a (ringsInv_empty st4 h4n)
  obtain ⟨R2, hinv2, _, hidle2, _, _, _, hB2⟩ :=
    addAll_run fuel rogue2 st5a comps1 st5 comps R1 h5b hinv1
  refine ⟨R2, hinv2, ?_, ?_⟩
  · intro x
    rw [(hidle2 x).2, (hidle1 x).2, (h4f x).1, (h3f x).1, (hfold x).2.2.1]
  · exact frameAB_trans (frameAB_trans (frameAB_trans (frameAB_trans
      (frameB_to_AB hfoldB) h3B) (frameB_to_AB h4B)) (frameB_to_AB hB1)) (frameB_to_AB hB2)

/-! ## Phase 6: the two verdict branches -/

theorem deactivateArbStep_frameB (st : St) (body : BodyId) (i : ArbId) :
    (deactivateArbStep st body i).bodyOf = st.bodyOf ∧
    (deactivateArbStep st body i).sleepingComponents = st.sleepingComponents ∧
    (deactivateArbStep st body i).sleepTimeThreshold = st.sleepTimeThreshold := by
  unfold deactivateArbStep contactSetRemove updArb
  dsimp only
  split
  · exact ⟨rfl, rfl, rfl⟩
  · exact ⟨rfl, rfl, rfl⟩

theorem deactivateArbLoop_frameB (body : BodyId) :
    ∀ (fuel : Nat) (st : St) (link : Option ArbId) (st1 : St),
      deactivateArbLoop body fuel st link = some st1 →
      st1.bodyOf = st.bodyOf ∧ st1.sleepingComponents = st.sleepingComponents ∧
      st1.sleepTimeThreshold = st.sleepTimeThreshold := by
  intro fuel
  induction fuel with
  | zero =>
    intro st link st1 h
    cases link with
    | none => simp only [deactivateArbLoop] at h; cases h; exact ⟨rfl, rfl, rfl⟩
    | some a => simp [deactivateArbLoop] at h
  | succ n ih =>
    intro st link st1 h
    cases link with
    | none => simp only [deactivateArbLoop] at h; cases h; exact ⟨rfl, rfl, rfl⟩
    | some a =>
      simp only [deactivateArbLoop] at h
      obtain ⟨h1, h2, h3⟩ := ih _ _ _ h
      obtain ⟨g1, g2, g3⟩ := deactivateArbStep_frameB st body a
      exact ⟨h1.trans g1, h2.trans g2, h3.trans g3⟩

theorem deactivateConsLoop_frameB (body : BodyId) :
    ∀ (fuel : Nat) (st : St) (link : Option ConsId) (st1 : St),
      deactivateConsLoop body fuel st link = some st1 →
      st1.bodyOf = st.bodyOf ∧ st1.sleepingComponents = st.sleepingComponents ∧
      st1.sleepTimeThreshold = st.sleepTimeThreshold := by
  intro fuel
  induction fuel with
  | zero =>
    intro st link st1 h
    cases link with
    | none => simp only [deactivateConsLoop] at h; cases h; exact ⟨rfl, rfl, rfl⟩
    | some a => simp [deactivateConsLoop] at h
  | succ n ih =>
    intro st link st1 h
    cases link with
    | none => simp only [deactivateConsLoop] at h; cases h; exact ⟨rfl, rfl, rfl⟩
    | some a =>
      simp only [deactivateConsLoop] at h
      split at h
      · have hres := ih _ _ _ h; exact hres
      · have hres := ih _ _ _ h; exact hres

theorem shapeDeactivateFold_frameB (shapes : List ShapeId) (s : St) :
    ((shapes.foldl (fun s sh =>
      { s with activeShapes := s.activeShapes.erase sh,
               staticShapes := sh :: s.staticShapes }) s).bodyOf = s.bodyOf) ∧
    ((shapes.foldl (fun s sh =>
      { s with activeShapes := s.activeShapes.erase sh,
               staticShapes := sh :: s.staticShapes }) s).sleepingComponents
        = s.sleepingComponents) ∧
    ((shapes.foldl (fun s sh =>
      { s with activeShapes := s.activeShapes.erase sh,
               staticShapes := sh :: s.staticShapes }) s).sleepTimeThreshold
        = s.sleepTimeThreshold) := by
  induction shapes generalizing s with
  | nil => exact ⟨rfl, rfl, rfl⟩
  | cons x xs ih => simpa using ih _

/-- `cpSpaceDeactivateBody` never touches the body store, the parked
components or the sleep threshold. -/
theorem cpSpaceDeactivateBody_frameB (fuel : Nat) (st : St) (body : BodyId) (st1 : St)
    (h : cpSpaceDeactivateBody fuel st body = some st1) :
    st1.bodyOf = st.bodyOf ∧ st1.sleepingComponents = st.sleepingComponents ∧
    st1.sleepTimeThreshold = st.sleepTimeThreshold := by
  unfold cpSpaceDeactivateBody at h
  dsimp only at h
  simp only [Option.bind_eq_bind, Option.bind_eq_some] at h
  obtain ⟨st2, h2, h3⟩ := h
  obtain ⟨f1, f2, f3⟩ :=
    shapeDeactivateFold_frameB ((st.bodyOf body).shapeList) st
  obtain ⟨a1, a2, a3⟩ := deactivateArbLoop_frameB body fuel _ _ st2 h2
  obtain ⟨c1, c2, c3⟩ := deactivateConsLoop_frameB body fuel st2 _ st1 h3
  exact ⟨c1.trans (a1.trans f1), c2.trans (a2.trans f2), c3.trans (a3.trans f3)⟩

/-- The deactivation lap of phase 6 leaves the body store, the already
parked components and the sleep threshold alone. -/
theorem deactivateRingLoop_run (fuel root : Nat) :
    ∀ (n : Nat) (st : St) (body : BodyId) (st1 : St),
      deactivateRingLoop fuel root n st body = some st1 →
      st1.bodyOf = st.bodyOf ∧ st1.sleepingComponents = st.sleepingComponents ∧
      st1.sleepTimeThreshold = st.sleepTimeThreshold := by
  intro n
  induction n with
  | zero => intro st body st1 h; cases h
  | succ k ih =>
    intro st body st1 h
    simp only [deactivateRingLoop, Option.bind_eq_bind, Option.bind_eq_some] at h
    obtain ⟨st2, h2, h3⟩ := h
    obtain ⟨d1, d2, d3⟩ := cpSpaceDeactivateBody_frameB fuel st body st2 h2
    cases hn : (st.bodyOf body).node.next with
    | none => rw [hn] at h3; cases h3
    | some nb =>
      rw [hn] at h3
      dsimp only at h3
      by_cases hr : nb = root
      · rw [if_pos hr] at h3
        cases h3
        exact ⟨d1, d2, d3⟩
      · rw [if_neg hr] at h3
        obtain ⟨e1, e2, e3⟩ := ih st2 nb st1 h3
        exact ⟨e1.trans d1, e2.trans d2, e3.trans d3⟩

/-- A successful `republishLoop` lap over a well-formed ring returns the
non-rogue members appended to the accumulator and clears every member's
node, preserving its idle time; bodies outside the ring and every
non-body field are untouched. -/
theorem republishLoop_run (root : BodyId) :
    ∀ (l : List BodyId) (n : Nat) (st : St) (newB : List BodyId) (body : BodyId)
      (st1 : St) (newB1 : List BodyId),
      republishLoop root n st newB body = some (st1, newB1) →
      nextPath st root (body :: l) →
      (body :: l).Nodup →
      root ∉ l →
      newB1 = newB ++ (body :: l).filter (fun x => !(st.bodyOf x).rogueFlag) ∧
      (∀ x ∈ body :: l, st1.bodyOf x =
        { st.bodyOf x with node := ⟨none, none, 0, (st.bodyOf x).node.idleTime⟩ }) ∧
      (∀ x, x ∉ body :: l → st1.bodyOf x = st.bodyOf x) ∧
      st1 = { st with bodyOf := st1.bodyOf } := by
  intro l
  induction l with
  | nil =>
    intro n st newB body st1 newB1 h hpath hnd hnr
    cases n with
    | zero => cases h
    | succ k =>
      simp only [republishLoop] at h
      simp only [nextPath] at hpath
      rw [hpath] at h
      dsimp only at h
      rw [if_pos rfl] at h
      simp only [Option.some.injEq, Prod.mk.injEq] at h
      obtain ⟨hst, hnb⟩ := h
      refine ⟨?_, ?_, ?_, by rw [← hst]; rfl⟩
      · rw [← hnb]
        by_cases hrb : (st.bodyOf body).rogueFlag = true
        · simp [cpBodyIsRogue, hrb, List.filter_cons]
        · simp [cpBodyIsRogue, hrb, List.filter_cons]
      · intro x hx
        rw [List.mem_singleton.mp hx, ← hst]
        simp [updBody]
      · intro x hx
        have hxb : x ≠ body := fun hc => hx (List.mem_singleton.mpr hc)
        rw [← hst]
        simp [updBody, hxb]
  | cons y rest ih =>
    intro n st newB body st1 newB1 h hpath hnd hnr
    cases n with
    | zero => cases h
    | succ k =>
      simp only [republishLoop] at h
      simp only [nextPath] at hpath
      obtain ⟨hpy, hptail⟩ := hpath
      rw [hpy] at h
      dsimp only at h
      have hyroot : y ≠ root := fun hc => hnr (by rw [← hc]; exact List.mem_cons_self _ _)
      rw [if_neg hyroot] at h
      have hbody_nin : body ∉ y :: rest := (List.nodup_cons.mp hnd).1
      have hndtail : (y :: rest).Nodup := (List.nodup_cons.mp hnd).2
      have hnrtail : root ∉ rest := fun hc => hnr (List.mem_cons_of_mem _ hc)
      have hptail2 : nextPath (updBody st body
          (fun bo => { bo with node := ⟨none, none, 0, bo.node.idleTime⟩ }))
          root (y :: rest) := by
        refine nextPath_congr_mem st _ root _ ?_ hptail
        intro z hz
        have hzb : z ≠ body := fun hc => hbody_nin (hc ▸ hz)
        simp [updBody, hzb]
      obtain ⟨hNB, hmem, hout, hfr⟩ := ih k _ _ y st1 newB1 h hptail2 hndtail hnrtail
      have hfc : (y :: rest).filter (fun x => !((updBody st body
          (fun bo => { bo with node := ⟨none, none, 0, bo.node.idleTime⟩ })).bodyOf x).rogueFlag)
          = (y :: rest).filter (fun x => !(st.bodyOf x).rogueFlag) := by
        refine List.filter_congr ?_
        intro z hz
        have hzb : z ≠ body := fun hc => hbody_nin (hc ▸ hz)
        simp [updBody, hzb]
      refine ⟨?_, ?_, ?_, frameB_trans rfl hfr⟩
      · rw [hNB, hfc]
        by_cases hrb : (st.bodyOf body).rogueFlag = true
        · simp [cpBodyIsRogue, hrb, List.filter_cons]
        · simp [cpBodyIsRogue, hrb, List.filter_cons]
      · intro x hx
        rcases List.mem_cons.mp hx with hx | hx
        · subst hx
          rw [hout x hbody_nin]
          simp [updBody]
        · have hzb : x ≠ body := fun hc => hbody_nin (hc ▸ hx)
          rw [hmem x hx]
          simp [updBody, hzb]
      · intro x hx
        have hx1 : x ≠ body := fun hc => hx (hc ▸ List.mem_cons_self _ _)
        have hx2 : x ∉ y :: rest := fun hc => hx (List.mem_cons_of_mem _ hc)
        rw [hout x hx2]
        simp [updBody, hx1]

/-- A `false` verdict of the `componentActive` walk means every visited
ring member idled at or above the threshold. -/
theorem componentActiveLoop_false (root : BodyId) (threshold : ℤ) (st : St) :
    ∀ (l : List BodyId) (n : Nat) (body : BodyId),
      componentActiveLoop st root threshold n body = some false →
      nextPath st root (body :: l) →
      root ∉ l →
      ∀ x ∈ body :: l, threshold ≤ (st.bodyOf x).node.idleTime := by
  intro l
  induction l with
  | nil =>
    intro n body h hpath hnr
    cases n with
    | zero => cases h
    | succ k =>
      simp only [componentActiveLoop] at h
      simp only [nextPath] at hpath
      split at h
      · cases h
      · rename_i hidle
        intro x hx
        rw [List.mem_singleton.mp hx]
        exact le_of_not_lt hidle
  | cons y rest ih =>
    intro n body h hpath hnr
    cases n with
    | zero => cases h
    | succ k =>
      simp only [componentActiveLoop] at h
      simp only [nextPath] at hpath
      obtain ⟨hpy, hptail⟩ := hpath
      split at h
      · cases h
      · rename_i hidle
        rw [hpy] at h
        dsimp only at h
        have hyroot : y ≠ root := fun hc => hnr (by rw [← hc]; exact List.mem_cons_self _ _)
        rw [if_neg hyroot] at h
        have hnrtail : root ∉ rest := fun hc => hnr (List.mem_cons_of_mem _ hc)
        intro x hx
        rcases List.mem_cons.mp hx with hx | hx
        · rw [hx]
          exact le_of_not_lt hidle
        · exact ih k y h hptail hnrtail x hx

/-- `componentActive` judging a well-formed ring inactive bounds every
member's idle time from below by the threshold. -/
theorem componentActive_false (fuel : Nat) (st : St) (root : BodyId) (threshold : ℤ)
    (xs : List BodyId)
    (hpath : nextPath st root (root :: xs))
    (hnd : (root :: xs).Nodup)
    (h : componentActive fuel st root threshold = some false) :
    ∀ x ∈ root :: xs, threshold ≤ (st.bodyOf x).node.idleTime := by
  unfold componentActive at h
  exact componentActiveLoop_false root threshold st xs fuel root h hpath
    (List.nodup_cons.mp hnd).1

/-- The phase-6 verdict loop, core invariant: `rest` holds the unprocessed
ring handles with pairwise-disjoint well-formed rings whose members keep
the idle times they had in `st5`; every sleeping body is either in an
unprocessed ring or idled at least `θ`; `newB` holds already republished
bodies, cleared and off the remaining rings.  The loop ends with `newB1`
duplicate-free, every member's node cleared to `{none, none, 0, st5 idle}`,
and every still-sleeping body idling at least `θ`. -/
theorem phase6Loop_core (fuel : Nat) (st5 : St) (θ : ℤ) :
    ∀ (rest : List BodyId) (st : St) (newB : List BodyId) (st1 : St) (newB1 : List BodyId)
      (R : BodyId → List BodyId),
      phase6Loop fuel rest st newB = some (st1, newB1) →
      rest.Nodup →
      (∀ r ∈ rest, ∃ xs, R r = r :: xs ∧ nextPath st r (r :: xs) ∧ (r :: xs).Nodup) →
      (∀ b r1 r2, r1 ∈ rest → r2 ∈ rest → b ∈ R r1 → b ∈ R r2 → r1 = r2) →
      (∀ b, (st.bodyOf b).node.next.isSome = true →
        (∃ r ∈ rest, b ∈ R r) ∨ θ ≤ (st.bodyOf b).node.idleTime) →
      (∀ r ∈ rest, ∀ b ∈ R r,
        (st.bodyOf b).node.idleTime = (st5.bodyOf b).node.idleTime) →
      st.sleepTimeThreshold = θ →
      newB.Nodup →
      (∀ b ∈ newB, (st.bodyOf b).node = ⟨none, none, 0, (st5.bodyOf b).node.idleTime⟩) →
      (∀ b ∈ newB, ∀ r ∈ rest, b ∉ R r) →
      newB1.Nodup ∧
      (∀ b ∈ newB1, (st1.bodyOf b).node = ⟨none, none, 0, (st5.bodyOf b).node.idleTime⟩) ∧
      (∀ b, (st1.bodyOf b).node.next.isSome = true → θ ≤ (st1.bodyOf b).node.idleTime) := by
  intro rest
  induction rest with
  | nil =>
    intro st newB st1 newB1 R h _ _ _ H4 _ _ hnodup hclears _
    simp only [phase6Loop, Option.some.injEq, Prod.mk.injEq] at h
    obtain ⟨h1, h2⟩ := h
    subst h1; subst h2
    refine ⟨hnodup, hclears, ?_⟩
    intro b hb
    rcases H4 b hb with ⟨r, hr, _⟩ | hθ
    · cases hr
    · exact hθ
  | cons r rows ih =>
    intro st newB st1 newB1 R h hnd hrings hdisj H4 hidle5 hθeq hnodup hclears hdisjN
    simp only [phase6Loop, Option.bind_eq_bind, Option.bind_eq_some] at h
    obtain ⟨⟨stP, newBP⟩, hpo, h⟩ := h
    dsimp only at h
    unfold processOneComponent at hpo
    simp only [Option.bind_eq_bind, Option.bind_eq_some] at hpo
    obtain ⟨active, hact, hpo⟩ := hpo
    obtain ⟨xs, hxs, hpath, hndring⟩ := hrings r (List.mem_cons_self _ _)
    have hrrows : r ∉ rows := (List.nodup_cons.mp hnd).1
    have hndrows : rows.Nodup := (List.nodup_cons.mp hnd).2
    have hrnxs : r ∉ xs := (List.nodup_cons.mp hndring).1
    have hsep : ∀ r2 ∈ rows, ∀ b ∈ R r2, b ∉ r :: xs := by
      intro r2 hr2 b hb hc
      have hbr : b ∈ R r := by rw [hxs]; exact hc
      have heq : r = r2 := hdisj b r r2 (List.mem_cons_self _ _)
        (List.mem_cons_of_mem _ hr2) hbr hb
      rw [heq] at hrrows
      exact hrrows hr2
    cases active with
    | true =>
      rw [if_pos rfl] at hpo
      obtain ⟨hNB, hmem, hout, hfrB⟩ :=
        republishLoop_run r xs fuel st newB r stP newBP hpo hpath hndring hrnxs
      have hfilter_sub : ∀ b ∈ (r :: xs).filter (fun x => !(st.bodyOf x).rogueFlag),
          b ∈ r :: xs := fun b hb => (List.mem_filter.mp hb).1
      have hrings2 : ∀ r2 ∈ rows, ∃ xs2,
          R r2 = r2 :: xs2 ∧ nextPath stP r2 (r2 :: xs2) ∧ (r2 :: xs2).Nodup := by
        intro r2 hr2
        obtain ⟨xs2, hxs2, hpath2, hnd2⟩ := hrings r2 (List.mem_cons_of_mem _ hr2)
        refine ⟨xs2, hxs2, ?_, hnd2⟩
        refine nextPath_congr_mem st stP r2 _ ?_ hpath2
        intro z hz
        have hzring : z ∈ R r2 := by rw [hxs2]; exact hz
        rw [hout z (hsep r2 hr2 z hzring)]
      have H42 : ∀ b, (stP.bodyOf b).node.next.isSome = true →
          (∃ r2 ∈ rows, b ∈ R r2) ∨ θ ≤ (stP.bodyOf b).node.idleTime := by
        intro b hb
        by_cases hbr : b ∈ r :: xs
        · exfalso
          rw [hmem b hbr] at hb
          simp at hb
        · rw [hout b hbr] at hb ⊢
          rcases H4 b hb with ⟨r2, hr2, hbr2⟩ | hθ
          · rcases List.mem_cons.mp hr2 with hre | hre
            · exfalso
              rw [hre, hxs] at hbr2
              exact hbr hbr2
            · exact Or.inl ⟨r2, hre, hbr2⟩
          · exact Or.inr hθ
      have hidle52 : ∀ r2 ∈ rows, ∀ b ∈ R r2,
          (stP.bodyOf b).node.idleTime = (st5.bodyOf b).node.idleTime := by
        intro r2 hr2 b hb
        rw [hout b (hsep r2 hr2 b hb)]
        exact hidle5 r2 (List.mem_cons_of_mem _ hr2) b hb
      have hθ2 : stP.sleepTimeThreshold = θ := by
        rw [hfrB]
        exact hθeq
      have hnodup2 : newBP.Nodup := by
        rw [hNB]
        refine List.Nodup.append hnodup (hndring.filter _) ?_
        intro b hb1 hb2
        exact hdisjN b hb1 r (List.mem_cons_self _ _)
          (by rw [hxs]; exact hfilter_sub b hb2)
      have hclears2 : ∀ b ∈ newBP,
          (stP.bodyOf b).node = ⟨none, none, 0, (st5.bodyOf b).node.idleTime⟩ := by
        rw [hNB]
        intro b hb
        rcases List.mem_append.mp hb with hb | hb
        · have hbnr : b ∉ r :: xs := fun hc =>
            hdisjN b hb r (List.mem_cons_self _ _) (by rw [hxs]; exact hc)
          rw [hout b hbnr]
          exact hclears b hb
        · have hbr : b ∈ r :: xs := hfilter_sub b hb
          rw [hmem b hbr]
          have hi5 : (st.bodyOf b).node.idleTime = (st5.bodyOf b).node.idleTime :=
            hidle5 r (List.mem_cons_self _ _) b (by rw [hxs]; exact hbr)
          dsimp only
          rw [hi5]
      have hdisjN2 : ∀ b ∈ newBP, ∀ r2 ∈ rows, b ∉ R r2 := by
        rw [hNB]
        intro b hb r2 hr2 hc
        rcases List.mem_append.mp hb with hb | hb
        · exact hdisjN b hb r2 (List.mem_cons_of_mem _ hr2) hc
        · exact hsep r2 hr2 b hc (hfilter_sub b hb)
      exact ih stP newBP st1 newB1 R h hndrows hrings2
        (fun b r1 r2 h1 h2 => hdisj b r1 r2 (List.mem_cons_of_mem _ h1)
          (List.mem_cons_of_mem _ h2))
        H42 hidle52 hθ2 hnodup2 hclears2 hdisjN2
    | false =>
      rw [if_neg Bool.false_ne_true] at hpo
      simp only [Option.bind_eq_bind, Option.bind_eq_some] at hpo
      obtain ⟨stD, hdeact, hpo⟩ := hpo
      simp only [Option.some.injEq, Prod.mk.injEq] at hpo
      obtain ⟨hstP, hnbP⟩ := hpo
      subst hnbP
      obtain ⟨hD1, hD2, hD3⟩ := deactivateRingLoop_run fuel r fuel st r stD hdeact
      have hbodyP : stP.bodyOf = st.bodyOf := by
        rw [← hstP]
        exact hD1
      have hθ2 : stP.sleepTimeThreshold = θ := by
        rw [← hstP]
        exact hD3.trans hθeq
      have hθr : ∀ x ∈ r :: xs, θ ≤ (st.bodyOf x).node.idleTime := by
        have hca := componentActive_false fuel st r st.sleepTimeThreshold xs hpath hndring hact
        rw [hθeq] at hca
        exact hca
      have hrings2 : ∀ r2 ∈ rows, ∃ xs2,
          R r2 = r2 :: xs2 ∧ nextPath stP r2 (r2 :: xs2) ∧ (r2 :: xs2).Nodup := by
        intro r2 hr2
        obtain ⟨xs2, hxs2, hpath2, hnd2⟩ := hrings r2 (List.mem_cons_of_mem _ hr2)
        exact ⟨xs2, hxs2, nextPath_congr_mem st stP r2 _
          (fun z _ => by rw [hbodyP]) hpath2, hnd2⟩
      have H42 : ∀ b, (stP.bodyOf b).node.next.isSome = true →
          (∃ r2 ∈ rows, b ∈ R r2) ∨ θ ≤ (stP.bodyOf b).node.idleTime := by
        intro b hb
        rw [hbodyP] at hb ⊢
        rcases H4 b hb with ⟨r2, hr2, hbr2⟩ | hθ
        · rcases List.mem_cons.mp hr2 with hre | hre
          · refine Or.inr ?_
            rw [hre, hxs] at hbr2
            exact hθr b hbr2
          · exact Or.inl ⟨r2, hre, hbr2⟩
        · exact Or.inr hθ
      have hidle52 : ∀ r2 ∈ rows, ∀ b ∈ R r2,
          (stP.bodyOf b).node.idleTime = (st5.bodyOf b).node.idleTime := by
        intro r2 hr2 b hb
        rw [hbodyP]
        exact hidle5 r2 (List.mem_cons_of_mem _ hr2) b hb
      have hclears2 : ∀ b ∈ newB,
          (stP.bodyOf b).node = ⟨none, none, 0, (st5.bodyOf b).node.idleTime⟩ := by
        intro b hb
        rw [hbodyP]
        exact hclears b hb
      exact ih stP newB st1 newB1 R h hndrows hrings2
        (fun b r1 r2 h1 h2 => hdisj b r1 r2 (List.mem_cons_of_mem _ h1)
          (List.mem_cons_of_mem _ h2))
        H42 hidle52 hθ2 hnodup hclears2
        (fun b hb r2 hr2 => hdisjN b hb r2 (List.mem_cons_of_mem _ hr2))

/-! ## Claim C2 (amended) — idle time of sleeping bodies -/

/-- C2 (amended): a body put to sleep explicitly (from an awake state)
ends with `node.idleTime = 0`; the deactivation path of
`cpSpaceProcessComponents`, however, does not reset idle clocks — a body
that ends the step sleeping retains its accumulated idle time, which is
at least `sleepTimeThreshold`. -/
theorem sleeping_idleTime_characterisation
    (fuel : Nat) (st : St) (body : BodyId) (group : Option BodyId) (st1 : St)
    (hs : cpBodySleepWithGroup fuel st body group = some st1)
    (hns : cpBodyIsSleeping (st.bodyOf body) = false)
    (fuel2 : Nat) (stp : St) (dt : ℤ) (stp' : St)
    (hclean : ∀ x, (stp.bodyOf x).node.next = none)
    (hp : cpSpaceProcessComponents fuel2 stp dt = some stp') :
    (st1.bodyOf body).node.idleTime = 0 ∧
    (∀ b, (stp'.bodyOf b).node.next.isSome = true →
      stp.sleepTimeThreshold ≤ (stp'.bodyOf b).node.idleTime) := by
  constructor
  · unfold cpBodySleepWithGroup at hs
    split at hs
    · cases hs
    · split at hs
      · cases hs
      · split at hs
        · cases hs
        · rw [if_neg (by rw [hns]; exact Bool.false_ne_true)] at hs
          simp only [Option.bind_eq_bind, Option.bind_eq_some] at hs
          obtain ⟨stD, hD, hs⟩ := hs
          cases group with
          | none =>
            dsimp only at hs
            simp only [Option.some.injEq] at hs
            rw [← hs]
            simp [updBody]
          | some g =>
            simp only [Option.bind_eq_bind, Option.bind_eq_some] at hs
            obtain ⟨⟨st2, root⟩, hroot, hs⟩ := hs
            dsimp only at hs
            simp only [Option.some.injEq] at hs
            rw [← hs]
            by_cases hbr : body = root
            · simp [updBody, hbr]
            · simp [updBody, hbr]
  · intro b hb
    unfold cpSpaceProcessComponents at hp
    simp only [Option.bind_eq_bind, Option.bind_eq_some] at hp
    obtain ⟨⟨st5, comps⟩, h25, hp⟩ := hp
    obtain ⟨⟨st6, newB⟩, hq, hp⟩ := hp
    dsimp only at hq hp
    have hst' : { st6 with bodies := newB } = stp' := Option.some.inj hp
    obtain ⟨R, hinv, _, hAB⟩ := phases25_run fuel2 stp dt st5 comps hclean h25
    obtain ⟨i1, i2, i3, i4, i5, i6⟩ := hinv
    have hθeq : st5.sleepTimeThreshold = stp.sleepTimeThreshold := by rw [hAB]
    have hcore := phase6Loop_core fuel2 st5 stp.sleepTimeThreshold comps st5 [] st6 newB R
      hq i1 i2 i3 (fun c hc => Or.inl ((i4 c).mp hc)) (fun r _ c _ => rfl) hθeq
      List.nodup_nil (fun c hc => absurd hc (List.not_mem_nil c))
      (fun c hc => absurd hc (List.not_mem_nil c))
    obtain ⟨_, _, hsleep⟩ := hcore
    rw [← hst'] at hb ⊢
    exact hsleep b hb

/-- Witness for the amended C2: sleeping body 0 of the empty base space
zeroes its idle clock, while the `stLoneIdle` step leaves every sleeping
body with idle time at least the threshold 4. -/
theorem sleeping_idleTime_characterisation_witness :
    (cpBodySleepWithGroup 6 baseSt 0 none).elim False (fun st1 =>
      (cpSpaceProcessComponents 10 stLoneIdle 1).elim False (fun stp' =>
        (st1.bodyOf 0).node.idleTime = 0 ∧
        ∀ b, (stp'.bodyOf b).node.next.isSome = true →
          stLoneIdle.sleepTimeThreshold ≤ (stp'.bodyOf b).node.idleTime)) := by
  have hs1 : (cpBodySleepWithGroup 6 baseSt 0 none).isSome = true := by decide
  have hs2 : (cpSpaceProcessComponents 10 stLoneIdle 1).isSome = true := by decide
  match h1 : cpBodySleepWithGroup 6 baseSt 0 none,
        h2 : cpSpaceProcessComponents 10 stLoneIdle 1 with
  | some st1, some stp' =>
    simp only [Option.elim]
    exact sleeping_idleTime_characterisation 6 baseSt 0 none st1 h1 rfl
      10 stLoneIdle 1 stp'
      (fun x => by by_cases hx : x = 0 <;> simp [stLoneIdle, baseBody, baseSt, hx]) h2
  | some _, none => rw [h2] at hs2; cases hs2
  | none, _ => rw [h1] at hs1; cases hs1

/-! ## Root evolution through the forest-building phases (for C6) -/

theorem totalRoots_of_parent_none (st : St)
    (hpar : ∀ x, (st.bodyOf x).node.parent = none) : TotalRoots st :=
  fun b => ⟨b, rootsTo_self (hpar b)⟩

theorem totalRoots_evolves {st st1 : St} {f : BodyId → BodyId}
    (he : Evolves st st1 f) (htr : TotalRoots st) : TotalRoots st1 := by
  intro b
  obtain ⟨r, hr⟩ := htr b
  exact ⟨f r, he b r hr⟩

theorem evolves_backward {st st1 : St} {f : BodyId → BodyId}
    (he : Evolves st st1 f) (htr : TotalRoots st) :
    ∀ b y, RootsTo st1 b y → ∃ r, RootsTo st b r ∧ y = f r := by
  intro b y hy
  obtain ⟨r, hr⟩ := htr b
  exact ⟨r, hr, rootsTo_det hy (he b r hr)⟩

theorem evolves_id_backward {st st1 : St}
    (he : ∀ x r, RootsTo st x r → RootsTo st1 x r) (htr : TotalRoots st) :
    ∀ x r, RootsTo st1 x r → RootsTo st x r := by
  intro x r h1
  obtain ⟨r0, hr0⟩ := htr x
  rw [rootsTo_det h1 (he x r0 hr0)]
  exact hr0

/-- `componentNodeMerge` on two parentless roots maps roots through a
function that identifies the two roots and whose image stays inside
`{r, aRoot, bRoot}`. -/
theorem componentNodeMerge_evolves (st : St) (aR bR : BodyId)
    (ha : (st.bodyOf aR).node.parent = none)
    (hb : (st.bodyOf bR).node.parent = none) :
    ∃ f : BodyId → BodyId, f aR = f bR ∧
      Evolves st (componentNodeMerge st aR bR) f ∧
      (∀ r, f r = r ∨ f r = aR ∨ f r = bR) := by
  by_cases h1 : (st.bodyOf aR).node.rank < (st.bodyOf bR).node.rank
  · have hne : aR ≠ bR := fun hc => absurd h1 (by rw [hc]; exact lt_irrefl _)
    have hst : componentNodeMerge st aR bR
        = updBody st aR (fun bo => { bo with node := { bo.node with parent := some bR } }) := by
      unfold componentNodeMerge
      rw [if_pos h1]
    refine ⟨fun r => if r = aR then bR else r, by simp [Ne.symm hne], ?_, ?_⟩
    · intro x r hx
      rw [hst]
      exact attach_rootsTo st _ aR bR ha hb hne (by simp [updBody])
        (fun y hy => by simp [updBody, hy]) x r hx
    · intro r
      by_cases hr : r = aR <;> simp [hr]
  · by_cases h2 : (st.bodyOf bR).node.rank < (st.bodyOf aR).node.rank
    · have hne : bR ≠ aR := fun hc => absurd h2 (by rw [hc]; exact lt_irrefl _)
      have hst : componentNodeMerge st aR bR
          = updBody st bR (fun bo => { bo with node := { bo.node with parent := some aR } }) := by
        unfold componentNodeMerge
        rw [if_neg h1, if_pos h2]
      refine ⟨fun r => if r = bR then aR else r, by simp [Ne.symm hne], ?_, ?_⟩
      · intro x r hx
        rw [hst]
        exact attach_rootsTo st _ bR aR hb ha hne (by simp [updBody])
          (fun y hy => by simp [updBody, hy]) x r hx
      · intro r
        by_cases hr : r = bR <;> simp [hr]
    · by_cases h3 : aR = bR
      · subst h3
        have hst : componentNodeMerge st aR aR = st := by
          unfold componentNodeMerge
          rw [if_neg h1, if_neg h2, if_neg (by simp)]
        refine ⟨id, rfl, ?_, fun r => Or.inl rfl⟩
        intro x r hx
        rw [hst]
        exact hx
      · have hst : componentNodeMerge st aR bR
            = updBody (updBody st bR
                (fun bo => { bo with node := { bo.node with parent := some aR } })) aR
                (fun bo => { bo with node := { bo.node with rank := bo.node.rank + 1 } }) := by
          unfold componentNodeMerge
          rw [if_neg h1, if_neg h2, if_pos h3]
        refine ⟨fun r => if r = bR then aR else r, by simp [h3], ?_, ?_⟩
        · intro x r hx
          rw [hst]
          refine attach_rootsTo st _ bR aR hb ha (Ne.symm h3) ?_ ?_ x r hx
          · simp [updBody, Ne.symm h3]
          · intro y hy
            by_cases hya : y = aR
            · subst hya
              simp [updBody, h3]
            · simp [updBody, hy, hya]
        · intro r
          by_cases hr : r = bR <;> simp [hr]

/-- The abstract `RogueInv` preservation step: a state change that evolves
roots through `f`, moves at most the two endpoint roots, preserves flags,
keeps zeroed idle clocks at zero, collects every rogue endpoint, and whose
new collectees come with root-sharing idle-zero companions. -/
theorem rogueInv_evolve (B : List BodyId) (st st1 : St) (rg newrg : List BodyId)
    (f : BodyId → BodyId) (a b aRoot bRoot : BodyId)
    (he : Evolves st st1 f)
    (himg : ∀ r, f r = r ∨ f r = aRoot ∨ f r = bRoot)
    (hra : RootsTo st a aRoot) (hrb : RootsTo st b bRoot)
    (hflags : ∀ x, (st1.bodyOf x).rogueFlag = (st.bodyOf x).rogueFlag)
    (hidle0 : ∀ x, (st.bodyOf x).node.idleTime = 0 → (st1.bodyOf x).node.idleTime = 0)
    (hendrogue : ∀ e, (e = a ∨ e = b) → (st.bodyOf e).rogueFlag = true → e ∈ rg ++ newrg)
    (hnewflags : ∀ g ∈ newrg, (st.bodyOf g).rogueFlag = true)
    (hcompnew : ∀ g ∈ newrg, ∃ x n, RootsTo st1 g x ∧ RootsTo st1 n x ∧
      (st1.bodyOf n).node.idleTime = 0 ∧ (n ∈ B ∨ n ∈ rg ++ newrg))
    (hinv : RogueInv B st rg) :
    RogueInv B st1 (rg ++ newrg) := by
  obtain ⟨htr, hiso, hcomp⟩ := hinv
  refine ⟨totalRoots_evolves he htr, ?_, ?_⟩
  · intro g hgflag1 hgnot c hc
    have hgflag : (st.bodyOf g).rogueFlag = true := by rw [← hflags g]; exact hgflag1
    have hgnotrg : g ∉ rg := fun hc2 => hgnot (List.mem_append_left _ hc2)
    obtain ⟨r, hr, hgf⟩ := evolves_backward he htr c g hc
    rcases himg r with h1 | h1 | h1
    · rw [h1] at hgf
      rw [← hgf] at hr
      exact hiso g hgflag hgnotrg c hr
    · exfalso
      rw [h1] at hgf
      rw [← hgf] at hra
      have hag : a = g := hiso g hgflag hgnotrg a hra
      have : a ∈ rg ++ newrg := hendrogue a (Or.inl rfl) (by rw [hag]; exact hgflag)
      rw [hag] at this
      exact hgnot this
    · exfalso
      rw [h1] at hgf
      rw [← hgf] at hrb
      have hbg : b = g := hiso g hgflag hgnotrg b hrb
      have : b ∈ rg ++ newrg := hendrogue b (Or.inr rfl) (by rw [hbg]; exact hgflag)
      rw [hbg] at this
      exact hgnot this
  · intro g hg
    rcases List.mem_append.mp hg with hg | hg
    · obtain ⟨hgf, x, n, h1, h2, h3, h4⟩ := hcomp g hg
      refine ⟨by rw [hflags g]; exact hgf, f x, n, he g x h1, he n x h2, hidle0 n h3, ?_⟩
      rcases h4 with h4 | h4
      · exact Or.inl h4
      · exact Or.inr (List.mem_append_left _ h4)
    · refine ⟨by rw [hflags g]; exact hnewflags g hg, ?_⟩
      exact hcompnew g hg

/-- One `mergeBodies` call preserves `RogueInv`, provided no body sleeps
and each endpoint is static, rogue, or resident in `B`. -/
theorem mergeBodies_rogueInv (B : List BodyId) (fuel : Nat) (st : St) (rg : List BodyId)
    (a b : BodyId) (st1 : St) (rg1 : List BodyId)
    (hnone : ∀ x, (st.bodyOf x).node.next = none)
    (hendA : cpBodyIsStatic (st.bodyOf a) = true ∨ (st.bodyOf a).rogueFlag = true ∨ a ∈ B)
    (hendB : cpBodyIsStatic (st.bodyOf b) = true ∨ (st.bodyOf b).rogueFlag = true ∨ b ∈ B)
    (h : mergeBodies fuel st rg a b = some (st1, rg1))
    (hinv : RogueInv B st rg) :
    RogueInv B st1 rg1 := by
  unfold mergeBodies at h
  split at h
  · simp only [Option.some.injEq, Prod.mk.injEq] at h
    obtain ⟨h1, h2⟩ := h
    subst h1; subst h2
    exact hinv
  · rename_i hstatic
    have hsa : cpBodyIsStatic (st.bodyOf a) = false := by
      cases hca : cpBodyIsStatic (st.bodyOf a)
      · rfl
      · exact absurd (by rw [hca]; rfl) hstatic
    have hsb : cpBodyIsStatic (st.bodyOf b) = false := by
      cases hcb : cpBodyIsStatic (st.bodyOf b)
      · rfl
      · exact absurd (by rw [hcb, Bool.or_true]) hstatic
    have haB : a ∈ B ∨ (st.bodyOf a).rogueFlag = true := by
      rcases hendA with h1 | h1 | h1
      · rw [hsa] at h1; cases h1
      · exact Or.inr h1
      · exact Or.inl h1
    have hbB : b ∈ B ∨ (st.bodyOf b).rogueFlag = true := by
      rcases hendB with h1 | h1 | h1
      · rw [hsb] at h1; cases h1
      · exact Or.inr h1
      · exact Or.inl h1
    simp only [Option.bind_eq_bind, Option.bind_eq_some] at h
    obtain ⟨⟨stA, aRoot⟩, hfa, h⟩ := h
    obtain ⟨⟨stB, bRoot⟩, hfb, h⟩ := h
    dsimp only at hfb h
    obtain ⟨htr, hiso, hcomp⟩ := hinv
    have hFA := componentNodeRoot_body_frame fuel st a stA aRoot hfa
    have hFB := componentNodeRoot_body_frame fuel stA b stB bRoot hfb
    have hN2 : ∀ x, (stB.bodyOf x).node.next = none := fun x => by
      rw [(hFB x).1, (hFA x).1]; exact hnone x
    have hFlags2 : ∀ x, (stB.bodyOf x).rogueFlag = (st.bodyOf x).rogueFlag := fun x =>
      ((hFB x).2.2.2.1).trans ((hFA x).2.2.2.1)
    have hIdle2 : ∀ x, (stB.bodyOf x).node.idleTime = (st.bodyOf x).node.idleTime :=
      fun x => ((hFB x).2.1).trans ((hFA x).2.1)
    have hsA : cpBodyIsSleeping (stB.bodyOf aRoot) = false := by
      unfold cpBodyIsSleeping; rw [hN2 aRoot]; rfl
    have hsB2 : cpBodyIsSleeping (stB.bodyOf bRoot) = false := by
      unfold cpBodyIsSleeping; rw [hN2 bRoot]; rfl
    rw [hsA, hsB2] at h
    simp only [Bool.or_self, Bool.false_eq_true, if_false, Option.some_bind] at h
    have hra : RootsTo st a aRoot := componentNodeRoot_returns_root fuel st a stA aRoot hfa
    have heA : ∀ x r, RootsTo st x r → RootsTo stA x r :=
      componentNodeRoot_rootsTo fuel st a stA aRoot hfa
    have heB : ∀ x r, RootsTo stA x r → RootsTo stB x r :=
      componentNodeRoot_rootsTo fuel stA b stB bRoot hfb
    have hrbA : RootsTo stA b bRoot := componentNodeRoot_returns_root fuel stA b stB bRoot hfb
    have hrb : RootsTo st b bRoot := by
      obtain ⟨rb0, hrb0⟩ := htr b
      rw [rootsTo_det hrbA (heA b rb0 hrb0)]
      exact hrb0
    have hpaA : (stA.bodyOf aRoot).node.parent = none := rootsTo_parent_none (heA a aRoot hra)
    have hpaB : (stB.bodyOf aRoot).node.parent = none :=
      componentNodeRoot_parent_none_preserved fuel stA b stB bRoot hfb aRoot hpaA
    have hpbB : (stB.bodyOf bRoot).node.parent = none := rootsTo_parent_none (heB b bRoot hrbA)
    have hcb : ∀ (z : St) (c : BodyId), cpBodyIsRogue ((updBody z c
        (fun bo => { bo with node := { bo.node with idleTime := 0 } })).bodyOf b)
        = cpBodyIsRogue (z.bodyOf b) := by
      intro z c
      unfold cpBodyIsRogue updBody
      dsimp only
      by_cases hx : b = c <;> simp [hx]
    by_cases hga : cpBodyIsRogue (stB.bodyOf a) = true
    · rw [if_pos hga] at h
      dsimp only at h
      rw [hcb stB b] at h
      have hgaSt : (st.bodyOf a).rogueFlag = true := by rw [← hFlags2 a]; exact hga
      by_cases hgb : cpBodyIsRogue (stB.bodyOf b) = true
      · -- both endpoints rogue
        rw [if_pos hgb] at h
        dsimp only at h
        simp only [Option.some.injEq, Prod.mk.injEq] at h
        obtain ⟨hst, hrg⟩ := h
        have hgbSt : (st.bodyOf b).rogueFlag = true := by rw [← hFlags2 b]; exact hgb
        obtain ⟨hu1, _⟩ := updIdleZero_facts stB b
        obtain ⟨hu2, _⟩ := updIdleZero_facts (updBody stB b
          (fun bo => { bo with node := { bo.node with idleTime := 0 } })) a
        obtain ⟨hm, _⟩ := componentNodeMerge_frame (updBody (updBody stB b
          (fun bo => { bo with node := { bo.node with idleTime := 0 } })) a
          (fun bo => { bo with node := { bo.node with idleTime := 0 } })) aRoot bRoot
        rw [hst] at hm
        have hZpar : ∀ x, (((updBody (updBody stB b
            (fun bo => { bo with node := { bo.node with idleTime := 0 } })) a
            (fun bo => { bo with node := { bo.node with idleTime := 0 } })).bodyOf x).node.parent)
            = (stB.bodyOf x).node.parent := by
          intro x
          by_cases hx1 : x = a
          · by_cases hx2 : x = b
            · have hab : a = b := by rw [← hx1, hx2]
              subst hab
              simp [updBody, hx1]
            · have hab : a ≠ b := fun hc => hx2 (hx1.trans hc)
              simp [updBody, hx1, hx2, hab]
          · by_cases hx2 : x = b
            · have hba : b ≠ a := fun hc => hx1 (hx2.trans hc)
              simp [updBody, hx1, hx2, hba, Ne.symm hba]
            · simp [updBody, hx1, hx2]
        obtain ⟨f, hfab, hev, himg⟩ := componentNodeMerge_evolves _ aRoot bRoot
          (by rw [hZpar aRoot]; exact hpaB) (by rw [hZpar bRoot]; exact hpbB)
        have he : Evolves st st1 f := by
          intro x r hx
          have h2 := hev x r (rootsTo_congr stB _ hZpar (heB x r (heA x r hx)))
          rw [hst] at h2
          exact h2
        have hflags : ∀ x, (st1.bodyOf x).rogueFlag = (st.bodyOf x).rogueFlag := by
          intro x
          rw [(hm x).2.2.1, (hu2 x).2.1, (hu1 x).2.1]
          exact hFlags2 x
        have hidle0 : ∀ x, (st.bodyOf x).node.idleTime = 0 →
            (st1.bodyOf x).node.idleTime = 0 := by
          intro x hx
          rw [(hm x).2.1]
          rcases (hu2 x).2.2.2 with h2 | h2
          · rw [h2]
            rcases (hu1 x).2.2.2 with h1 | h1
            · rw [h1, hIdle2 x]; exact hx
            · exact h1
          · exact h2
        have hidleB0 : (st1.bodyOf b).node.idleTime = 0 := by
          rw [(hm b).2.1]
          by_cases hab : b = a <;> simp [updBody, hab]
        have hidleA0 : (st1.bodyOf a).node.idleTime = 0 := by
          rw [(hm a).2.1]
          simp [updBody]
        rw [← hrg, List.append_assoc]
        refine rogueInv_evolve B st st1 rg ([a] ++ [b]) f a b aRoot bRoot he himg hra hrb
          hflags hidle0 ?_ ?_ ?_ ⟨htr, hiso, hcomp⟩
        · intro e hea _
          rcases hea with hea | hea
          · subst hea
            exact List.mem_append_right _ (List.mem_append_left _ (List.mem_singleton.mpr rfl))
          · subst hea
            exact List.mem_append_right _ (List.mem_append_right _ (List.mem_singleton.mpr rfl))
        · intro g hg
          rcases List.mem_append.mp hg with hg | hg
          · rw [List.mem_singleton.mp hg]; exact hgaSt
          · rw [List.mem_singleton.mp hg]; exact hgbSt
        · intro g hg
          rcases List.mem_append.mp hg with hg | hg
          · rw [List.mem_singleton.mp hg]
            refine ⟨f aRoot, b, he a aRoot hra, ?_, hidleB0, ?_⟩
            · rw [hfab]; exact he b bRoot hrb
            · exact Or.inr (List.mem_append_right _
                (List.mem_append_right _ (List.mem_singleton.mpr rfl)))
          · rw [List.mem_singleton.mp hg]
            refine ⟨f bRoot, a, he b bRoot hrb, ?_, hidleA0, ?_⟩
            · rw [← hfab]; exact he a aRoot hra
            · exact Or.inr (List.mem_append_right _
                (List.mem_append_left _ (List.mem_singleton.mpr rfl)))
      · -- only a rogue
        rw [if_neg hgb] at h
        dsimp only at h
        simp only [Option.some.injEq, Prod.mk.injEq] at h
        obtain ⟨hst, hrg⟩ := h
        have hgbSt : (st.bodyOf b).rogueFlag = false := by
          rw [← hFlags2 b]
          cases hc : (stB.bodyOf b).rogueFlag
          · rfl
          · exact absurd (by unfold cpBodyIsRogue; rw [hc]) hgb
        have hbInB : b ∈ B := by
          rcases hbB with h1 | h1
          · exact h1
          · rw [hgbSt] at h1; cases h1
        obtain ⟨hu1, _⟩ := updIdleZero_facts stB b
        obtain ⟨hm, _⟩ := componentNodeMerge_frame (updBody stB b
          (fun bo => { bo with node := { bo.node with idleTime := 0 } })) aRoot bRoot
        rw [hst] at hm
        have hZpar : ∀ x, (((updBody stB b
            (fun bo => { bo with node := { bo.node with idleTime := 0 } })).bodyOf x).node.parent)
            = (stB.bodyOf x).node.parent := by
          intro x
          by_cases hx : x = b <;> simp [updBody, hx]
        obtain ⟨f, hfab, hev, himg⟩ := componentNodeMerge_evolves _ aRoot bRoot
          (by rw [hZpar aRoot]; exact hpaB) (by rw [hZpar bRoot]; exact hpbB)
        have he : Evolves st st1 f := by
          intro x r hx
          have h2 := hev x r (rootsTo_congr stB _ hZpar (heB x r (heA x r hx)))
          rw [hst] at h2
          exact h2
        have hflags : ∀ x, (st1.bodyOf x).rogueFlag = (st.bodyOf x).rogueFlag := by
          intro x
          rw [(hm x).2.2.1, (hu1 x).2.1]
          exact hFlags2 x
        have hidle0 : ∀ x, (st.bodyOf x).node.idleTime = 0 →
            (st1.bodyOf x).node.idleTime = 0 := by
          intro x hx
          rw [(hm x).2.1]
          rcases (hu1 x).2.2.2 with h1 | h1
          · rw [h1, hIdle2 x]; exact hx
          · exact h1
        have hidleB0 : (st1.bodyOf b).node.idleTime = 0 := by
          rw [(hm b).2.1]
          simp [updBody]
        rw [← hrg]
        refine rogueInv_evolve B st st1 rg [a] f a b aRoot bRoot he himg hra hrb
          hflags hidle0 ?_ ?_ ?_ ⟨htr, hiso, hcomp⟩
        · intro e hea heflag
          rcases hea with hea | hea
          · subst hea
            exact List.mem_append_right _ (List.mem_singleton.mpr rfl)
          · subst hea
            rw [hgbSt] at heflag
            cases heflag
        · intro g hg
          rw [List.mem_singleton.mp hg]; exact hgaSt
        · intro g hg
          rw [List.mem_singleton.mp hg]
          refine ⟨f aRoot, b, he a aRoot hra, ?_, hidleB0, Or.inl hbInB⟩
          rw [hfab]; exact he b bRoot hrb
    · rw [if_neg hga] at h
      dsimp only at h
      have hgaSt : (st.bodyOf a).rogueFlag = false := by
        rw [← hFlags2 a]
        cases hc : (stB.bodyOf a).rogueFlag
        · rfl
        · exact absurd (by unfold cpBodyIsRogue; rw [hc]) hga
      by_cases hgb : cpBodyIsRogue (stB.bodyOf b) = true
      · -- only b rogue
        rw [if_pos hgb] at h
        dsimp only at h
        simp only [Option.some.injEq, Prod.mk.injEq] at h
        obtain ⟨hst, hrg⟩ := h
        have hgbSt : (st.bodyOf b).rogueFlag = true := by rw [← hFlags2 b]; exact hgb
        have haInB : a ∈ B := by
          rcases haB with h1 | h1
          · exact h1
          · rw [hgaSt] at h1; cases h1
        obtain ⟨hu1, _⟩ := updIdleZero_facts stB a
        obtain ⟨hm, _⟩ := componentNodeMerge_frame (updBody stB a
          (fun bo => { bo with node := { bo.node with idleTime := 0 } })) aRoot bRoot
        rw [hst] at hm
        have hZpar : ∀ x, (((updBody stB a
            (fun bo => { bo with node := { bo.node with idleTime := 0 } })).bodyOf x).node.parent)
            = (stB.bodyOf x).node.parent := by
          intro x
          by_cases hx : x = a <;> simp [updBody, hx]
        obtain ⟨f, hfab, hev, himg⟩ := componentNodeMerge_evolves _ aRoot bRoot
          (by rw [hZpar aRoot]; exact hpaB) (by rw [hZpar bRoot]; exact hpbB)
        have he : Evolves st st1 f := by
          intro x r hx
          have h2 := hev x r (rootsTo_congr stB _ hZpar (heB x r (heA x r hx)))
          rw [hst] at h2
          exact h2
        have hflags : ∀ x, (st1.bodyOf x).rogueFlag = (st.bodyOf x).rogueFlag := by
          intro x
          rw [(hm x).2.2.1, (hu1 x).2.1]
          exact hFlags2 x
        have hidle0 : ∀ x, (st.bodyOf x).node.idleTime = 0 →
            (st1.bodyOf x).node.idleTime = 0 := by
          intro x hx
          rw [(hm x).2.1]
          rcases (hu1 x).2.2.2 with h1 | h1
          · rw [h1, hIdle2 x]; exact hx
          · exact h1
        have hidleA0 : (st1.bodyOf a).node.idleTime = 0 := by
          rw [(hm a).2.1]
          simp [updBody]
        rw [← hrg]
        refine rogueInv_evolve B st st1 rg [b] f a b aRoot bRoot he himg hra hrb
          hflags hidle0 ?_ ?_ ?_ ⟨htr, hiso, hcomp⟩
        · intro e hea heflag
          rcases hea with hea | hea
          · subst hea
            rw [hgaSt] at heflag
            cases heflag
          · subst hea
            exact List.mem_append_right _ (List.mem_singleton.mpr rfl)
        · intro g hg
          rw [List.mem_singleton.mp hg]; exact hgbSt
        · intro g hg
          rw [List.mem_singleton.mp hg]
          refine ⟨f bRoot, a, he b bRoot hrb, ?_, hidleA0, Or.inl haInB⟩
          rw [← hfab]; exact he a aRoot hra
      · -- neither rogue
        rw [if_neg hgb] at h
        dsimp only at h
        simp only [Option.some.injEq, Prod.mk.injEq] at h
        obtain ⟨hst, hrg⟩ := h
        have hgbSt : (st.bodyOf b).rogueFlag = false := by
          rw [← hFlags2 b]
          cases hc : (stB.bodyOf b).rogueFlag
          · rfl
          · exact absurd (by unfold cpBodyIsRogue; rw [hc]) hgb
        obtain ⟨hm, _⟩ := componentNodeMerge_frame stB aRoot bRoot
        rw [hst] at hm
        obtain ⟨f, hfab, hev, himg⟩ := componentNodeMerge_evolves stB aRoot bRoot hpaB hpbB
        have he : Evolves st st1 f := by
          intro x r hx
          have h2 := hev x r (heB x r (heA x r hx))
          rw [hst] at h2
          exact h2
        have hflags : ∀ x, (st1.bodyOf x).rogueFlag = (st.bodyOf x).rogueFlag := by
          intro x
          rw [(hm x).2.2.1]
          exact hFlags2 x
        have hidle0 : ∀ x, (st.bodyOf x).node.idleTime = 0 →
            (st1.bodyOf x).node.idleTime = 0 := by
          intro x hx
          rw [(hm x).2.1, hIdle2 x]
          exact hx
        have hrg2 : rg1 = rg ++ [] := by rw [← hrg, List.append_nil]
        rw [hrg2]
        refine rogueInv_evolve B st st1 rg [] f a b aRoot bRoot he himg hra hrb
          hflags hidle0 ?_ ?_ ?_ ⟨htr, hiso, hcomp⟩
        · intro e hea heflag
          rcases hea with hea | hea
          · subst hea
            rw [hgaSt] at heflag
            cases heflag
          · subst hea
            rw [hgbSt] at heflag
            cases heflag
        · intro g hg
          exact absurd hg (List.not_mem_nil g)
        · intro g hg
          exact absurd hg (List.not_mem_nil g)

theorem cpBodyPushArbiter_arbPts (st : St) (body : BodyId) (arbId : ArbId) :
    ∀ j, ((cpBodyPushArbiter st body arbId).arbOf j).a = (st.arbOf j).a ∧
         ((cpBodyPushArbiter st body arbId).arbOf j).b = (st.arbOf j).b := by
  intro j
  unfold cpBodyPushArbiter updArb updBody
  dsimp only
  split
  · by_cases hj : j = arbId <;> simp [hj]
  · exact ⟨rfl, rfl⟩

/-- `RogueInv` only looks at component nodes and rogue flags. -/
theorem rogueInv_congr (B : List BodyId) (st st1 : St) (rg : List BodyId)
    (hnode : ∀ x, (st1.bodyOf x).node = (st.bodyOf x).node)
    (hflag : ∀ x, (st1.bodyOf x).rogueFlag = (st.bodyOf x).rogueFlag)
    (hinv : RogueInv B st rg) : RogueInv B st1 rg := by
  obtain ⟨htr, hiso, hcomp⟩ := hinv
  have hpar : ∀ x, (st1.bodyOf x).node.parent = (st.bodyOf x).node.parent :=
    fun x => by rw [hnode x]
  have hparR : ∀ x, (st.bodyOf x).node.parent = (st1.bodyOf x).node.parent :=
    fun x => (hpar x).symm
  refine ⟨?_, ?_, ?_⟩
  · intro c
    obtain ⟨r, hr⟩ := htr c
    exact ⟨r, rootsTo_congr st st1 hpar hr⟩
  · intro g hg hgnot c hc
    exact hiso g (by rw [← hflag g]; exact hg) hgnot c (rootsTo_congr st1 st hparR hc)
  · intro g hg
    obtain ⟨h1, x, n, h2, h3, h4, h5⟩ := hcomp g hg
    refine ⟨by rw [hflag g]; exact h1, x, n, rootsTo_congr st st1 hpar h2,
      rootsTo_congr st st1 hpar h3, ?_, h5⟩
    rw [hnode n]
    exact h4

/-- Phase 3 preserves `RogueInv` if every arbiter endpoint is static,
rogue, or resident in `B`. -/
theorem phase3Loop_rogueInv (B : List BodyId) (fuel : Nat) :
    ∀ (arbs : List ArbId) (st : St) (rg : List BodyId) (st1 : St) (rg1 : List BodyId),
      phase3Loop fuel arbs st rg = some (st1, rg1) →
      (∀ x, (st.bodyOf x).node.next = none) →
      (∀ i ∈ arbs, ∀ e,
        (e = st.shapeBody (st.arbOf i).a ∨ e = st.shapeBody (st.arbOf i).b) →
        cpBodyIsStatic (st.bodyOf e) = true ∨ (st.bodyOf e).rogueFlag = true ∨ e ∈ B) →
      RogueInv B st rg →
      RogueInv B st1 rg1 := by
  intro arbs
  induction arbs with
  | nil =>
    intro st rg st1 rg1 h _ _ hinv
    simp only [phase3Loop, Option.some.injEq, Prod.mk.injEq] at h
    obtain ⟨h1, h2⟩ := h
    subst h1; subst h2
    exact hinv
  | cons aid rest ih =>
    intro st rg st1 rg1 h hnone hend hinv
    simp only [phase3Loop, Option.bind_eq_bind, Option.bind_eq_some] at h
    obtain ⟨⟨stM, rgM⟩, hmerge, h⟩ := h
    dsimp only at h
    have hinvM : RogueInv B stM rgM :=
      mergeBodies_rogueInv B fuel st rg _ _ stM rgM hnone
        (hend aid (List.mem_cons_self _ _) _ (Or.inl rfl))
        (hend aid (List.mem_cons_self _ _) _ (Or.inr rfl))
        hmerge hinv
    obtain ⟨hMn, hMf, hMi, _, hMB⟩ := mergeBodies_run fuel st rg _ _ stM rgM hnone hmerge
    obtain ⟨hP1, hP1B⟩ :=
      cpBodyPushArbiter_frame stM (stM.shapeBody (stM.arbOf aid).a) aid
    obtain ⟨hP2, hP2B⟩ :=
      cpBodyPushArbiter_frame (cpBodyPushArbiter stM (stM.shapeBody (stM.arbOf aid).a) aid)
        ((cpBodyPushArbiter stM (stM.shapeBody (stM.arbOf aid).a) aid).shapeBody
          ((cpBodyPushArbiter stM (stM.shapeBody (stM.arbOf aid).a) aid).arbOf aid).b) aid
    have hnoneP2 : ∀ x, (((cpBodyPushArbiter
        (cpBodyPushArbiter stM (stM.shapeBody (stM.arbOf aid).a) aid)
        ((cpBodyPushArbiter stM (stM.shapeBody (stM.arbOf aid).a) aid).shapeBody
          ((cpBodyPushArbiter stM (stM.shapeBody (stM.arbOf aid).a) aid).arbOf aid).b)
        aid)).bodyOf x).node.next = none := by
      intro x
      rw [(hP2 x).1, (hP1 x).1]
      exact hMn x
    have hinvP2 : RogueInv B (cpBodyPushArbiter
        (cpBodyPushArbiter stM (stM.shapeBody (stM.arbOf aid).a) aid)
        ((cpBodyPushArbiter stM (stM.shapeBody (stM.arbOf aid).a) aid).shapeBody
          ((cpBodyPushArbiter stM (stM.shapeBody (stM.arbOf aid).a) aid).arbOf aid).b)
        aid) rgM := by
      refine rogueInv_congr B _ _ rgM ?_ ?_
        (rogueInv_congr B _ _ rgM (fun x => (hP1 x).1) (fun x => (hP1 x).2.1) hinvM)
      · exact fun x => (hP2 x).1
      · exact fun x => (hP2 x).2.1
    have hcomposite := frameAB_trans (frameAB_trans (frameB_to_AB hMB) hP1B) hP2B
    have hMarb : stM.arbOf = st.arbOf := by rw [hMB]
    have hsb2 : (cpBodyPushArbiter
        (cpBodyPushArbiter stM (stM.shapeBody (stM.arbOf aid).a) aid)
        ((cpBodyPushArbiter stM (stM.shapeBody (stM.arbOf aid).a) aid).shapeBody
          ((cpBodyPushArbiter stM (stM.shapeBody (stM.arbOf aid).a) aid).arbOf aid).b)
        aid).shapeBody = st.shapeBody := by
      rw [hcomposite]
    have hpts : ∀ j, ((cpBodyPushArbiter
        (cpBodyPushArbiter stM (stM.shapeBody (stM.arbOf aid).a) aid)
        ((cpBodyPushArbiter stM (stM.shapeBody (stM.arbOf aid).a) aid).shapeBody
          ((cpBodyPushArbiter stM (stM.shapeBody (stM.arbOf aid).a) aid).arbOf aid).b)
        aid).arbOf j).a = (st.arbOf j).a ∧
        ((cpBodyPushArbiter
        (cpBodyPushArbiter stM (stM.shapeBody (stM.arbOf aid).a) aid)
        ((cpBodyPushArbiter stM (stM.shapeBody (stM.arbOf aid).a) aid).shapeBody
          ((cpBodyPushArbiter stM (stM.shapeBody (stM.arbOf aid).a) aid).arbOf aid).b)
        aid).arbOf j).b = (st.arbOf j).b := by
      intro j
      obtain ⟨p2a, p2b⟩ := cpBodyPushArbiter_arbPts
        (cpBodyPushArbiter stM (stM.shapeBody (stM.arbOf aid).a) aid) _ aid j
      obtain ⟨p1a, p1b⟩ := cpBodyPushArbiter_arbPts stM _ aid j
      rw [hMarb] at p1a p1b
      exact ⟨p2a.trans p1a, p2b.trans p1b⟩
    have hflagsP : ∀ x, ((cpBodyPushArbiter
        (cpBodyPushArbiter stM (stM.shapeBody (stM.arbOf aid).a) aid)
        ((cpBodyPushArbiter stM (stM.shapeBody (stM.arbOf aid).a) aid).shapeBody
          ((cpBodyPushArbiter stM (stM.shapeBody (stM.arbOf aid).a) aid).arbOf aid).b)
        aid).bodyOf x).staticFlag = (st.bodyOf x).staticFlag ∧
        ((cpBodyPushArbiter
        (cpBodyPushArbiter stM (stM.shapeBody (stM.arbOf aid).a) aid)
        ((cpBodyPushArbiter stM (stM.shapeBody (stM.arbOf aid).a) aid).shapeBody
          ((cpBodyPushArbiter stM (stM.shapeBody (stM.arbOf aid).a) aid).arbOf aid).b)
        aid).bodyOf x).rogueFlag = (st.bodyOf x).rogueFlag := by
      intro x
      constructor
      · rw [(hP2 x).2.2, (hP1 x).2.2]
        exact (hMf x).2
      · rw [(hP2 x).2.1, (hP1 x).2.1]
        exact (hMf x).1
    have hend2 : ∀ i ∈ rest, ∀ e,
        (e = (cpBodyPushArbiter
          (cpBodyPushArbiter stM (stM.shapeBody (stM.arbOf aid).a) aid)
          ((cpBodyPushArbiter stM (stM.shapeBody (stM.arbOf aid).a) aid).shapeBody
            ((cpBodyPushArbiter stM (stM.shapeBody (stM.arbOf aid).a) aid).arbOf aid).b)
          aid).shapeBody ((cpBodyPushArbiter
          (cpBodyPushArbiter stM (stM.shapeBody (stM.arbOf aid).a) aid)
          ((cpBodyPushArbiter stM (stM.shapeBody (stM.arbOf aid).a) aid).shapeBody
            ((cpBodyPushArbiter stM (stM.shapeBody (stM.arbOf aid).a) aid).arbOf aid).b)
          aid).arbOf i).a ∨
         e = (cpBodyPushArbiter
          (cpBodyPushArbiter stM (stM.shapeBody (stM.arbOf aid).a) aid)
          ((cpBodyPushArbiter stM (stM.shapeBody (stM.arbOf aid).a) aid).shapeBody
            ((cpBodyPushArbiter stM (stM.shapeBody (stM.arbOf aid).a) aid).arbOf aid).b)
          aid).shapeBody ((cpBodyPushArbiter
          (cpBodyPushArbiter stM (stM.shapeBody (stM.arbOf aid).a) aid)
          ((cpBodyPushArbiter stM (stM.shapeBody (stM.arbOf aid).a) aid).shapeBody
            ((cpBodyPushArbiter stM (stM.shapeBody (stM.arbOf aid).a) aid).arbOf aid).b)
          aid).arbOf i).b) →
        cpBodyIsStatic ((cpBodyPushArbiter
          (cpBodyPushArbiter stM (stM.shapeBody (stM.arbOf aid).a) aid)
          ((cpBodyPushArbiter stM (stM.shapeBody (stM.arbOf aid).a) aid).shapeBody
            ((cpBodyPushArbiter stM (stM.shapeBody (stM.arbOf aid).a) aid).arbOf aid).b)
          aid).bodyOf e) = true ∨
        ((cpBodyPushArbiter
          (cpBodyPushArbiter stM (stM.shapeBody (stM.arbOf aid).a) aid)
          ((cpBodyPushArbiter stM (stM.shapeBody (stM.arbOf aid).a) aid).shapeBody
            ((cpBodyPushArbiter stM (stM.shapeBody (stM.arbOf aid).a) aid).arbOf aid).b)
          aid).bodyOf e).rogueFlag = true ∨ e ∈ B := by
      intro i hi e he
      have he2 : e = st.shapeBody (st.arbOf i).a ∨ e = st.shapeBody (st.arbOf i).b := by
        rw [hsb2, (hpts i).1, (hpts i).2] at he
        exact he
      have hc := hend i (List.mem_cons_of_mem _ hi) e he2
      unfold cpBodyIsStatic at hc ⊢
      rw [(hflagsP e).1, (hflagsP e).2]
      exact hc
    exact ih _ rgM st1 rg1 h hnoneP2 hend2 hinvP2

/-- Phase 4 preserves `RogueInv` if every constraint endpoint is static,
rogue, or resident in `B`. -/
theorem phase4Loop_rogueInv (B : List BodyId) (fuel : Nat) :
    ∀ (n : Nat) (st : St) (rg : List BodyId) (j : Nat) (st1 : St) (rg1 : List BodyId),
      phase4Loop fuel n st rg j = some (st1, rg1) →
      (∀ x, (st.bodyOf x).node.next = none) →
      (∀ c ∈ st.constraints, ∀ e, (e = (st.consOf c).a ∨ e = (st.consOf c).b) →
        cpBodyIsStatic (st.bodyOf e) = true ∨ (st.bodyOf e).rogueFlag = true ∨ e ∈ B) →
      RogueInv B st rg →
      RogueInv B st1 rg1 := by
  intro n
  induction n with
  | zero => intro st rg j st1 rg1 h _ _ _; simp [phase4Loop] at h
  | succ k ih =>
    intro st rg j st1 rg1 h hnone hend hinv
    simp only [phase4Loop] at h
    split at h
    · rename_i hj
      simp only [Option.bind_eq_bind, Option.bind_eq_some] at h
      obtain ⟨⟨stM, rgM⟩, hmerge, h⟩ := h
      dsimp only at h
      have hcmem : st.constraints.get ⟨j, hj⟩ ∈ st.constraints := List.get_mem _ _ _
      have hinvM : RogueInv B stM rgM :=
        mergeBodies_rogueInv B fuel st rg _ _ stM rgM hnone
          (hend _ hcmem _ (Or.inl rfl)) (hend _ hcmem _ (Or.inr rfl)) hmerge hinv
      obtain ⟨hMn, hMf, hMi, _, hMB⟩ := mergeBodies_run fuel st rg _ _ stM rgM hnone hmerge
      have hcons : stM.constraints = st.constraints := by rw [hMB]
      have hconsOf : stM.consOf = st.consOf := by rw [hMB]
      have hend2 : ∀ c ∈ stM.constraints, ∀ e,
          (e = (stM.consOf c).a ∨ e = (stM.consOf c).b) →
          cpBodyIsStatic (stM.bodyOf e) = true ∨ (stM.bodyOf e).rogueFlag = true ∨ e ∈ B := by
        intro c hc e he
        rw [hcons] at hc
        rw [hconsOf] at he
        have h0 := hend c hc e he
        unfold cpBodyIsStatic at h0 ⊢
        rw [(hMf e).2, (hMf e).1]
        exact h0
      exact ih stM rgM (j + 1) st1 rg1 h hMn hend2 hinvM
    · simp only [Option.some.injEq, Prod.mk.injEq] at h
      obtain ⟨h1, h2⟩ := h
      subst h1; subst h2
      exact hinv

/-- The two `next`-splicing updates of `addToComponent` leave every
parent pointer alone. -/
theorem addT_parent_pres (stf : St) (root body : BodyId) (v : Option BodyId) :
    ∀ y, ((updBody (updBody stf body
        (fun bo => { bo with node := { bo.node with next := v } })) root
        (fun bo => { bo with node := { bo.node with next := some body } })).bodyOf y).node.parent
      = (stf.bodyOf y).node.parent := by
  intro y
  by_cases hrb : root = body
  · subst hrb
    by_cases hy : y = root <;> simp [updBody, hy]
  · by_cases hy1 : y = root
    · by_cases hy2 : y = body
      · exact absurd (hy1.symm.trans hy2) hrb
      · simp [updBody, hy1, hy2, hrb]
    · by_cases hy2 : y = body
      · have hbr : body ≠ root := fun hc => hy1 (hy2.trans hc)
        simp [updBody, hy1, hy2, hbr, hrb, Ne.symm hbr]
      · simp [updBody, hy1, hy2]

/-- `addToComponent` transports every established root (it changes only
`next` pointers and compresses paths). -/
theorem addToComponent_roots (fuel : Nat) (st : St) (comps : List BodyId)
    (body : BodyId) (st1 : St) (comps1 : List BodyId)
    (h : addToComponent fuel st comps body = some (st1, comps1)) :
    ∀ x r, RootsTo st x r → RootsTo st1 x r := by
  unfold addToComponent at h
  split at h
  · simp only [Option.some.injEq, Prod.mk.injEq] at h
    obtain ⟨h1, _⟩ := h
    subst h1
    exact fun x r hx => hx
  · simp only [Option.bind_eq_bind, Option.bind_eq_some] at h
    obtain ⟨⟨stf, root⟩, hfind, h⟩ := h
    dsimp only at h
    have hfw : ∀ x r, RootsTo st x r → RootsTo stf x r :=
      componentNodeRoot_rootsTo fuel st body stf root hfind
    cases hm : (stf.bodyOf root).node.next with
    | none =>
      rw [hm] at h
      simp only [Option.some.injEq, Prod.mk.injEq] at h
      obtain ⟨hst, _⟩ := h
      intro x r hx
      refine rootsTo_congr stf st1 ?_ (hfw x r hx)
      intro y
      rw [← hst]
      exact addT_parent_pres stf root body _ y
    | some nxt =>
      rw [hm] at h
      dsimp only at h
      split at h
      · simp only [Option.some.injEq, Prod.mk.injEq] at h
        obtain ⟨hst, _⟩ := h
        intro x r hx
        refine rootsTo_congr stf st1 ?_ (hfw x r hx)
        intro y
        rw [← hst]
        exact addT_parent_pres stf root body _ y
      · simp only [Option.some.injEq, Prod.mk.injEq] at h
        obtain ⟨hst, _⟩ := h
        subst hst
        exact hfw

/-- A body newly placed by `addToComponent` is the processed body or its
disjoint-set root. -/
theorem addToComponent_newly_placed (fuel : Nat) (st : St) (comps : List BodyId)
    (body : BodyId) (st1 : St) (comps1 : List BodyId)
    (h : addToComponent fuel st comps body = some (st1, comps1)) :
    ∀ x, (st1.bodyOf x).node.next.isSome = true →
      (st.bodyOf x).node.next.isSome = true ∨ x = body ∨ RootsTo st body x := by
  unfold addToComponent at h
  split at h
  · simp only [Option.some.injEq, Prod.mk.injEq] at h
    obtain ⟨h1, _⟩ := h
    subst h1
    exact fun x hx => Or.inl hx
  · simp only [Option.bind_eq_bind, Option.bind_eq_some] at h
    obtain ⟨⟨stf, root⟩, hfind, h⟩ := h
    dsimp only at h
    have hroot : RootsTo st body root :=
      componentNodeRoot_returns_root fuel st body stf root hfind
    have hframe := componentNodeRoot_body_frame fuel st body stf root hfind
    cases hm : (stf.bodyOf root).node.next with
    | none =>
      rw [hm] at h
      simp only [Option.some.injEq, Prod.mk.injEq] at h
      obtain ⟨hst, _⟩ := h
      intro x hx
      by_cases hxr : x = root
      · exact Or.inr (Or.inr (by rw [hxr]; exact hroot))
      · by_cases hxb : x = body
        · exact Or.inr (Or.inl hxb)
        · rw [← hst] at hx
          simp only [updBody, hxr, hxb, if_false] at hx
          rw [(hframe x).1] at hx
          exact Or.inl hx
    | some nxt =>
      rw [hm] at h
      dsimp only at h
      split at h
      · simp only [Option.some.injEq, Prod.mk.injEq] at h
        obtain ⟨hst, _⟩ := h
        intro x hx
        by_cases hxr : x = root
        · exact Or.inr (Or.inr (by rw [hxr]; exact hroot))
        · by_cases hxb : x = body
          · exact Or.inr (Or.inl hxb)
          · rw [← hst] at hx
            simp only [updBody, hxr, hxb, if_false] at hx
            rw [(hframe x).1] at hx
            exact Or.inl hx
      · simp only [Option.some.injEq, Prod.mk.injEq] at h
        obtain ⟨hst, _⟩ := h
        subst hst
        intro x hx
        rw [(hframe x).1] at hx
        exact Or.inl hx

/-- Every body placed by an `addAll` run either was already placed or is
a processed body or a processed body's root. -/
theorem addAll_placed_src (fuel : Nat) :
    ∀ (l : List BodyId) (st : St) (comps : List BodyId) (st1 : St) (comps1 : List BodyId),
      addAll fuel l st comps = some (st1, comps1) →
      TotalRoots st →
      ∀ x, (st1.bodyOf x).node.next.isSome = true →
        (st.bodyOf x).node.next.isSome = true ∨ ∃ b ∈ l, x = b ∨ RootsTo st b x := by
  intro l
  induction l with
  | nil =>
    intro st comps st1 comps1 h _ x hx
    simp only [addAll, Option.some.injEq, Prod.mk.injEq] at h
    obtain ⟨h1, _⟩ := h
    subst h1
    exact Or.inl hx
  | cons b rest ih =>
    intro st comps st1 comps1 h htr x hx
    simp only [addAll, Option.bind_eq_bind, Option.bind_eq_some] at h
    obtain ⟨⟨stb, compsb⟩, hstep, h⟩ := h
    dsimp only at h
    have hfw := addToComponent_roots fuel st comps b stb compsb hstep
    have htrb : TotalRoots stb := by
      intro c
      obtain ⟨r, hr⟩ := htr c
      exact ⟨r, hfw c r hr⟩
    rcases ih stb compsb st1 comps1 h htrb x hx with h1 | ⟨b2, hb2, h2⟩
    · rcases addToComponent_newly_placed fuel st comps b stb compsb hstep x h1 with
        h3 | h3 | h3
      · exact Or.inl h3
      · exact Or.inr ⟨b, List.mem_cons_self _ _, Or.inl h3⟩
      · exact Or.inr ⟨b, List.mem_cons_self _ _, Or.inr h3⟩
    · rcases h2 with h2 | h2
      · exact Or.inr ⟨b2, List.mem_cons_of_mem _ hb2, Or.inl h2⟩
      · exact Or.inr ⟨b2, List.mem_cons_of_mem _ hb2,
          Or.inr (evolves_id_backward hfw htr b2 x h2)⟩

/-- Phases 1–5, started from a clean space whose residents are not rogue
and whose arbiter and constraint endpoints are static, rogue or resident:
every assembled ring that contains a rogue member also contains a member
whose idle clock is zero. -/
theorem phases25_rogue (fuel : Nat) (st : St) (dt : ℤ) (st5 : St) (comps : List BodyId)
    (R : BodyId → List BodyId)
    (hcleanN : ∀ x, (st.bodyOf x).node.next = none)
    (hcleanP : ∀ x, (st.bodyOf x).node.parent = none)
    (hnb : ∀ x ∈ st.bodies, (st.bodyOf x).rogueFlag = false)
    (hendA : ∀ i ∈ st.arbiters, ∀ e,
        (e = st.shapeBody (st.arbOf i).a ∨ e = st.shapeBody (st.arbOf i).b) →
        cpBodyIsStatic (st.bodyOf e) = true ∨ (st.bodyOf e).rogueFlag = true ∨ e ∈ st.bodies)
    (hendC : ∀ c ∈ st.constraints, ∀ e, (e = (st.consOf c).a ∨ e = (st.consOf c).b) →
        cpBodyIsStatic (st.bodyOf e) = true ∨ (st.bodyOf e).rogueFlag = true ∨ e ∈ st.bodies)
    (h : phases25 fuel st dt = some (st5, comps))
    (hinv : RingsInv st5 comps R) :
    ∀ r ∈ comps, ∀ g ∈ R r, (st5.bodyOf g).rogueFlag = true →
      ∃ n ∈ R r, (st5.bodyOf n).node.idleTime = 0 := by
  obtain ⟨i1, i2, i3, i4, i5, i6⟩ := hinv
  unfold phases25 at h
  dsimp only at h
  simp only [Option.bind_eq_bind, Option.bind_eq_some] at h
  obtain ⟨⟨st3, rogue1⟩, h3, h⟩ := h
  obtain ⟨⟨st4, rogue2⟩, h4, h⟩ := h
  obtain ⟨⟨st5a, comps1⟩, h5a, h5b⟩ := h
  obtain ⟨hfold0, hfoldB0⟩ := foldl_updateIdle_frame dt
    (if st.idleSpeedThreshold ≠ 0 then st.idleSpeedThreshold * st.idleSpeedThreshold
     else st.gravitySq * dt * dt) st.bodies st
  obtain ⟨st2, hfold, hfoldB, h3⟩ :
      ∃ st2 : St, (∀ x, (st2.bodyOf x).node.next = (st.bodyOf x).node.next ∧
        (st2.bodyOf x).node.parent = (st.bodyOf x).node.parent ∧
        (st2.bodyOf x).rogueFlag = (st.bodyOf x).rogueFlag ∧
        (st2.bodyOf x).staticFlag = (st.bodyOf x).staticFlag) ∧
        st2 = { st with bodyOf := st2.bodyOf } ∧
        phase3Loop fuel st2.arbiters st2 [] = some (st3, rogue1) :=
    ⟨_, hfold0, hfoldB0, h3⟩
  have hnone2 : ∀ x, (st2.bodyOf x).node.next = none := fun x => by
    rw [(hfold x).1]; exact hcleanN x
  have hpar2 : ∀ x, (st2.bodyOf x).node.parent = none := fun x => by
    rw [(hfold x).2.1]; exact hcleanP x
  have hinv2 : RogueInv st.bodies st2 [] := by
    refine ⟨totalRoots_of_parent_none st2 hpar2, ?_, ?_⟩
    · intro g _ _ c hc
      exact (rootsTo_of_parent_none (hpar2 c) hc).symm
    · intro g hg
      exact absurd hg (List.not_mem_nil g)
  have hendA2 : ∀ i ∈ st2.arbiters, ∀ e,
      (e = st2.shapeBody (st2.arbOf i).a ∨ e = st2.shapeBody (st2.arbOf i).b) →
      cpBodyIsStatic (st2.bodyOf e) = true ∨ (st2.bodyOf e).rogueFlag = true ∨
        e ∈ st.bodies := by
    intro i hi e he
    have harbs2 : st2.arbiters = st.arbiters := by rw [hfoldB]
    have hsb2 : st2.shapeBody = st.shapeBody := by rw [hfoldB]
    have harbOf2 : st2.arbOf = st.arbOf := by rw [hfoldB]
    rw [harbs2] at hi
    rw [hsb2, harbOf2] at he
    have h0 := hendA i hi e he
    unfold cpBodyIsStatic at h0 ⊢
    rw [(hfold e).2.2.2, (hfold e).2.2.1]
    exact h0
  have hinv3 : RogueInv st.bodies st3 rogue1 :=
    phase3Loop_rogueInv st.bodies fuel st2.arbiters st2 [] st3 rogue1 h3 hnone2 hendA2 hinv2
  obtain ⟨h3n, h3f, h3i, _, h3B⟩ := phase3Loop_run fuel st2.arbiters st2 [] st3 rogue1 h3 hnone2
  have hendC3 : ∀ c ∈ st3.constraints, ∀ e,
      (e = (st3.consOf c).a ∨ e = (st3.consOf c).b) →
      cpBodyIsStatic (st3.bodyOf e) = true ∨ (st3.bodyOf e).rogueFlag = true ∨
        e ∈ st.bodies := by
    intro c hc e he
    have hc3 : st3.constraints = st.constraints := by rw [h3B, hfoldB]
    have hco3 : st3.consOf = st.consOf := by rw [h3B, hfoldB]
    rw [hc3] at hc
    rw [hco3] at he
    have h0 := hendC c hc e he
    unfold cpBodyIsStatic at h0 ⊢
    rw [(h3f e).2, (hfold e).2.2.2, (h3f e).1, (hfold e).2.2.1]
    exact h0
  have hinv4 : RogueInv st.bodies st4 rogue2 :=
    phase4Loop_rogueInv st.bodies fuel fuel st3 rogue1 0 st4 rogue2 h4 h3n hendC3 hinv3
  obtain ⟨h4n, h4f, h4i, _, h4B⟩ := phase4Loop_run fuel fuel st3 rogue1 0 st4 rogue2 h4 h3n
  have hbodies4 : st4.bodies = st.bodies := by rw [h4B, h3B, hfoldB]
  obtain ⟨htr4, hiso4, hcomp4⟩ := hinv4
  obtain ⟨R1, hinvR1, _, hidle1, hpres1, hplaced1, hroots1, hB1⟩ :=
    addAll_run fuel st4.bodies st4 [] st5a comps1 (fun _ => []) h5a (ringsInv_empty st4 h4n)
  obtain ⟨R2, hinvR2, _, hidle2, hpres2, hplaced2, hroots2, hB2⟩ :=
    addAll_run fuel rogue2 st5a comps1 st5 comps R1 h5b hinvR1
  have htr5a : TotalRoots st5a := by
    intro c
    obtain ⟨r0, hr0⟩ := htr4 c
    exact ⟨r0, hroots1 c r0 hr0⟩
  have hsrc1 := addAll_placed_src fuel st4.bodies st4 [] st5a comps1 h5a htr4
  have hsrc2 := addAll_placed_src fuel rogue2 st5a comps1 st5 comps h5b htr5a
  intro r hr g hg hgrogue5
  have hplacedg : (st5.bodyOf g).node.next.isSome = true := (i4 g).mpr ⟨r, hr, hg⟩
  have hgrogue4 : (st4.bodyOf g).rogueFlag = true := by
    rw [← (hidle1 g).2, ← (hidle2 g).2]
    exact hgrogue5
  have hgrogueSt : (st.bodyOf g).rogueFlag = true := by
    rw [← (hfold g).2.2.1, ← (h3f g).1, ← (h4f g).1]
    exact hgrogue4
  have hg2 : g ∈ rogue2 := by
    rcases hsrc2 g hplacedg with hpl5a | ⟨b2, hb2, hgb2⟩
    · rcases hsrc1 g hpl5a with hpl4 | ⟨b1, hb1, hgb1⟩
      · rw [h4n g] at hpl4
        cases hpl4
      · have hb1st : b1 ∈ st.bodies := by rw [← hbodies4]; exact hb1
        rcases hgb1 with hgb1 | hgb1
        · exfalso
          rw [hgb1, hnb b1 hb1st] at hgrogueSt
          cases hgrogueSt
        · by_cases hgr2 : g ∈ rogue2
          · exact hgr2
          · exfalso
            have hbg : b1 = g := hiso4 g hgrogue4 hgr2 b1 hgb1
            rw [← hbg] at hgrogueSt
            rw [hnb b1 hb1st] at hgrogueSt
            cases hgrogueSt
    · rcases hgb2 with hgb2 | hgb2
      · rw [hgb2]; exact hb2
      · by_cases hgr2 : g ∈ rogue2
        · exact hgr2
        · have hg4 : RootsTo st4 b2 g := evolves_id_backward hroots1 htr4 b2 g hgb2
          have hbg : b2 = g := hiso4 g hgrogue4 hgr2 b2 hg4
          rw [← hbg]
          exact hb2
  obtain ⟨_, x, n, hgx, hnx, hidle0n, hnmem⟩ := hcomp4 g hg2
  have hgx5 : RootsTo st5 g x := hroots2 g x (hroots1 g x hgx)
  have hnx5 : RootsTo st5 n x := hroots2 n x (hroots1 n x hnx)
  have hnidle5 : (st5.bodyOf n).node.idleTime = 0 := by
    rw [(hidle2 n).1, (hidle1 n).1]
    exact hidle0n
  have hnplaced : (st5.bodyOf n).node.next.isSome = true := by
    rcases hnmem with hn | hn
    · have hn4 : n ∈ st4.bodies := by rw [hbodies4]; exact hn
      exact hpres2 n (hplaced1 n hn4)
    · exact hplaced2 n hn
  obtain ⟨rn, hrn, hnr⟩ := (i4 n).mp hnplaced
  have hxr : x = r := rootsTo_det hgx5 (i5 r hr g hg)
  have hrnr : rn = r := by
    have h1 := i5 rn hrn n hnr
    have h2 := rootsTo_det h1 hnx5
    rw [h2, hxr]
  refine ⟨n, ?_, hnidle5⟩
  rw [← hrnr]
  exact hnr

/-- The phase-6 verdict loop with rogue tracking: with a positive
threshold, a ring containing a rogue can never be judged inactive (it
carries a zero-idle member), so parked rings stay rogue-free and at the
end every sleeping body is non-rogue. -/
theorem phase6Loop_rogue (fuel : Nat) (θ : ℤ) (hθpos : 0 < θ) :
    ∀ (rest : List BodyId) (st : St) (newB : List BodyId) (st1 : St) (newB1 : List BodyId)
      (R : BodyId → List BodyId),
      phase6Loop fuel rest st newB = some (st1, newB1) →
      rest.Nodup →
      (∀ r ∈ rest, ∃ xs, R r = r :: xs ∧ nextPath st r (r :: xs) ∧ (r :: xs).Nodup) →
      (∀ b r1 r2, r1 ∈ rest → r2 ∈ rest → b ∈ R r1 → b ∈ R r2 → r1 = r2) →
      (∀ b, (st.bodyOf b).node.next.isSome = true →
        (∃ r ∈ rest, b ∈ R r) ∨ (st.bodyOf b).rogueFlag = false) →
      (∀ r ∈ rest, (∃ g ∈ R r, (st.bodyOf g).rogueFlag = true) →
        ∃ n ∈ R r, (st.bodyOf n).node.idleTime = 0) →
      st.sleepTimeThreshold = θ →
      (∀ r ∈ st.sleepingComponents, ∃ xs,
        nextPath st r (r :: xs) ∧ (r :: xs).Nodup ∧
        (∀ m ∈ r :: xs, (st.bodyOf m).rogueFlag = false) ∧
        (∀ m ∈ r :: xs, ∀ r2 ∈ rest, m ∉ R r2)) →
      ((∀ r ∈ st1.sleepingComponents, ∃ xs,
        nextPath st1 r (r :: xs) ∧ (r :: xs).Nodup ∧
        (∀ m ∈ r :: xs, (st1.bodyOf m).rogueFlag = false)) ∧
       (∀ b, (st1.bodyOf b).node.next.isSome = true →
        (st1.bodyOf b).rogueFlag = false)) := by
  intro rest
  induction rest with
  | nil =>
    intro st newB st1 newB1 R h _ _ _ H4 _ _ hslept
    simp only [phase6Loop, Option.some.injEq, Prod.mk.injEq] at h
    obtain ⟨h1, h2⟩ := h
    subst h1; subst h2
    constructor
    · intro r hr
      obtain ⟨xs, hp, hnd, hflg, _⟩ := hslept r hr
      exact ⟨xs, hp, hnd, hflg⟩
    · intro b hb
      rcases H4 b hb with ⟨r, hr, _⟩ | hflg
      · cases hr
      · exact hflg
  | cons r rows ih =>
    intro st newB st1 newB1 R h hnd hrings hdisj H4 H7 hθeq hslept
    simp only [phase6Loop, Option.bind_eq_bind, Option.bind_eq_some] at h
    obtain ⟨⟨stP, newBP⟩, hpo, h⟩ := h
    dsimp only at h
    unfold processOneComponent at hpo
    simp only [Option.bind_eq_bind, Option.bind_eq_some] at hpo
    obtain ⟨active, hact, hpo⟩ := hpo
    obtain ⟨xs, hxs, hpath, hndring⟩ := hrings r (List.mem_cons_self _ _)
    have hrrows : r ∉ rows := (List.nodup_cons.mp hnd).1
    have hndrows : rows.Nodup := (List.nodup_cons.mp hnd).2
    have hrnxs : r ∉ xs := (List.nodup_cons.mp hndring).1
    have hsep : ∀ r2 ∈ rows, ∀ b ∈ R r2, b ∉ r :: xs := by
      intro r2 hr2 b hb hc
      have hbr : b ∈ R r := by rw [hxs]; exact hc
      have heq : r = r2 := hdisj b r r2 (List.mem_cons_self _ _)
        (List.mem_cons_of_mem _ hr2) hbr hb
      rw [heq] at hrrows
      exact hrrows hr2
    cases active with
    | true =>
      rw [if_pos rfl] at hpo
      obtain ⟨hNB, hmem, hout, hfrB⟩ :=
        republishLoop_run r xs fuel st newB r stP newBP hpo hpath hndring hrnxs
      have hscP : stP.sleepingComponents = st.sleepingComponents := by rw [hfrB]
      have hθ2 : stP.sleepTimeThreshold = θ := by rw [hfrB]; exact hθeq
      have hrings2 : ∀ r2 ∈ rows, ∃ xs2,
          R r2 = r2 :: xs2 ∧ nextPath stP r2 (r2 :: xs2) ∧ (r2 :: xs2).Nodup := by
        intro r2 hr2
        obtain ⟨xs2, hxs2, hpath2, hnd2⟩ := hrings r2 (List.mem_cons_of_mem _ hr2)
        refine ⟨xs2, hxs2, ?_, hnd2⟩
        refine nextPath_congr_mem st stP r2 _ ?_ hpath2
        intro z hz
        have hzring : z ∈ R r2 := by rw [hxs2]; exact hz
        rw [hout z (hsep r2 hr2 z hzring)]
      have H42 : ∀ b, (stP.bodyOf b).node.next.isSome = true →
          (∃ r2 ∈ rows, b ∈ R r2) ∨ (stP.bodyOf b).rogueFlag = false := by
        intro b hb
        by_cases hbr : b ∈ r :: xs
        · exfalso
          rw [hmem b hbr] at hb
          simp at hb
        · rw [hout b hbr] at hb ⊢
          rcases H4 b hb with ⟨r2, hr2, hbr2⟩ | hflg
          · rcases List.mem_cons.mp hr2 with hre | hre
            · exfalso
              rw [hre, hxs] at hbr2
              exact hbr hbr2
            · exact Or.inl ⟨r2, hre, hbr2⟩
          · exact Or.inr hflg
      have H72 : ∀ r2 ∈ rows, (∃ g ∈ R r2, (stP.bodyOf g).rogueFlag = true) →
          ∃ n ∈ R r2, (stP.bodyOf n).node.idleTime = 0 := by
        intro r2 hr2 hex
        obtain ⟨g2, hg2, hflag2⟩ := hex
        rw [hout g2 (hsep r2 hr2 g2 hg2)] at hflag2
        obtain ⟨n, hn, hidn⟩ := H7 r2 (List.mem_cons_of_mem _ hr2) ⟨g2, hg2, hflag2⟩
        refine ⟨n, hn, ?_⟩
        rw [hout n (hsep r2 hr2 n hn)]
        exact hidn
      have hslept2 : ∀ r0 ∈ stP.sleepingComponents, ∃ xs0,
          nextPath stP r0 (r0 :: xs0) ∧ (r0 :: xs0).Nodup ∧
          (∀ m ∈ r0 :: xs0, (stP.bodyOf m).rogueFlag = false) ∧
          (∀ m ∈ r0 :: xs0, ∀ r2 ∈ rows, m ∉ R r2) := by
        intro r0 hr0
        rw [hscP] at hr0
        obtain ⟨xs0, hp0, hnd0, hflg0, hdis0⟩ := hslept r0 hr0
        have hmembersOut : ∀ m ∈ r0 :: xs0, m ∉ r :: xs := by
          intro m hm hc
          exact hdis0 m hm r (List.mem_cons_self _ _) (by rw [hxs]; exact hc)
        refine ⟨xs0, ?_, hnd0, ?_, ?_⟩
        · refine nextPath_congr_mem st stP r0 _ ?_ hp0
          intro z hz
          rw [hout z (hmembersOut z hz)]
        · intro m hm
          rw [hout m (hmembersOut m hm)]
          exact hflg0 m hm
        · intro m hm r2 hr2
          exact hdis0 m hm r2 (List.mem_cons_of_mem _ hr2)
      exact ih stP newBP st1 newB1 R h hndrows hrings2
        (fun b r1 r2 h1 h2 => hdisj b r1 r2 (List.mem_cons_of_mem _ h1)
          (List.mem_cons_of_mem _ h2))
        H42 H72 hθ2 hslept2
    | false =>
      rw [if_neg Bool.false_ne_true] at hpo
      simp only [Option.bind_eq_bind, Option.bind_eq_some] at hpo
      obtain ⟨stD, hdeact, hpo⟩ := hpo
      simp only [Option.some.injEq, Prod.mk.injEq] at hpo
      obtain ⟨hstP, hnbP⟩ := hpo
      subst hnbP
      obtain ⟨hD1, hD2, hD3⟩ := deactivateRingLoop_run fuel r fuel st r stD hdeact
      have hbodyP : stP.bodyOf = st.bodyOf := by
        rw [← hstP]
        exact hD1
      have hθ2 : stP.sleepTimeThreshold = θ := by
        rw [← hstP]
        exact hD3.trans hθeq
      have hscP : stP.sleepingComponents = st.sleepingComponents ++ [r] := by
        rw [← hstP]
        dsimp only
        rw [hD2]
      have hθr : ∀ x ∈ r :: xs, θ ≤ (st.bodyOf x).node.idleTime := by
        have hca := componentActive_false fuel st r st.sleepTimeThreshold xs hpath hndring hact
        rw [hθeq] at hca
        exact hca
      have hringNoRogue : ∀ m ∈ r :: xs, (st.bodyOf m).rogueFlag = false := by
        intro m hm
        cases hc : (st.bodyOf m).rogueFlag
        · rfl
        · exfalso
          obtain ⟨n, hn, hidn⟩ := H7 r (List.mem_cons_self _ _)
            ⟨m, by rw [hxs]; exact hm, hc⟩
          rw [hxs] at hn
          have hge := hθr n hn
          rw [hidn] at hge
          exact absurd (lt_of_lt_of_le hθpos hge) (lt_irrefl 0)
      have hrings2 : ∀ r2 ∈ rows, ∃ xs2,
          R r2 = r2 :: xs2 ∧ nextPath stP r2 (r2 :: xs2) ∧ (r2 :: xs2).Nodup := by
        intro r2 hr2
        obtain ⟨xs2, hxs2, hpath2, hnd2⟩ := hrings r2 (List.mem_cons_of_mem _ hr2)
        exact ⟨xs2, hxs2, nextPath_congr_mem st stP r2 _
          (fun z _ => by rw [hbodyP]) hpath2, hnd2⟩
      have H42 : ∀ b, (stP.bodyOf b).node.next.isSome = true →
          (∃ r2 ∈ rows, b ∈ R r2) ∨ (stP.bodyOf b).rogueFlag = false := by
        intro b hb
        rw [hbodyP] at hb ⊢
        rcases H4 b hb with ⟨r2, hr2, hbr2⟩ | hflg
        · rcases List.mem_cons.mp hr2 with hre | hre
          · refine Or.inr ?_
            rw [hre, hxs] at hbr2
            exact hringNoRogue b hbr2
          · exact Or.inl ⟨r2, hre, hbr2⟩
        · exact Or.inr hflg
      have H72 : ∀ r2 ∈ rows, (∃ g ∈ R r2, (stP.bodyOf g).rogueFlag = true) →
          ∃ n ∈ R r2, (stP.bodyOf n).node.idleTime = 0 := by
        intro r2 hr2 hex
        obtain ⟨g2, hg2, hflag2⟩ := hex
        rw [hbodyP] at hflag2
        obtain ⟨n, hn, hidn⟩ := H7 r2 (List.mem_cons_of_mem _ hr2) ⟨g2, hg2, hflag2⟩
        refine ⟨n, hn, ?_⟩
        rw [hbodyP]
        exact hidn
      have hslept2 : ∀ r0 ∈ stP.sleepingComponents, ∃ xs0,
          nextPath stP r0 (r0 :: xs0) ∧ (r0 :: xs0).Nodup ∧
          (∀ m ∈ r0 :: xs0, (stP.bodyOf m).rogueFlag = false) ∧
          (∀ m ∈ r0 :: xs0, ∀ r2 ∈ rows, m ∉ R r2) := by
        intro r0 hr0
        rw [hscP] at hr0
        rcases List.mem_append.mp hr0 with hr0 | hr0
        · obtain ⟨xs0, hp0, hnd0, hflg0, hdis0⟩ := hslept r0 hr0
          refine ⟨xs0, nextPath_congr_mem st stP r0 _ (fun z _ => by rw [hbodyP]) hp0,
            hnd0, ?_, ?_⟩
          · intro m hm
            rw [hbodyP]
            exact hflg0 m hm
          · intro m hm r2 hr2
            exact hdis0 m hm r2 (List.mem_cons_of_mem _ hr2)
        · rw [List.mem_singleton.mp hr0]
          refine ⟨xs, nextPath_congr_mem st stP r _ (fun z _ => by rw [hbodyP]) hpath,
            hndring, ?_, ?_⟩
          · intro m hm
            rw [hbodyP]
            exact hringNoRogue m hm
          · intro m hm r2 hr2 hc
            exact hsep r2 hr2 m hc hm
      exact ih stP newB st1 newB1 R h hndrows hrings2
        (fun b r1 r2 h1 h2 => hdisj b r1 r2 (List.mem_cons_of_mem _ h1)
          (List.mem_cons_of_mem _ h2))
        H42 H72 hθ2 hslept2

/-- The verdict-loop traversal of a well-formed ring is the ring itself,
whatever fuel made it succeed. -/
theorem ringFrom_det (st : St) (root : BodyId) :
    ∀ (l : List BodyId) (body : BodyId) (n : Nat) (res : List BodyId),
      nextPath st root (body :: l) → root ∉ l →
      ringFrom st root n body = some res → res = body :: l := by
  intro l
  induction l with
  | nil =>
    intro body n res hpath hnr h
    cases n with
    | zero => cases h
    | succ k =>
      simp only [ringFrom] at h
      simp only [nextPath] at hpath
      rw [hpath] at h
      dsimp only at h
      rw [if_pos rfl] at h
      exact (Option.some.inj h).symm
  | cons y rest ih =>
    intro body n res hpath hnr h
    cases n with
    | zero => cases h
    | succ k =>
      simp only [ringFrom] at h
      simp only [nextPath] at hpath
      obtain ⟨hpy, hpt⟩ := hpath
      rw [hpy] at h
      dsimp only at h
      have hyr : y ≠ root := fun hc => hnr (by rw [← hc]; exact List.mem_cons_self _ _)
      rw [if_neg hyr] at h
      simp only [Option.map_eq_some'] at h
      obtain ⟨res0, hres0, hcons⟩ := h
      rw [ih y k res0 hpt (fun hc => hnr (List.mem_cons_of_mem _ hc)) hres0] at hcons
      exact hcons.symm

theorem republishLoop_flags (root : BodyId) :
    ∀ (n : Nat) (st : St) (newB : List BodyId) (body : BodyId)
      (st1 : St) (newB1 : List BodyId),
      republishLoop root n st newB body = some (st1, newB1) →
      ∀ x, (st1.bodyOf x).rogueFlag = (st.bodyOf x).rogueFlag := by
  intro n
  induction n with
  | zero => intro st newB body st1 newB1 h; cases h
  | succ k ih =>
    intro st newB body st1 newB1 h x
    simp only [republishLoop] at h
    cases hn : (st.bodyOf body).node.next with
    | none => rw [hn] at h; cases h
    | some nb =>
      rw [hn] at h
      dsimp only at h
      by_cases hr : nb = root
      · rw [if_pos hr] at h
        simp only [Option.some.injEq, Prod.mk.injEq] at h
        obtain ⟨hst, _⟩ := h
        rw [← hst]
        by_cases hx : x = body <;> simp [updBody, hx]
      · rw [if_neg hr] at h
        have hres := ih _ _ nb st1 newB1 h x
        rw [hres]
        by_cases hx : x = body <;> simp [updBody, hx]

theorem phase6Loop_flags (fuel : Nat) :
    ∀ (rest : List BodyId) (st : St) (newB : List BodyId) (st1 : St) (newB1 : List BodyId),
      phase6Loop fuel rest st newB = some (st1, newB1) →
      ∀ x, (st1.bodyOf x).rogueFlag = (st.bodyOf x).rogueFlag := by
  intro rest
  induction rest with
  | nil =>
    intro st newB st1 newB1 h x
    simp only [phase6Loop, Option.some.injEq, Prod.mk.injEq] at h
    obtain ⟨h1, _⟩ := h
    subst h1
    rfl
  | cons r rows ih =>
    intro st newB st1 newB1 h x
    simp only [phase6Loop, Option.bind_eq_bind, Option.bind_eq_some] at h
    obtain ⟨⟨stP, newBP⟩, hpo, h⟩ := h
    dsimp only at h
    unfold processOneComponent at hpo
    simp only [Option.bind_eq_bind, Option.bind_eq_some] at hpo
    obtain ⟨active, hact, hpo⟩ := hpo
    have hres := ih stP newBP st1 newB1 h x
    rw [hres]
    cases active with
    | true =>
      rw [if_pos rfl] at hpo
      exact republishLoop_flags r fuel st newB r stP newBP hpo x
    | false =>
      rw [if_neg Bool.false_ne_true] at hpo
      simp only [Option.bind_eq_bind, Option.bind_eq_some] at hpo
      obtain ⟨stD, hdeact, hpo⟩ := hpo
      simp only [Option.some.injEq, Prod.mk.injEq] at hpo
      obtain ⟨hstP, _⟩ := hpo
      have hD1 := (deactivateRingLoop_run fuel r fuel st r stD hdeact).1
      rw [← hstP]
      dsimp only
      rw [hD1]

/-! ## Claim C6 (amended) — rogue dominance at positive threshold -/

/-- C6 (amended): with a positive `sleepTimeThreshold`, starting from a
step boundary — no body sleeping or parented, no parked components,
residents not rogue, every arbiter and constraint endpoint static, rogue
or resident — a component whose ring contains a rogue body is never
deactivated: every ring parked in `sleepingComponents` by the run is
rogue-free, and no rogue body ends up sleeping. -/
theorem rogue_components_never_deactivated
    (fuel : Nat) (st : St) (dt : ℤ) (st' : St)
    (hcleanN : ∀ x, (st.bodyOf x).node.next = none)
    (hcleanP : ∀ x, (st.bodyOf x).node.parent = none)
    (hsc : st.sleepingComponents = [])
    (hθpos : 0 < st.sleepTimeThreshold)
    (hnb : ∀ x ∈ st.bodies, (st.bodyOf x).rogueFlag = false)
    (hendA : ∀ i ∈ st.arbiters, ∀ e,
        (e = st.shapeBody (st.arbOf i).a ∨ e = st.shapeBody (st.arbOf i).b) →
        cpBodyIsStatic (st.bodyOf e) = true ∨ (st.bodyOf e).rogueFlag = true ∨ e ∈ st.bodies)
    (hendC : ∀ c ∈ st.constraints, ∀ e, (e = (st.consOf c).a ∨ e = (st.consOf c).b) →
        cpBodyIsStatic (st.bodyOf e) = true ∨ (st.bodyOf e).rogueFlag = true ∨ e ∈ st.bodies)
    (h : cpSpaceProcessComponents fuel st dt = some st') :
    (∀ r ∈ st'.sleepingComponents, ∀ n l, ringFrom st' r n r = some l →
      ∀ m ∈ l, (st'.bodyOf m).rogueFlag = false) ∧
    (∀ g, (st.bodyOf g).rogueFlag = true → (st'.bodyOf g).node.next.isSome = false) := by
  unfold cpSpaceProcessComponents at h
  simp only [Option.bind_eq_bind, Option.bind_eq_some] at h
  obtain ⟨⟨st5, comps⟩, h25, h⟩ := h
  obtain ⟨⟨st6, newB⟩, hq, h⟩ := h
  dsimp only at hq h
  have hst' : { st6 with bodies := newB } = st' := Option.some.inj h
  obtain ⟨R, hinvR, hflags5, hAB⟩ := phases25_run fuel st dt st5 comps hcleanN h25
  have hcompanion := phases25_rogue fuel st dt st5 comps R hcleanN hcleanP hnb
    hendA hendC h25 hinvR
  obtain ⟨i1, i2, i3, i4, i5, i6⟩ := hinvR
  have hθeq : st5.sleepTimeThreshold = st.sleepTimeThreshold := by rw [hAB]
  have hsc5 : st5.sleepingComponents = [] := by rw [hAB]; exact hsc
  have hslept0 : ∀ r ∈ st5.sleepingComponents, ∃ xs,
      nextPath st5 r (r :: xs) ∧ (r :: xs).Nodup ∧
      (∀ m ∈ r :: xs, (st5.bodyOf m).rogueFlag = false) ∧
      (∀ m ∈ r :: xs, ∀ r2 ∈ comps, m ∉ R r2) := by
    rw [hsc5]
    intro r hr
    cases hr
  obtain ⟨hsleptF, hawakeF⟩ := phase6Loop_rogue fuel st.sleepTimeThreshold hθpos comps
    st5 [] st6 newB R hq i1 i2 i3
    (fun b hb => Or.inl ((i4 b).mp hb))
    (fun r hr hex => by
      obtain ⟨g, hg, hflag⟩ := hex
      exact hcompanion r hr g hg hflag)
    hθeq hslept0
  have hflags6 : ∀ x, (st6.bodyOf x).rogueFlag = (st.bodyOf x).rogueFlag := by
    intro x
    rw [phase6Loop_flags fuel comps st5 [] st6 newB hq x]
    exact hflags5 x
  constructor
  · intro r hr n l hring m hm
    rw [← hst'] at hr hring ⊢
    dsimp only at hr
    obtain ⟨xs, hp, hnd, hflg⟩ := hsleptF r hr
    have hp2 : nextPath { st6 with bodies := newB } r (r :: xs) :=
      nextPath_congr_mem st6 _ r _ (fun z _ => rfl) hp
    have hl := ringFrom_det { st6 with bodies := newB } r xs r n l hp2
      (List.nodup_cons.mp hnd).1 hring
    rw [hl] at hm
    exact hflg m hm
  · intro g hgflag
    rw [← hst']
    cases hc : (st6.bodyOf g).node.next.isSome with
    | false => rfl
    | true =>
      exfalso
      have hfalse := hawakeF g hc
      rw [hflags6 g, hgflag] at hfalse
      cases hfalse

/-- Witness for the amended C6: in `stRogueTouchPos` (rogue body 1
touching resident body 0, threshold 4) the run parks no rogue ring and
rogue body 1 stays awake. -/
theorem rogue_components_never_deactivated_witness :
    (cpSpaceProcessComponents 10 stRogueTouchPos 1).elim False (fun st' =>
      (∀ r ∈ st'.sleepingComponents, ∀ n l, ringFrom st' r n r = some l →
        ∀ m ∈ l, (st'.bodyOf m).rogueFlag = false) ∧
      (∀ g, (stRogueTouchPos.bodyOf g).rogueFlag = true →
        (st'.bodyOf g).node.next.isSome = false)) := by
  have hs : (cpSpaceProcessComponents 10 stRogueTouchPos 1).isSome = true := by decide
  match hh : cpSpaceProcessComponents 10 stRogueTouchPos 1 with
  | some st' =>
    simp only [Option.elim]
    refine rogue_components_never_deactivated 10 stRogueTouchPos 1 st'
      ?_ ?_ rfl (by decide) ?_ ?_ ?_ hh
    · intro x
      by_cases hx : x = 1 <;>
        simp [stRogueTouchPos, stRogueTouch, baseSt, baseBody, hx]
    · intro x
      by_cases hx : x = 1 <;>
        simp [stRogueTouchPos, stRogueTouch, baseSt, baseBody, hx]
    · intro x hx
      have hb : stRogueTouchPos.bodies = [0] := rfl
      rw [hb] at hx
      rw [List.mem_singleton.mp hx]
      decide
    · intro i hi e he
      have ha : stRogueTouchPos.arbiters = [0] := rfl
      rw [ha] at hi
      have hi0 : i = 0 := List.mem_singleton.mp hi
      subst hi0
      rcases he with he | he <;> subst he <;> decide
    · intro c hc e he
      have hcn : stRogueTouchPos.constraints = [] := rfl
      rw [hcn] at hc
      cases hc
  | none => rw [hh] at hs; cases hs

/-! ## Wake-ups: the ring invariant through componentActivate and mergeBodies -/

/-- One arbiter-activation step never touches the body store. -/
theorem activateArbStep_bodyOf (st : St) (body : BodyId) (i : ArbId) :
    (activateArbStep st body i).bodyOf = st.bodyOf := by
  unfold activateArbStep contactSetInsert updArb
  dsimp only
  split
  · split <;> rfl
  · rfl

theorem activateArbLoop_bodyOf (body : BodyId) :
    ∀ (fuel : Nat) (st : St) (link : Option ArbId) (st1 : St),
      activateArbLoop body fuel st link = some st1 → st1.bodyOf = st.bodyOf := by
  intro fuel
  induction fuel with
  | zero =>
    intro st link st1 h
    cases link with
    | none => cases h; rfl
    | some a => cases h
  | succ n ih =>
    intro st link st1 h
    cases link with
    | none => cases h; rfl
    | some a =>
      simp only [activateArbLoop] at h
      rw [ih _ _ _ h, activateArbStep_bodyOf]

theorem activateConsLoop_bodyOf (body : BodyId) :
    ∀ (fuel : Nat) (st : St) (link : Option ConsId) (st1 : St),
      activateConsLoop body fuel st link = some st1 → st1.bodyOf = st.bodyOf := by
  intro fuel
  induction fuel with
  | zero =>
    intro st link st1 h
    cases link with
    | none => cases h; rfl
    | some a => cases h
  | succ n ih =>
    intro st link st1 h
    cases link with
    | none => cases h; rfl
    | some a =>
      simp only [activateConsLoop] at h
      rw [ih _ _ _ h]
      split <;> rfl

theorem shapeActivateFold_bodyOf (shapes : List ShapeId) :
    ∀ (s : St), ((shapes.foldl (fun s sh =>
      { s with staticShapes := s.staticShapes.erase sh,
               activeShapes := sh :: s.activeShapes }) s)).bodyOf = s.bodyOf := by
  induction shapes with
  | nil => intro s; rfl
  | cons sh rest ih => intro s; exact ih _

/-- `cpSpaceActivateBody` never touches the body store. -/
theorem cpSpaceActivateBody_bodyOf (fuel : Nat) (st : St) (body : BodyId) (st2 : St)
    (h : cpSpaceActivateBody fuel st body = some st2) : st2.bodyOf = st.bodyOf := by
  unfold cpSpaceActivateBody at h
  split at h
  · cases h; rfl
  · simp only [Option.bind_eq_bind, Option.bind_eq_some] at h
    obtain ⟨st3, h3, h4⟩ := h
    rw [activateConsLoop_bodyOf body fuel _ _ _ h4, activateArbLoop_bodyOf body fuel _ _ _ h3]
    exact (shapeActivateFold_bodyOf _ _).trans rfl

/-- A successful `componentActivateLoop` lap over a well-formed ring
clears every member's node to `{NULL, NULL, 0, 0}` and leaves every other
body untouched. -/
theorem componentActivateLoop_run (fuel root : Nat) :
    ∀ (l : List BodyId) (n : Nat) (st : St) (body : BodyId) (st1 : St),
      componentActivateLoop fuel root n st body = some st1 →
      nextPath st root (body :: l) →
      (body :: l).Nodup →
      root ∉ l →
      (∀ x ∈ body :: l, (st1.bodyOf x).node = ⟨none, none, 0, 0⟩) ∧
      (∀ x, x ∉ body :: l → st1.bodyOf x = st.bodyOf x) := by
  intro l
  induction l with
  | nil =>
    intro n st body st1 h hpath hnd hnr
    cases n with
    | zero => cases h
    | succ k =>
      simp only [componentActivateLoop, Option.bind_eq_bind, Option.bind_eq_some] at h
      obtain ⟨st2, hact, hm⟩ := h
      have hb2 : st2.bodyOf = (updBody st body
          (fun bo => { bo with node := ⟨none, none, 0, 0⟩ })).bodyOf :=
        cpSpaceActivateBody_bodyOf fuel _ body st2 hact
      simp only [nextPath] at hpath
      rw [hpath] at hm
      dsimp only at hm
      rw [if_pos rfl] at hm
      cases hm
      refine ⟨?_, ?_⟩
      · intro x hx
        rw [List.mem_singleton.mp hx, hb2]
        simp [updBody]
      · intro x hx
        have hxb : x ≠ body := fun hc => hx (List.mem_singleton.mpr hc)
        rw [hb2]
        simp [updBody, hxb]
  | cons y rest ih =>
    intro n st body st1 h hpath hnd hnr
    cases n with
    | zero => cases h
    | succ k =>
      simp only [componentActivateLoop, Option.bind_eq_bind, Option.bind_eq_some] at h
      obtain ⟨st2, hact, hm⟩ := h
      have hb2 : st2.bodyOf = (updBody st body
          (fun bo => { bo with node := ⟨none, none, 0, 0⟩ })).bodyOf :=
        cpSpaceActivateBody_bodyOf fuel _ body st2 hact
      simp only [nextPath] at hpath
      obtain ⟨hpy, hptail⟩ := hpath
      rw [hpy] at hm
      dsimp only at hm
      have hyroot : y ≠ root := fun hc => hnr (by rw [← hc]; exact List.mem_cons_self _ _)
      rw [if_neg hyroot] at hm
      have hbody_nin : body ∉ y :: rest := (List.nodup_cons.mp hnd).1
      have hndtail : (y :: rest).Nodup := (List.nodup_cons.mp hnd).2
      have hnrtail : root ∉ rest := fun hc => hnr (List.mem_cons_of_mem _ hc)
      have hptail2 : nextPath st2 root (y :: rest) := by
        refine nextPath_congr_mem st st2 root _ ?_ hptail
        intro z hz
        have hzb : z ≠ body := fun hc => hbody_nin (hc ▸ hz)
        rw [hb2]
        simp [updBody, hzb]
      obtain ⟨hclr, hout⟩ := ih k st2 y st1 hm hptail2 hndtail hnrtail
      refine ⟨?_, ?_⟩
      · intro x hx
        rcases List.mem_cons.mp hx with hx | hx
        · subst hx
          rw [hout x hbody_nin, hb2]
          simp [updBody]
        · exact hclr x hx
      · intro x hx
        have hx1 : x ≠ body := fun hc => hx (hc ▸ List.mem_cons_self _ _)
        have hx2 : x ∉ y :: rest := fun hc => hx (List.mem_cons_of_mem _ hc)
        rw [hout x hx2, hb2]
        simp [updBody, hx1]

/-- A parent walk reaching `r` survives any state change that keeps the
parents of the bodies that root to `r`. -/
theorem findRoot_local (st st1 : St) (r : BodyId)
    (H : ∀ x, RootsTo st x r → (st1.bodyOf x).node.parent = (st.bodyOf x).node.parent) :
    ∀ (n : Nat) (b : BodyId), findRoot n st b = some r → findRoot n st1 b = some r := by
  intro n
  induction n with
  | zero => intro b hb; simp [findRoot] at hb
  | succ k ih =>
    intro b hb
    have hbr : RootsTo st b r := ⟨k + 1, hb⟩
    simp only [findRoot] at hb ⊢
    rw [H b hbr]
    cases hp : (st.bodyOf b).node.parent with
    | none =>
      rw [hp] at hb
      exact hb
    | some p =>
      rw [hp] at hb
      exact ih p hb

theorem rootsTo_local {st st1 : St} {r : BodyId}
    (H : ∀ x, RootsTo st x r → (st1.bodyOf x).node.parent = (st.bodyOf x).node.parent)
    {b : BodyId} (hb : RootsTo st b r) : RootsTo st1 b r := by
  obtain ⟨n, hn⟩ := hb
  exact ⟨n, findRoot_local st st1 r H n b hn⟩

/-- Totality of the parent forest survives a change that only erases
parent pointers. -/
theorem totalRoots_clears (st st1 : St)
    (H : ∀ x, (st1.bodyOf x).node.parent = (st.bodyOf x).node.parent ∨
              (st1.bodyOf x).node.parent = none)
    (htr : TotalRoots st) : TotalRoots st1 := by
  have main : ∀ (n : Nat) (b r : BodyId), findRoot n st b = some r →
      ∃ z, findRoot n st1 b = some z := by
    intro n
    induction n with
    | zero => intro b r hb; simp [findRoot] at hb
    | succ k ih =>
      intro b r hb
      simp only [findRoot] at hb ⊢
      rcases H b with hsame | hnone
      · rw [hsame]
        cases hp : (st.bodyOf b).node.parent with
        | none => exact ⟨b, rfl⟩
        | some p =>
          rw [hp] at hb
          obtain ⟨z, hz⟩ := ih p r hb
          exact ⟨z, hz⟩
      · rw [hnone]
        exact ⟨b, rfl⟩
  intro b
  obtain ⟨r, n, hn⟩ := htr b
  obtain ⟨z, hz⟩ := main n b r hn
  exact ⟨z, n, hz⟩

theorem next_none_of_not_sleeping {st : St} {r : BodyId}
    (h : ¬ cpBodyIsSleeping (st.bodyOf r) = true) : (st.bodyOf r).node.next = none := by
  cases hx : (st.bodyOf r).node.next with
  | none => rfl
  | some v => exact absurd (by unfold cpBodyIsSleeping; rw [hx]; rfl) h

/-- The ring invariant and root totality survive a change that keeps
every `next` and every `parent`. -/
theorem ringsInv_np_frame (st st1 : St) (P : List BodyId) (R : BodyId → List BodyId)
    (hnext : ∀ x, (st1.bodyOf x).node.next = (st.bodyOf x).node.next)
    (hpar : ∀ x, (st1.bodyOf x).node.parent = (st.bodyOf x).node.parent)
    (hinv : RingsInv st P R) (htr : TotalRoots st) :
    RingsInv st1 P R ∧ TotalRoots st1 := by
  refine ⟨ringsInv_transport st st1 P R hnext
    (fun x r hx => rootsTo_congr st st1 hpar hx)
    (fun r hr => by rw [hpar r]; exact hr) hinv, ?_⟩
  intro x
  obtain ⟨r, hr⟩ := htr x
  exact ⟨r, rootsTo_congr st st1 hpar hr⟩

/-- Waking one parked ring — clearing exactly its members — removes that
handle from the well-formed component system and keeps the others. -/
theorem ringsInv_wake (st st1 : St) (P : List BodyId) (R : BodyId → List BodyId) (r : BodyId)
    (hinv : RingsInv st P R) (hr : r ∈ P)
    (hmem : ∀ m ∈ R r, (st1.bodyOf m).node = ⟨none, none, 0, 0⟩)
    (hout : ∀ x, x ∉ R r → st1.bodyOf x = st.bodyOf x) :
    RingsInv st1 (P.erase r) R := by
  obtain ⟨i1, i2, i3, i4, i5, i6⟩ := hinv
  have hmemP : ∀ r2 ∈ P.erase r, r2 ∈ P ∧ r2 ≠ r := by
    intro r2 h2
    have h3 := (List.Nodup.mem_erase_iff i1).mp h2
    exact ⟨h3.2, h3.1⟩
  have hdisjR : ∀ r2 ∈ P.erase r, ∀ b ∈ R r2, b ∉ R r := by
    intro r2 h2 b hb hc
    exact (hmemP r2 h2).2 (i3 b r2 r (hmemP r2 h2).1 hr hb hc)
  refine ⟨i1.erase r, ?_, ?_, ?_, ?_, ?_⟩
  · intro r2 h2
    obtain ⟨xs, hxs, hpath, hnd⟩ := i2 r2 (hmemP r2 h2).1
    refine ⟨xs, hxs, ?_, hnd⟩
    refine nextPath_congr_mem st st1 r2 _ ?_ hpath
    intro z hz
    rw [hout z (hdisjR r2 h2 z (by rw [hxs]; exact hz))]
  · intro b r1 r2 h1 h2 hb1 hb2
    exact i3 b r1 r2 (hmemP r1 h1).1 (hmemP r2 h2).1 hb1 hb2
  · intro b
    by_cases hbR : b ∈ R r
    · constructor
      · intro hb
        rw [hmem b hbR] at hb
        cases hb
      · rintro ⟨r2, h2, hb2⟩
        exact absurd (i3 b r2 r (hmemP r2 h2).1 hr hb2 hbR) (hmemP r2 h2).2
    · rw [hout b hbR, i4 b]
      constructor
      · rintro ⟨r2, h2, hb2⟩
        have h2ne : r2 ≠ r := fun hc => hbR (hc ▸ hb2)
        exact ⟨r2, (List.Nodup.mem_erase_iff i1).mpr ⟨h2ne, h2⟩, hb2⟩
      · rintro ⟨r2, h2, hb2⟩
        exact ⟨r2, (hmemP r2 h2).1, hb2⟩
  · intro r2 h2 b hb
    refine rootsTo_local ?_ (i5 r2 (hmemP r2 h2).1 b hb)
    intro x hx
    have hxr : x ∉ R r := by
      intro hc
      exact (hmemP r2 h2).2 (rootsTo_det hx (i5 r hr x hc))
    rw [hout x hxr]
  · intro r2 h2
    obtain ⟨xs, hxs, _, _⟩ := i2 r2 (hmemP r2 h2).1
    have hr2r : r2 ∉ R r :=
      hdisjR r2 h2 r2 (by rw [hxs]; exact List.mem_cons_self _ _)
    rw [hout r2 hr2r]
    exact i6 r2 (hmemP r2 h2).1

theorem componentNodeMerge_parent_outside (st : St) (aR bR : BodyId) :
    ∀ x, x ≠ aR → x ≠ bR →
      ((componentNodeMerge st aR bR).bodyOf x).node.parent = (st.bodyOf x).node.parent := by
  intro x hxa hxb
  unfold componentNodeMerge
  split
  · simp [updBody, hxa]
  · split
    · simp [updBody, hxb]
    · split
      · simp [updBody, hxa, hxb]
      · rfl

/-- Zeroing one idle clock carries the ring invariant, root totality and
the root facts about the two merge roots. -/
theorem ringsInv_idleZero_pack (stZ : St) (c aR bR : BodyId)
    (P : List BodyId) (R : BodyId → List BodyId)
    (H : RingsInv stZ P R ∧ TotalRoots stZ ∧
      (stZ.bodyOf aR).node.parent = none ∧ (stZ.bodyOf bR).node.parent = none ∧
      (stZ.bodyOf aR).node.next = none ∧ (stZ.bodyOf bR).node.next = none) :
    RingsInv (updBody stZ c
        (fun bo => { bo with node := { bo.node with idleTime := 0 } })) P R ∧
      TotalRoots (updBody stZ c
        (fun bo => { bo with node := { bo.node with idleTime := 0 } })) ∧
      ((updBody stZ c (fun bo =>
        { bo with node := { bo.node with idleTime := 0 } })).bodyOf aR).node.parent = none ∧
      ((updBody stZ c (fun bo =>
        { bo with node := { bo.node with idleTime := 0 } })).bodyOf bR).node.parent = none ∧
      ((updBody stZ c (fun bo =>
        { bo with node := { bo.node with idleTime := 0 } })).bodyOf aR).node.next = none ∧
      ((updBody stZ c (fun bo =>
        { bo with node := { bo.node with idleTime := 0 } })).bodyOf bR).node.next = none := by
  obtain ⟨hinv, htr, hpa, hpb, hna, hnb⟩ := H
  have hnextF : ∀ x, ((updBody stZ c (fun bo =>
      { bo with node := { bo.node with idleTime := 0 } })).bodyOf x).node.next
      = (stZ.bodyOf x).node.next := by
    intro x
    by_cases hx : x = c <;> simp [updBody, hx]
  have hparF : ∀ x, ((updBody stZ c (fun bo =>
      { bo with node := { bo.node with idleTime := 0 } })).bodyOf x).node.parent
      = (stZ.bodyOf x).node.parent := by
    intro x
    by_cases hx : x = c <;> simp [updBody, hx]
  obtain ⟨h1, h2⟩ := ringsInv_np_frame stZ _ P R hnextF hparF hinv htr
  exact ⟨h1, h2, by rw [hparF aR]; exact hpa, by rw [hparF bR]; exact hpb,
    by rw [hnextF aR]; exact hna, by rw [hnextF bR]; exact hnb⟩

/-- Unioning two awake parentless roots preserves the well-formed parked
rings and root totality: ring handles are placed, so neither they nor any
body on a member's parent chain can be one of the two unioned roots. -/
theorem ringsInv_merge_pack (stZ : St) (aR bR : BodyId)
    (P : List BodyId) (R : BodyId → List BodyId)
    (H : RingsInv stZ P R ∧ TotalRoots stZ ∧
      (stZ.bodyOf aR).node.parent = none ∧ (stZ.bodyOf bR).node.parent = none ∧
      (stZ.bodyOf aR).node.next = none ∧ (stZ.bodyOf bR).node.next = none) :
    RingsInv (componentNodeMerge stZ aR bR) P R ∧
      TotalRoots (componentNodeMerge stZ aR bR) := by
  obtain ⟨hinv, htr, hpa, hpb, hna, hnb⟩ := H
  obtain ⟨i1, i2, i3, i4, i5, i6⟩ := hinv
  obtain ⟨hfr, _⟩ := componentNodeMerge_frame stZ aR bR
  have hhandle : ∀ r ∈ P, (stZ.bodyOf r).node.next.isSome = true := by
    intro r hr
    obtain ⟨xs, hxs, hpath, _⟩ := i2 r hr
    exact nextPath_isSome stZ r (r :: xs) hpath r (List.mem_cons_self _ _)
  have hne : ∀ r ∈ P, r ≠ aR ∧ r ≠ bR := by
    intro r hr
    constructor
    · intro hc
      have h1 := hhandle r hr
      rw [hc, hna] at h1
      cases h1
    · intro hc
      have h1 := hhandle r hr
      rw [hc, hnb] at h1
      cases h1
  have hH : ∀ r ∈ P, ∀ x, RootsTo stZ x r →
      ((componentNodeMerge stZ aR bR).bodyOf x).node.parent
        = (stZ.bodyOf x).node.parent := by
    intro r hr x hx
    have hxa : x ≠ aR := by
      intro hc
      subst hc
      exact (hne r hr).1 (rootsTo_of_parent_none hpa hx)
    have hxb : x ≠ bR := by
      intro hc
      subst hc
      exact (hne r hr).2 (rootsTo_of_parent_none hpb hx)
    exact componentNodeMerge_parent_outside stZ aR bR x hxa hxb
  obtain ⟨f, _, hev, _⟩ := componentNodeMerge_evolves stZ aR bR hpa hpb
  refine ⟨⟨i1, ?_, i3, ?_, ?_, ?_⟩, totalRoots_evolves hev htr⟩
  · intro r hr
    obtain ⟨xs, hxs, hpath, hnd⟩ := i2 r hr
    exact ⟨xs, hxs, nextPath_congr_mem stZ _ r _ (fun z _ => (hfr z).1) hpath, hnd⟩
  · intro b2
    rw [(hfr b2).1]
    exact i4 b2
  · intro r hr b2 hb2
    exact rootsTo_local (hH r hr) (i5 r hr b2 hb2)
  · intro r hr
    rw [componentNodeMerge_parent_outside stZ aR bR r (hne r hr).1 (hne r hr).2]
    exact i6 r hr

/-- `componentActivate` preserves the ring invariant (dropping the woken
handle if one was sleeping), keeps the forest total, leaves the argument
root unplaced, and only erases ring links and parent pointers. -/
theorem componentActivate_inv (fuel : Nat) (st : St) (r : BodyId) (st1 : St)
    (P : List BodyId) (R : BodyId → List BodyId)
    (hinv : RingsInv st P R) (htr : TotalRoots st)
    (hpar : (st.bodyOf r).node.parent = none)
    (h : componentActivate fuel st r = some st1) :
    ∃ P1, RingsInv st1 P1 R ∧ TotalRoots st1 ∧
      (st1.bodyOf r).node.next = none ∧
      (∀ x, (st.bodyOf x).node.next = none → (st1.bodyOf x).node.next = none) ∧
      (∀ x, (st.bodyOf x).node.parent = none → (st1.bodyOf x).node.parent = none) := by
  unfold componentActivate at h
  by_cases hslp : cpBodyIsSleeping (st.bodyOf r) = true
  · rw [if_neg (not_not_intro hslp)] at h
    cases hrg : cpBodyIsRogue (st.bodyOf r) with
    | true =>
      rw [if_pos hrg] at h
      cases h
    | false =>
      rw [if_neg (by rw [hrg]; exact Bool.false_ne_true)] at h
      simp only [Option.bind_eq_bind, Option.bind_eq_some] at h
      obtain ⟨stL, hloop, hfin⟩ := h
      simp only [Option.some.injEq] at hfin
      obtain ⟨i1, i2, i3, i4, i5, i6⟩ := hinv
      have hplaced : (st.bodyOf r).node.next.isSome = true := hslp
      obtain ⟨h0, h0P, hbR0⟩ := (i4 r).mp hplaced
      have heq : h0 = r := rootsTo_det (i5 h0 h0P r hbR0) (rootsTo_self hpar)
      subst heq
      obtain ⟨xs, hxs, hpath, hnd⟩ := i2 h0 h0P
      have hrnxs : h0 ∉ xs := (List.nodup_cons.mp hnd).1
      obtain ⟨hclr, houtL⟩ :=
        componentActivateLoop_run fuel h0 xs fuel st h0 stL hloop hpath hnd hrnxs
      have hb1 : st1.bodyOf = stL.bodyOf := by rw [← hfin]
      have hmemR : ∀ m ∈ R h0, (st1.bodyOf m).node = ⟨none, none, 0, 0⟩ := by
        intro m hm
        rw [hb1]
        rw [hxs] at hm
        exact hclr m hm
      have houtR : ∀ x, x ∉ R h0 → st1.bodyOf x = st.bodyOf x := by
        intro x hx
        rw [hb1]
        rw [hxs] at hx
        exact houtL x hx
      refine ⟨P.erase h0,
        ringsInv_wake st st1 P R h0 ⟨i1, i2, i3, i4, i5, i6⟩ h0P hmemR houtR,
        ?_, ?_, ?_, ?_⟩
      · refine totalRoots_clears st st1 ?_ htr
        intro x
        by_cases hx : x ∈ R h0
        · right
          rw [hmemR x hx]
        · left
          rw [houtR x hx]
      · have hrr : h0 ∈ R h0 := by rw [hxs]; exact List.mem_cons_self _ _
        rw [hmemR h0 hrr]
      · intro x hx
        by_cases hxr : x ∈ R h0
        · rw [hmemR x hxr]
        · rw [houtR x hxr]
          exact hx
      · intro x hx
        by_cases hxr : x ∈ R h0
        · rw [hmemR x hxr]
        · rw [houtR x hxr]
          exact hx
  · rw [if_pos hslp] at h
    have hst : st = st1 := Option.some.inj h
    subst hst
    exact ⟨P, hinv, htr, next_none_of_not_sleeping hslp,
      fun x hx => hx, fun x hx => hx⟩

/-- One `mergeBodies` call — including the wake-ups it triggers —
preserves well-formedness of the still-parked component rings and the
totality of the parent forest. -/
theorem mergeBodies_inv (fuel : Nat) (st : St) (rg : List BodyId) (a b : BodyId)
    (st1 : St) (rg1 : List BodyId) (P : List BodyId) (R : BodyId → List BodyId)
    (hinv : RingsInv st P R) (htr : TotalRoots st)
    (h : mergeBodies fuel st rg a b = some (st1, rg1)) :
    ∃ P1, RingsInv st1 P1 R ∧ TotalRoots st1 := by
  unfold mergeBodies at h
  split at h
  · simp only [Option.some.injEq, Prod.mk.injEq] at h
    obtain ⟨h1, _⟩ := h
    subst h1
    exact ⟨P, hinv, htr⟩
  · simp only [Option.bind_eq_bind, Option.bind_eq_some] at h
    obtain ⟨⟨stA, aRoot⟩, hfa, h⟩ := h
    obtain ⟨⟨stB, bRoot⟩, hfb, h⟩ := h
    dsimp only at hfb h
    have hFA := componentNodeRoot_body_frame fuel st a stA aRoot hfa
    have hFB := componentNodeRoot_body_frame fuel stA b stB bRoot hfb
    have heA : ∀ x r, RootsTo st x r → RootsTo stA x r :=
      componentNodeRoot_rootsTo fuel st a stA aRoot hfa
    have heB : ∀ x r, RootsTo stA x r → RootsTo stB x r :=
      componentNodeRoot_rootsTo fuel stA b stB bRoot hfb
    have hpresA : ∀ x, (st.bodyOf x).node.parent = none →
        (stA.bodyOf x).node.parent = none :=
      componentNodeRoot_parent_none_preserved fuel st a stA aRoot hfa
    have hpresB : ∀ x, (stA.bodyOf x).node.parent = none →
        (stB.bodyOf x).node.parent = none :=
      componentNodeRoot_parent_none_preserved fuel stA b stB bRoot hfb
    have hinvB : RingsInv stB P R :=
      ringsInv_transport stA stB P R (fun x => (hFB x).1) heB hpresB
        (ringsInv_transport st stA P R (fun x => (hFA x).1) heA hpresA hinv)
    have htrB : TotalRoots stB := by
      intro x
      obtain ⟨r, hr⟩ := htr x
      exact ⟨r, heB x r (heA x r hr)⟩
    have hra : RootsTo st a aRoot := componentNodeRoot_returns_root fuel st a stA aRoot hfa
    have hrbA : RootsTo stA b bRoot := componentNodeRoot_returns_root fuel stA b stB bRoot hfb
    have hpaB : (stB.bodyOf aRoot).node.parent = none :=
      hpresB aRoot (rootsTo_parent_none (heA a aRoot hra))
    have hpbB : (stB.bodyOf bRoot).node.parent = none :=
      rootsTo_parent_none (heB b bRoot hrbA)
    have hcb : ∀ (z : St) (c : BodyId), cpBodyIsRogue ((updBody z c
        (fun bo => { bo with node := { bo.node with idleTime := 0 } })).bodyOf b)
        = cpBodyIsRogue (z.bodyOf b) := by
      intro z c
      unfold cpBodyIsRogue updBody
      dsimp only
      by_cases hx : b = c <;> simp [hx]
    by_cases hslc : (cpBodyIsSleeping (stB.bodyOf aRoot)
        || cpBodyIsSleeping (stB.bodyOf bRoot)) = true
    · rw [if_pos hslc] at h
      simp only [Option.bind_eq_bind, Option.bind_eq_some] at h
      obtain ⟨s, hwA, h⟩ := h
      obtain ⟨st3, hwB, h⟩ := h
      obtain ⟨P1, hinv1, htr1, hnA1, hnp1, hpp1⟩ :=
        componentActivate_inv fuel stB aRoot s P R hinvB htrB hpaB hwA
      obtain ⟨P2, hinv2, htr2, hnB2, hnp2, hpp2⟩ :=
        componentActivate_inv fuel s bRoot st3 P1 R hinv1 htr1 (hpp1 bRoot hpbB) hwB
      have hpa3 : (st3.bodyOf aRoot).node.parent = none := hpp2 aRoot (hpp1 aRoot hpaB)
      have hpb3 : (st3.bodyOf bRoot).node.parent = none := hpp2 bRoot (hpp1 bRoot hpbB)
      have hna3 : (st3.bodyOf aRoot).node.next = none := hnp2 aRoot hnA1
      have hnb3 : (st3.bodyOf bRoot).node.next = none := hnB2
      by_cases hga : cpBodyIsRogue (st3.bodyOf a) = true
      · rw [if_pos hga] at h
        dsimp only at h
        rw [hcb st3 b] at h
        by_cases hgb : cpBodyIsRogue (st3.bodyOf b) = true
        · rw [if_pos hgb] at h
          dsimp only at h
          simp only [Option.some.injEq, Prod.mk.injEq] at h
          obtain ⟨hst, _⟩ := h
          subst hst
          exact ⟨P2, ringsInv_merge_pack _ aRoot bRoot P2 R
            (ringsInv_idleZero_pack _ a aRoot bRoot P2 R
              (ringsInv_idleZero_pack _ b aRoot bRoot P2 R
                ⟨hinv2, htr2, hpa3, hpb3, hna3, hnb3⟩))⟩
        · rw [if_neg hgb] at h
          dsimp only at h
          simp only [Option.some.injEq, Prod.mk.injEq] at h
          obtain ⟨hst, _⟩ := h
          subst hst
          exact ⟨P2, ringsInv_merge_pack _ aRoot bRoot P2 R
            (ringsInv_idleZero_pack _ b aRoot bRoot P2 R
              ⟨hinv2, htr2, hpa3, hpb3, hna3, hnb3⟩)⟩
      · rw [if_neg hga] at h
        dsimp only at h
        by_cases hgb : cpBodyIsRogue (st3.bodyOf b) = true
        · rw [if_pos hgb] at h
          dsimp only at h
          simp only [Option.some.injEq, Prod.mk.injEq] at h
          obtain ⟨hst, _⟩ := h
          subst hst
          exact ⟨P2, ringsInv_merge_pack _ aRoot bRoot P2 R
            (ringsInv_idleZero_pack _ a aRoot bRoot P2 R
              ⟨hinv2, htr2, hpa3, hpb3, hna3, hnb3⟩)⟩
        · rw [if_neg hgb] at h
          dsimp only at h
          simp only [Option.some.injEq, Prod.mk.injEq] at h
          obtain ⟨hst, _⟩ := h
          subst hst
          exact ⟨P2, ringsInv_merge_pack _ aRoot bRoot P2 R ⟨hinv2, htr2, hpa3, hpb3, hna3, hnb3⟩⟩
    · rw [if_neg hslc] at h
      simp only [Option.some_bind] at h
      have hsa : ¬ cpBodyIsSleeping (stB.bodyOf aRoot) = true :=
        fun hc => hslc (by rw [hc, Bool.true_or])
      have hsb : ¬ cpBodyIsSleeping (stB.bodyOf bRoot) = true :=
        fun hc => hslc (by rw [hc, Bool.or_true])
      have hnaB := next_none_of_not_sleeping hsa
      have hnbB := next_none_of_not_sleeping hsb
      by_cases hga : cpBodyIsRogue (stB.bodyOf a) = true
      · rw [if_pos hga] at h
        dsimp only at h
        rw [hcb stB b] at h
        by_cases hgb : cpBodyIsRogue (stB.bodyOf b) = true
        · rw [if_pos hgb] at h
          dsimp only at h
          simp only [Option.some.injEq, Prod.mk.injEq] at h
          obtain ⟨hst, _⟩ := h
          subst hst
          exact ⟨P, ringsInv_merge_pack _ aRoot bRoot P R
            (ringsInv_idleZero_pack _ a aRoot bRoot P R
              (ringsInv_idleZero_pack _ b aRoot bRoot P R
                ⟨hinvB, htrB, hpaB, hpbB, hnaB, hnbB⟩))⟩
        · rw [if_neg hgb] at h
          dsimp only at h
          simp only [Option.some.injEq, Prod.mk.injEq] at h
          obtain ⟨hst, _⟩ := h
          subst hst
          exact ⟨P, ringsInv_merge_pack _ aRoot bRoot P R
            (ringsInv_idleZero_pack _ b aRoot bRoot P R
              ⟨hinvB, htrB, hpaB, hpbB, hnaB, hnbB⟩)⟩
      · rw [if_neg hga] at h
        dsimp only at h
        by_cases hgb : cpBodyIsRogue (stB.bodyOf b) = true
        · rw [if_pos hgb] at h
          dsimp only at h
          simp only [Option.some.injEq, Prod.mk.injEq] at h
          obtain ⟨hst, _⟩ := h
          subst hst
          exact ⟨P, ringsInv_merge_pack _ aRoot bRoot P R
            (ringsInv_idleZero_pack _ a aRoot bRoot P R
              ⟨hinvB, htrB, hpaB, hpbB, hnaB, hnbB⟩)⟩
        · rw [if_neg hgb] at h
          dsimp only at h
          simp only [Option.some.injEq, Prod.mk.injEq] at h
          obtain ⟨hst, _⟩ := h
          subst hst
          exact ⟨P, ringsInv_merge_pack _ aRoot bRoot P R ⟨hinvB, htrB, hpaB, hpbB, hnaB, hnbB⟩⟩

/-- Phase 3 — merges with wake-ups, then arbiter pushes — preserves the
parked-ring invariant and root totality. -/
theorem phase3Loop_geninv (fuel : Nat) :
    ∀ (arbs : List ArbId) (st : St) (rg : List BodyId) (st1 : St) (rg1 : List BodyId)
      (P : List BodyId) (R : BodyId → List BodyId),
      phase3Loop fuel arbs st rg = some (st1, rg1) →
      RingsInv st P R → TotalRoots st →
      ∃ P1, RingsInv st1 P1 R ∧ TotalRoots st1 := by
  intro arbs
  induction arbs with
  | nil =>
    intro st rg st1 rg1 P R h hinv htr
    simp only [phase3Loop, Option.some.injEq, Prod.mk.injEq] at h
    obtain ⟨h1, _⟩ := h
    subst h1
    exact ⟨P, hinv, htr⟩
  | cons aid rest ih =>
    intro st rg st1 rg1 P R h hinv htr
    simp only [phase3Loop, Option.bind_eq_bind, Option.bind_eq_some] at h
    obtain ⟨⟨stM, rgM⟩, hmerge, h⟩ := h
    dsimp only at h
    obtain ⟨PM, hinvM, htrM⟩ := mergeBodies_inv fuel st rg _ _ stM rgM P R hinv htr hmerge
    obtain ⟨hP1, _⟩ := cpBodyPushArbiter_frame stM (stM.shapeBody (stM.arbOf aid).a) aid
    obtain ⟨hinv1, htr1⟩ := ringsInv_np_frame stM _ PM R
      (fun x => by rw [(hP1 x).1]) (fun x => by rw [(hP1 x).1]) hinvM htrM
    obtain ⟨hP2, _⟩ := cpBodyPushArbiter_frame
      (cpBodyPushArbiter stM (stM.shapeBody (stM.arbOf aid).a) aid)
      ((cpBodyPushArbiter stM (stM.shapeBody (stM.arbOf aid).a) aid).shapeBody
        ((cpBodyPushArbiter stM (stM.shapeBody (stM.arbOf aid).a) aid).arbOf aid).b) aid
    obtain ⟨hinv2, htr2⟩ := ringsInv_np_frame _ _ PM R
      (fun x => by rw [(hP2 x).1]) (fun x => by rw [(hP2 x).1]) hinv1 htr1
    exact ih _ rgM st1 rg1 PM R h hinv2 htr2

/-- Phase 4 — constraint merges with wake-ups — preserves the parked-ring
invariant and root totality. -/
theorem phase4Loop_geninv (fuel : Nat) :
    ∀ (n : Nat) (st : St) (rg : List BodyId) (j : Nat) (st1 : St) (rg1 : List BodyId)
      (P : List BodyId) (R : BodyId → List BodyId),
      phase4Loop fuel n st rg j = some (st1, rg1) →
      RingsInv st P R → TotalRoots st →
      ∃ P1, RingsInv st1 P1 R ∧ TotalRoots st1 := by
  intro n
  induction n with
  | zero => intro st rg j st1 rg1 P R h _ _; simp [phase4Loop] at h
  | succ k ih =>
    intro st rg j st1 rg1 P R h hinv htr
    simp only [phase4Loop] at h
    split at h
    · simp only [Option.bind_eq_bind, Option.bind_eq_some] at h
      obtain ⟨⟨stM, rgM⟩, hmerge, h⟩ := h
      dsimp only at h
      obtain ⟨PM, hinvM, htrM⟩ := mergeBodies_inv fuel st rg _ _ stM rgM P R hinv htr hmerge
      exact ih stM rgM (j + 1) st1 rg1 PM R h hinvM htrM
    · simp only [Option.some.injEq, Prod.mk.injEq] at h
      obtain ⟨h1, _⟩ := h
      subst h1
      exact ⟨P, hinv, htr⟩

/-- `addToComponent` reads its `components` accumulator only to append:
prefixing the accumulator prefixes the output. -/
theorem addToComponent_shift (fuel : Nat) (st : St) (C : List BodyId) (body : BodyId)
    (st1 : St) (C1 : List BodyId) (Pfx : List BodyId)
    (h : addToComponent fuel st C body = some (st1, C1)) :
    addToComponent fuel st (Pfx ++ C) body = some (st1, Pfx ++ C1) := by
  unfold addToComponent at h ⊢
  split at h
  · rename_i hplaced
    rw [if_pos hplaced]
    simp only [Option.some.injEq, Prod.mk.injEq] at h ⊢
    exact ⟨h.1, by rw [h.2]⟩
  · rename_i hnp
    rw [if_neg hnp]
    simp only [Option.bind_eq_bind, Option.bind_eq_some] at h ⊢
    obtain ⟨⟨stf, root⟩, hfind, h⟩ := h
    refine ⟨(stf, root), hfind, ?_⟩
    dsimp only at h ⊢
    cases hnx : (stf.bodyOf root).node.next with
    | none =>
      rw [hnx] at h
      simp only [Option.some.injEq, Prod.mk.injEq] at h ⊢
      refine ⟨h.1, ?_⟩
      rw [← h.2, List.append_assoc]
    | some nxt =>
      rw [hnx] at h
      dsimp only
      by_cases hrb : root ≠ body
      · simp only [if_pos hrb, Option.some.injEq, Prod.mk.injEq] at h ⊢
        exact ⟨h.1, by rw [h.2]⟩
      · simp only [if_neg hrb, Option.some.injEq, Prod.mk.injEq] at h ⊢
        exact ⟨h.1, by rw [h.2]⟩

/-- `addAll` likewise only appends to its accumulator. -/
theorem addAll_shift (fuel : Nat) :
    ∀ (l : List BodyId) (st : St) (C : List BodyId) (st1 : St) (C1 : List BodyId)
      (Pfx : List BodyId),
      addAll fuel l st C = some (st1, C1) →
      addAll fuel l st (Pfx ++ C) = some (st1, Pfx ++ C1) := by
  intro l
  induction l with
  | nil =>
    intro st C st1 C1 Pfx h
    simp only [addAll, Option.some.injEq, Prod.mk.injEq] at h ⊢
    exact ⟨h.1, by rw [h.2]⟩
  | cons b rest ih =>
    intro st C st1 C1 Pfx h
    simp only [addAll, Option.bind_eq_bind, Option.bind_eq_some] at h ⊢
    obtain ⟨⟨stb, Cb⟩, hstep, h⟩ := h
    exact ⟨(stb, Pfx ++ Cb), addToComponent_shift fuel st C b stb Cb Pfx hstep,
      ih stb Cb st1 C1 Pfx h⟩

/-- The phase-6 verdict loop over well-formed, pairwise-disjoint rings
whose members carry their phase-5 idle times: the accumulated `newBodies`
stays duplicate-free and every accumulated body keeps a cleared node with
its phase-5 idle time.  Nothing is assumed about bodies outside the
processed rings, so parked sleeping components may coexist. -/
theorem phase6Loop_part (fuel : Nat) (st5 : St) :
    ∀ (rest : List BodyId) (st : St) (newB : List BodyId) (st1 : St) (newB1 : List BodyId)
      (R : BodyId → List BodyId),
      phase6Loop fuel rest st newB = some (st1, newB1) →
      rest.Nodup →
      (∀ r ∈ rest, ∃ xs, R r = r :: xs ∧ nextPath st r (r :: xs) ∧ (r :: xs).Nodup) →
      (∀ b r1 r2, r1 ∈ rest → r2 ∈ rest → b ∈ R r1 → b ∈ R r2 → r1 = r2) →
      (∀ r ∈ rest, ∀ b ∈ R r,
        (st.bodyOf b).node.idleTime = (st5.bodyOf b).node.idleTime) →
      newB.Nodup →
      (∀ b ∈ newB, (st.bodyOf b).node = ⟨none, none, 0, (st5.bodyOf b).node.idleTime⟩) →
      (∀ b ∈ newB, ∀ r ∈ rest, b ∉ R r) →
      newB1.Nodup ∧
      (∀ b ∈ newB1, (st1.bodyOf b).node = ⟨none, none, 0, (st5.bodyOf b).node.idleTime⟩) := by
  intro rest
  induction rest with
  | nil =>
    intro st newB st1 newB1 R h _ _ _ _ hnodup hclears _
    simp only [phase6Loop, Option.some.injEq, Prod.mk.injEq] at h
    obtain ⟨h1, h2⟩ := h
    subst h1; subst h2
    exact ⟨hnodup, hclears⟩
  | cons r rows ih =>
    intro st newB st1 newB1 R h hnd hrings hdisj hidle5 hnodup hclears hdisjN
    simp only [phase6Loop, Option.bind_eq_bind, Option.bind_eq_some] at h
    obtain ⟨⟨stP, newBP⟩, hpo, h⟩ := h
    dsimp only at h
    unfold processOneComponent at hpo
    simp only [Option.bind_eq_bind, Option.bind_eq_some] at hpo
    obtain ⟨active, hact, hpo⟩ := hpo
    obtain ⟨xs, hxs, hpath, hndring⟩ := hrings r (List.mem_cons_self _ _)
    have hrrows : r ∉ rows := (List.nodup_cons.mp hnd).1
    have hndrows : rows.Nodup := (List.nodup_cons.mp hnd).2
    have hrnxs : r ∉ xs := (List.nodup_cons.mp hndring).1
    have hsep : ∀ r2 ∈ rows, ∀ b ∈ R r2, b ∉ r :: xs := by
      intro r2 hr2 b hb hc
      have hbr : b ∈ R r := by rw [hxs]; exact hc
      have heq : r = r2 := hdisj b r r2 (List.mem_cons_self _ _)
        (List.mem_cons_of_mem _ hr2) hbr hb
      rw [heq] at hrrows
      exact hrrows hr2
    cases active with
    | true =>
      rw [if_pos rfl] at hpo
      obtain ⟨hNB, hmem, hout, _⟩ :=
        republishLoop_run r xs fuel st newB r stP newBP hpo hpath hndring hrnxs
      have hfilter_sub : ∀ b ∈ (r :: xs).filter (fun x => !(st.bodyOf x).rogueFlag),
          b ∈ r :: xs := fun b hb => (List.mem_filter.mp hb).1
      have hrings2 : ∀ r2 ∈ rows, ∃ xs2,
          R r2 = r2 :: xs2 ∧ nextPath stP r2 (r2 :: xs2) ∧ (r2 :: xs2).Nodup := by
        intro r2 hr2
        obtain ⟨xs2, hxs2, hpath2, hnd2⟩ := hrings r2 (List.mem_cons_of_mem _ hr2)
        refine ⟨xs2, hxs2, ?_, hnd2⟩
        refine nextPath_congr_mem st stP r2 _ ?_ hpath2
        intro z hz
        have hzring : z ∈ R r2 := by rw [hxs2]; exact hz
        rw [hout z (hsep r2 hr2 z hzring)]
      have hidle52 : ∀ r2 ∈ rows, ∀ b ∈ R r2,
          (stP.bodyOf b).node.idleTime = (st5.bodyOf b).node.idleTime := by
        intro r2 hr2 b hb
        rw [hout b (hsep r2 hr2 b hb)]
        exact hidle5 r2 (List.mem_cons_of_mem _ hr2) b hb
      have hnodup2 : newBP.Nodup := by
        rw [hNB]
        refine List.Nodup.append hnodup (hndring.filter _) ?_
        intro b hb1 hb2
        exact hdisjN b hb1 r (List.mem_cons_self _ _)
          (by rw [hxs]; exact hfilter_sub b hb2)
      have hclears2 : ∀ b ∈ newBP,
          (stP.bodyOf b).node = ⟨none, none, 0, (st5.bodyOf b).node.idleTime⟩ := by
        rw [hNB]
        intro b hb
        rcases List.mem_append.mp hb with hb | hb
        · have hbnr : b ∉ r :: xs := fun hc =>
            hdisjN b hb r (List.mem_cons_self _ _) (by rw [hxs]; exact hc)
          rw [hout b hbnr]
          exact hclears b hb
        · have hbr : b ∈ r :: xs := hfilter_sub b hb
          rw [hmem b hbr]
          have hi5 : (st.bodyOf b).node.idleTime = (st5.bodyOf b).node.idleTime :=
            hidle5 r (List.mem_cons_self _ _) b (by rw [hxs]; exact hbr)
          dsimp only
          rw [hi5]
      have hdisjN2 : ∀ b ∈ newBP, ∀ r2 ∈ rows, b ∉ R r2 := by
        rw [hNB]
        intro b hb r2 hr2 hc
        rcases List.mem_append.mp hb with hb | hb
        · exact hdisjN b hb r2 (List.mem_cons_of_mem _ hr2) hc
        · exact hsep r2 hr2 b hc (hfilter_sub b hb)
      exact ih stP newBP st1 newB1 R h hndrows hrings2
        (fun b r1 r2 h1 h2 => hdisj b r1 r2 (List.mem_cons_of_mem _ h1)
          (List.mem_cons_of_mem _ h2))
        hidle52 hnodup2 hclears2 hdisjN2
    | false =>
      rw [if_neg Bool.false_ne_true] at hpo
      simp only [Option.bind_eq_bind, Option.bind_eq_some] at hpo
      obtain ⟨stD, hdeact, hpo⟩ := hpo
      simp only [Option.some.injEq, Prod.mk.injEq] at hpo
      obtain ⟨hstP, hnbP⟩ := hpo
      subst hnbP
      obtain ⟨hD1, _, _⟩ := deactivateRingLoop_run fuel r fuel st r stD hdeact
      have hbodyP : stP.bodyOf = st.bodyOf := by
        rw [← hstP]
        exact hD1
      have hrings2 : ∀ r2 ∈ rows, ∃ xs2,
          R r2 = r2 :: xs2 ∧ nextPath stP r2 (r2 :: xs2) ∧ (r2 :: xs2).Nodup := by
        intro r2 hr2
        obtain ⟨xs2, hxs2, hpath2, hnd2⟩ := hrings r2 (List.mem_cons_of_mem _ hr2)
        exact ⟨xs2, hxs2, nextPath_congr_mem st stP r2 _
          (fun z _ => by rw [hbodyP]) hpath2, hnd2⟩
      have hidle52 : ∀ r2 ∈ rows, ∀ b ∈ R r2,
          (stP.bodyOf b).node.idleTime = (st5.bodyOf b).node.idleTime := by
        intro r2 hr2 b hb
        rw [hbodyP]
        exact hidle5 r2 (List.mem_cons_of_mem _ hr2) b hb
      have hclears2 : ∀ b ∈ newB,
          (stP.bodyOf b).node = ⟨none, none, 0, (st5.bodyOf b).node.idleTime⟩ := by
        intro b hb
        rw [hbodyP]
        exact hclears b hb
      exact ih stP newB st1 newB1 R h hndrows hrings2
        (fun b r1 r2 h1 h2 => hdisj b r1 r2 (List.mem_cons_of_mem _ h1)
          (List.mem_cons_of_mem _ h2))
        hidle52 hnodup hclears2
        (fun b hb r2 hr2 => hdisjN b hb r2 (List.mem_cons_of_mem _ hr2))

/-! ## Claim C5 — the partition property of `cpSpaceProcessComponents` -/

/-- C5: after `cpSpaceProcessComponents` returns — entered, as at a step
boundary, with the parked sleeping components forming well-formed rings
and every unplaced body parentless (wake-ups of parked components during
the run are fully supported) — every body in the new `space.bodies`
appears exactly once, and its node is `{parent := absent, next := absent,
rank := 0}` with the idle time it had in the phase-5 state (the state in
which its component was judged active). -/
theorem processComponents_partition
    (fuel : Nat) (st : St) (dt : ℤ) (st5 : St) (comps : List BodyId) (st' : St)
    (P : List BodyId) (R0 : BodyId → List BodyId)
    (hinv0 : RingsInv st P R0)
    (hpar0 : ∀ x, (st.bodyOf x).node.next = none → (st.bodyOf x).node.parent = none)
    (h25 : phases25 fuel st dt = some (st5, comps))
    (h : cpSpaceProcessComponents fuel st dt = some st') :
    st'.bodies.Nodup ∧
    ∀ b ∈ st'.bodies,
      (st'.bodyOf b).node.parent = none ∧
      (st'.bodyOf b).node.next = none ∧
      (st'.bodyOf b).node.rank = 0 ∧
      (st'.bodyOf b).node.idleTime = (st5.bodyOf b).node.idleTime := by
  unfold cpSpaceProcessComponents at h
  simp only [Option.bind_eq_bind, Option.bind_eq_some] at h
  obtain ⟨⟨st5x, compsx⟩, hp, h⟩ := h
  rw [h25] at hp
  simp only [Option.some.injEq, Prod.mk.injEq] at hp
  obtain ⟨hp1, hp2⟩ := hp
  subst hp1; subst hp2
  obtain ⟨⟨st6, newB⟩, hq, h⟩ := h
  dsimp only at hq h
  have hst' : { st6 with bodies := newB } = st' := Option.some.inj h
  obtain ⟨i01, i02, i03, i04, i05, i06⟩ := hinv0
  have htr0 : TotalRoots st := by
    intro x
    cases hx : (st.bodyOf x).node.next with
    | none => exact ⟨x, rootsTo_self (hpar0 x hx)⟩
    | some v =>
      obtain ⟨r0, hr0P, hxr0⟩ := (i04 x).mp (by rw [hx]; rfl)
      exact ⟨r0, i05 r0 hr0P x hxr0⟩
  unfold phases25 at h25
  dsimp only at h25
  simp only [Option.bind_eq_bind, Option.bind_eq_some] at h25
  obtain ⟨⟨st3, rogue1⟩, h3, h25⟩ := h25
  obtain ⟨⟨st4, rogue2⟩, h4, h25⟩ := h25
  obtain ⟨⟨st5a, comps1⟩, h5a, h5b⟩ := h25
  obtain ⟨hfold, _⟩ := foldl_updateIdle_frame dt
    (if st.idleSpeedThreshold ≠ 0 then st.idleSpeedThreshold * st.idleSpeedThreshold
     else st.gravitySq * dt * dt) st.bodies st
  obtain ⟨hinv2, htr2⟩ := ringsInv_np_frame st _ P R0
    (fun x => (hfold x).1) (fun x => (hfold x).2.1) ⟨i01, i02, i03, i04, i05, i06⟩ htr0
  obtain ⟨P3, hinv3, htr3⟩ := phase3Loop_geninv fuel _ _ [] st3 rogue1 P R0 h3 hinv2 htr2
  obtain ⟨P4, hinv4, htr4⟩ :=
    phase4Loop_geninv fuel fuel st3 rogue1 0 st4 rogue2 P3 R0 h4 hinv3 htr3
  have h5a' := addAll_shift fuel st4.bodies st4 [] st5a comps1 P4 h5a
  rw [List.append_nil] at h5a'
  obtain ⟨R1, hinvA1, _, _, _, _, _, _⟩ :=
    addAll_run fuel st4.bodies st4 P4 st5a (P4 ++ comps1) R0 h5a' hinv4
  have h5b' := addAll_shift fuel rogue2 st5a comps1 st5 comps P4 h5b
  obtain ⟨R2, hinvA2, _, _, _, _, _, _⟩ :=
    addAll_run fuel rogue2 st5a (P4 ++ comps1) st5 (P4 ++ comps) R1 h5b' hinvA1
  obtain ⟨j1, j2, j3, _, _, _⟩ := hinvA2
  have hndc : comps.Nodup := (List.nodup_append.mp j1).2.1
  have hcore := phase6Loop_part fuel st5 comps st5 [] st6 newB R2 hq hndc
    (fun r hr => j2 r (List.mem_append_right _ hr))
    (fun b r1 r2 h1 h2 => j3 b r1 r2 (List.mem_append_right _ h1)
      (List.mem_append_right _ h2))
    (fun r _ b _ => rfl) List.nodup_nil
    (fun b hb => absurd hb (List.not_mem_nil b))
    (fun b hb => absurd hb (List.not_mem_nil b))
  obtain ⟨hnodup, hclearsF⟩ := hcore
  constructor
  · rw [← hst']
    exact hnodup
  · intro b hb
    rw [← hst'] at hb ⊢
    have hcl := hclearsF b hb
    dsimp only at hcl ⊢
    rw [hcl]
    exact ⟨rfl, rfl, rfl, rfl⟩

/-- Witness for C5: one step over `stAwakeParked` — an awake resident
plus a parked sleeping component — keeps the resident exactly once with a
cleared node carrying the accumulated idle time, the parked ring
untouched. -/
theorem processComponents_partition_witness :
    (phases25 6 stAwakeParked 1).elim False (fun p =>
      (cpSpaceProcessComponents 6 stAwakeParked 1).elim False (fun st' =>
        st'.bodies.Nodup ∧
        ∀ b ∈ st'.bodies,
          (st'.bodyOf b).node.parent = none ∧
          (st'.bodyOf b).node.next = none ∧
          (st'.bodyOf b).node.rank = 0 ∧
          (st'.bodyOf b).node.idleTime = (p.1.bodyOf b).node.idleTime)) := by
  have hs1 : (phases25 6 stAwakeParked 1).isSome = true := by decide
  have hs2 : (cpSpaceProcessComponents 6 stAwakeParked 1).isSome = true := by decide
  have hinv0 : RingsInv stAwakeParked [4] (fun r => if r = 4 then [4] else []) := by
    refine ⟨by decide, ?_, ?_, ?_, ?_, ?_⟩
    · intro r hr
      obtain rfl := List.mem_singleton.mp hr
      exact ⟨[], rfl, rfl, by decide⟩
    · intro b r1 r2 h1 h2 _ _
      obtain rfl := List.mem_singleton.mp h1
      obtain rfl := List.mem_singleton.mp h2
      rfl
    · intro b
      by_cases hb : b = 4
      · subst hb
        exact ⟨fun _ => ⟨4, by decide, by decide⟩, fun _ => by decide⟩
      · constructor
        · intro hc
          simp [stAwakeParked, baseSt, baseBody, hb] at hc
        · rintro ⟨r, hrP, hbr⟩
          obtain rfl := List.mem_singleton.mp hrP
          simp at hbr
          exact absurd hbr hb
    · intro r hr b hb
      obtain rfl := List.mem_singleton.mp hr
      simp at hb
      subst hb
      exact rootsTo_self (by decide)
    · intro r hr
      obtain rfl := List.mem_singleton.mp hr
      decide
  have hpar0 : ∀ x, (stAwakeParked.bodyOf x).node.next = none →
      (stAwakeParked.bodyOf x).node.parent = none := by
    intro x _
    by_cases hx : x = 4 <;> simp [stAwakeParked, baseSt, baseBody, hx]
  match h25 : phases25 6 stAwakeParked 1, hpc : cpSpaceProcessComponents 6 stAwakeParked 1 with
  | some (st5c, compsc), some st' =>
    simp only [Option.elim]
    exact processComponents_partition 6 stAwakeParked 1 st5c compsc st'
      [4] (fun r => if r = 4 then [4] else []) hinv0 hpar0 h25 hpc
  | some _, none => rw [hpc] at hs2; cases hs2
  | none, _ => rw [h25] at hs1; cases hs1

end Chipmunk2D
